import Mathlib

/-!
# Verification of the authenticated binary-tree state store

This file embeds the two variants of the repository's authenticated
key→value Merkle store in Lean 4 and proves (or refutes) the stated
properties against the embedding.

* Pointer variant (`src/bintree/rs_v0/src/main.rs`): an in-memory binary
  stem tree over 31-byte stems with sparse 256-leaf stem buckets,
  parallel bulk build (`from_entries`), incremental upsert
  (`insert_many_incremental`), and Merkle proof generation/verification.
* Flat variant (`src/bintree/src/hubt_rocksdb.rs`): an ordered map from
  `(path, len)` node keys to hashes with a bottom-up rehash step.

Bytes are modelled as `Nat`s (< 256) and byte strings as `List Nat`.
SHA-256 is implemented concretely (over byte lists, words as `Nat`
reduced `% 2^32`) so that every definition is executable.  Machine
integers from the source (`u8`, `u16`, `usize`) become `Nat`s; the
source's wrapping 32-bit arithmetic inside SHA-256 is the only place
where overflow matters and is made explicit with `% 2^32`.

Rust `HashMap`s are modelled as association lists; wherever the source
iterates a `HashMap`/`HashSet` in arbitrary order, the model fixes a
deterministic order, and where the result could depend on that order the
development proves it does not (e.g. permutation invariance of
`build_stem_tree` and of the sparse sub-tree fold, which re-sorts).
Recursions the source bounds by the 248-bit stem depth are given an
explicit fuel argument so that they remain structural; the fuel is
always instantiated so that it cannot run out on inputs that satisfy
the source's own invariants.
-/

namespace Chain

set_option maxRecDepth 400000
set_option maxHeartbeats 2000000

/-! ## Byte strings -/

/-- A byte string of length `n`: each element is a byte value below 256. -/
def isBytes (n : Nat) (l : List Nat) : Prop :=
  l.length = n ∧ ∀ b ∈ l, b < 256

instance (n : Nat) (l : List Nat) : Decidable (isBytes n l) := by
  unfold isBytes; infer_instance

/-- The 32-byte all-zero value (`ZERO32` in the source). -/
def ZERO32 : List Nat := List.replicate 32 0

/-! ## SHA-256

A direct implementation of FIPS 180-4 SHA-256 over byte lists, with
32-bit words represented as `Nat` and all word arithmetic reduced
modulo `2^32`.  This embeds the `sha2` crate calls of both source
files. -/

/-- 32-bit truncation. -/
def w32 (x : Nat) : Nat := x % 4294967296

/-- 32-bit addition. -/
def add32 (a b : Nat) : Nat := (a + b) % 4294967296

/-- 32-bit right rotation by `n` (for `0 < n < 32`). -/
def rotr32 (n x : Nat) : Nat := ((x >>> n) ||| (x <<< (32 - n))) % 4294967296

/-- 32-bit complement. -/
def not32 (x : Nat) : Nat := 4294967295 - x

/-- The SHA-256 round constants. -/
def shaK : List Nat :=
  [1116352408, 1899447441, 3049323471, 3921009573, 961987163, 1508970993, 2453635748, 2870763221,
   3624381080, 310598401, 607225278, 1426881987, 1925078388, 2162078206, 2614888103, 3248222580,
   3835390401, 4022224774, 264347078, 604807628, 770255983, 1249150122, 1555081692, 1996064986,
   2554220882, 2821834349, 2952996808, 3210313671, 3336571891, 3584528711, 113926993, 338241895,
   666307205, 773529912, 1294757372, 1396182291, 1695183700, 1986661051, 2177026350, 2456956037,
   2730485921, 2820302411, 3259730800, 3345764771, 3516065817, 3600352804, 4094571909, 275423344,
   430227734, 506948616, 659060556, 883997877, 958139571, 1322822218, 1537002063, 1747873779,
   1955562222, 2024104815, 2227730452, 2361852424, 2428436474, 2756734187, 3204031479, 3329325298]

/-- The SHA-256 initial hash value. -/
def shaH0 : List Nat :=
  [1779033703, 3144134277, 1013904242, 2773480762, 1359893119, 2600822924, 528734635, 1541459225]

/-- SHA-256 padding: append `0x80`, zero bytes to 56 mod 64, and the
64-bit big-endian bit length. -/
def shaPad (msg : List Nat) : List Nat :=
  let bitLen := msg.length * 8
  let padZeros := (55 + 64 - msg.length % 64) % 64
  msg ++ [128] ++ List.replicate padZeros 0 ++
    [bitLen >>> 56 &&& 255, bitLen >>> 48 &&& 255, bitLen >>> 40 &&& 255, bitLen >>> 32 &&& 255,
     bitLen >>> 24 &&& 255, bitLen >>> 16 &&& 255, bitLen >>> 8 &&& 255, bitLen &&& 255]

/-- Collect the 16 big-endian 32-bit words of a 64-byte block. -/
def shaWords : List Nat → List Nat
  | b0 :: b1 :: b2 :: b3 :: rest =>
      (((b0 <<< 24) ||| (b1 <<< 16) ||| (b2 <<< 8) ||| b3) % 4294967296) :: shaWords rest
  | _ => []

/-- Extend the 16-word schedule to 64 words (`n` extension steps). -/
def shaExtend : Nat → List Nat → List Nat
  | 0, ws => ws
  | n+1, ws =>
      let i := ws.length
      let s0 :=
        (rotr32 7 (ws.getD (i-15) 0)) ^^^ (rotr32 18 (ws.getD (i-15) 0)) ^^^ ((ws.getD (i-15) 0) >>> 3)
      let s1 :=
        (rotr32 17 (ws.getD (i-2) 0)) ^^^ (rotr32 19 (ws.getD (i-2) 0)) ^^^ ((ws.getD (i-2) 0) >>> 10)
      shaExtend n (ws ++ [(ws.getD (i-16) 0 + s0 + ws.getD (i-7) 0 + s1) % 4294967296])

/-- One SHA-256 compression round; the state is the list `[a,b,c,d,e,f,g,h]`. -/
def shaRound (st : List Nat) (kw : Nat × Nat) : List Nat :=
  match st with
  | [a, b, c, d, e, f, g, h] =>
      let s1 := (rotr32 6 e) ^^^ (rotr32 11 e) ^^^ (rotr32 25 e)
      let ch := (e &&& f) ^^^ ((not32 e) &&& g)
      let t1 := (h + s1 + ch + kw.1 + kw.2) % 4294967296
      let s0 := (rotr32 2 a) ^^^ (rotr32 13 a) ^^^ (rotr32 22 a)
      let mj := (a &&& b) ^^^ (a &&& c) ^^^ (b &&& c)
      let t2 := (s0 + mj) % 4294967296
      [(t1 + t2) % 4294967296, a, b, c, (d + t1) % 4294967296, e, f, g]
  | other => other

/-- Compress one 64-byte block into the running hash state. -/
def shaCompress (h : List Nat) (block : List Nat) : List Nat :=
  let ws := shaExtend 48 (shaWords block)
  let st := (shaK.zip ws).foldl (fun s kw => shaRound s kw) h
  (h.zip st).map (fun p => (p.1 + p.2) % 4294967296)

/-- Fold the compression over all 64-byte blocks (fuel-driven; the fuel
is instantiated with the message length, which bounds the block count). -/
def shaBlocks : Nat → List Nat → List Nat → List Nat
  | 0, h, _ => h
  | fuel+1, h, msg =>
      match msg with
      | [] => h
      | _ => shaBlocks fuel (shaCompress h (msg.take 64)) (msg.drop 64)

/-- Serialize the eight state words as 32 big-endian bytes. -/
def shaOut (h : List Nat) : List Nat :=
  h.flatMap (fun w => [w >>> 24 &&& 255, w >>> 16 &&& 255, w >>> 8 &&& 255, w &&& 255])

/-- SHA-256 of a byte list, as 32 bytes.  Embeds `Sha256::digest` /
`sha256_32` of the pointer variant and `sha256` of the flat variant. -/
def sha256_32 (data : List Nat) : List Nat :=
  let padded := shaPad data
  shaOut (shaBlocks (padded.length + 1) shaH0 padded)

/-! ## Pointer variant: hash primitives (`rs_v0/src/main.rs`)

A `Bytes32` of the source is a `List Nat` of 32 bytes; a `Stem` is a
`List Nat` of 31 bytes. -/

/-- `h32or64`: `H(data)` with the "zeros64 → zeros32" rule so totally
empty internal nodes hash to `0x00…00`. -/
def h32or64 (data : List Nat) : List Nat :=
  if data.length = 64 ∧ ∀ b ∈ data, b = 0 then ZERO32 else sha256_32 data

/-- `stem_bit`: MSB-first bit `depth` of a 31-byte stem. -/
def stem_bit (stem : List Nat) (depth : Nat) : Nat :=
  (stem.getD (depth / 8) 0) >>> (7 - depth % 8) &&& 1

/-- `h_pair`: hash the concatenation of two 32-byte nodes. -/
def h_pair (left right : List Nat) : List Nat :=
  h32or64 (left ++ right)

/-- `stem_node_hash`: `H(stem ‖ 0 ‖ subtree_root)` under the same rule. -/
def stem_node_hash (stem : List Nat) (subtree_root : List Nat) : List Nat :=
  h32or64 (stem ++ [0] ++ subtree_root)

/-! ## Pointer variant: sparse 256-leaf sub-tree fold

The source's `HashMap<u8, Bytes32>` is modelled as an association list
with pairwise distinct keys.  Each fold level of the source first sorts
the `(index, hash)` node list (`sort_unstable_by_key`) and then scans
adjacent pairs; `pairScan` is the scan and `foldLevel` one whole level. -/

/-- Association-list lookup (models `HashMap::get`). -/
def mapLookup (m : List (Nat × List Nat)) (k : Nat) : Option (List Nat) :=
  (m.find? (fun p => p.1 == k)).map (·.2)

/-- Association-list insert-or-overwrite (models `HashMap::insert`). -/
def mapInsert (m : List (Nat × List Nat)) (k : Nat) (v : List Nat) :
    List (Nat × List Nat) :=
  if m.any (fun p => p.1 == k) then
    m.map (fun p => if p.1 == k then (k, v) else p)
  else m ++ [(k, v)]

/-- The source sorts node lists with `sort_unstable_by_key(|(i,_)| *i)`;
since the keys being sorted are pairwise distinct wherever this is
called, every correct sort produces the same list, so a concrete
insertion sort stands in for the unstable sort. -/
def sortNodes (ns : List (Nat × List Nat)) : List (Nat × List Nat) :=
  List.insertionSort (fun a b => a.1 ≤ b.1) ns

/-- The pair scan of one fold level: combine an adjacent real sibling
(`indices differing in the lowest bit`) or the zero default. -/
def pairScan : List (Nat × List Nat) → List (Nat × List Nat)
  | [] => []
  | [(idx, h)] => [(idx / 2, if idx % 2 = 0 then h_pair h ZERO32 else h_pair ZERO32 h)]
  | (idx, h) :: (idx2, h2) :: rest2 =>
    if idx2 = idx ^^^ 1 then
      (idx / 2, if idx % 2 = 0 then h_pair h h2 else h_pair h2 h) :: pairScan rest2
    else
      (idx / 2, if idx % 2 = 0 then h_pair h ZERO32 else h_pair ZERO32 h) ::
        pairScan ((idx2, h2) :: rest2)

/-- One fold level: sort, then scan in pairs. -/
def foldLevel (ns : List (Nat × List Nat)) : List (Nat × List Nat) :=
  pairScan (sortNodes ns)

/-- `subtree_root_sparse`: the 256-leaf subtree root from present leaves
only, leaf hash `H(value)`, folded up 8 levels. -/
def subtree_root_sparse (leaves : List (Nat × List Nat)) : List Nat :=
  if leaves = [] then ZERO32
  else
    let init := leaves.map (fun p => (p.1, sha256_32 p.2))
    ((foldLevel^[8]) init).headD (0, ZERO32) |>.2

/-- `sibling_at_level_sparse`: the sibling subtree hash at level `lvl`
for target index `sub`: all present leaves `j` with
`j >>> lvl = (sub >>> lvl) ^^^ 1`, folded `lvl` levels at their
positions within the sibling subtree. -/
def sibling_at_level_sparse (leaves : List (Nat × List Nat)) (sub : Nat) (lvl : Nat) :
    List Nat :=
  let sibParent := (sub >>> lvl) ^^^ 1
  let mask := (1 <<< lvl) - 1
  let nodes := (leaves.filter (fun p => p.1 >>> lvl == sibParent)).map
    (fun p => (p.1 &&& mask, sha256_32 p.2))
  if nodes = [] then ZERO32
  else ((foldLevel^[lvl]) nodes).headD (0, ZERO32) |>.2

/-- `subtree_root_one_leaf`: the single-leaf fast path, starting from
`H(value)` and combining with zero eight times, sides by the bits of
`sub` from LSB to MSB. -/
def subtree_root_one_leaf (sub : Nat) (value32 : List Nat) : List Nat :=
  go 8 sub (sha256_32 value32)
where
  go : Nat → Nat → List Nat → List Nat
    | 0, _, h => h
    | n+1, idx, h =>
      go n (idx >>> 1) (if idx &&& 1 = 0 then h_pair h ZERO32 else h_pair ZERO32 h)

/-- `subtree_root_sparse_pairs`: the bulk-build variant of the sparse
fold, over a `(sub, value)` slice (with distinct subs), with fast paths
for zero and one leaf. -/
def subtree_root_sparse_pairs (leaves : List (Nat × List Nat)) : List Nat :=
  match leaves with
  | [] => ZERO32
  | [(sub, val)] => subtree_root_one_leaf sub val
  | _ =>
    let nodes := sortNodes (leaves.map (fun p => (p.1, sha256_32 p.2)))
    ((pairScan^[8]) nodes).headD (0, ZERO32) |>.2

/-! ## Pointer variant: stem tree nodes and builders -/

/-- A stem bucket: the authenticated state of the keys sharing a stem. -/
structure StemBucket where
  stem : List Nat
  leaves : List (Nat × List Nat)
  subtree_root : List Nat
  stem_hash : List Nat
deriving DecidableEq, Repr

/-- `StemBucket::new`. -/
def StemBucket.new (stem : List Nat) : StemBucket :=
  let subtree_root := subtree_root_sparse []
  { stem, leaves := [], subtree_root, stem_hash := stem_node_hash stem subtree_root }

/-- `recompute_hashes` applied to a bucket. -/
def StemBucket.recompute (sb : StemBucket) : StemBucket :=
  let subtree_root := subtree_root_sparse sb.leaves
  { sb with subtree_root, stem_hash := stem_node_hash sb.stem subtree_root }

instance : Inhabited StemBucket := ⟨⟨[], [], ZERO32, ZERO32⟩⟩

/-- The stem tree node: `Internal | StemLeaf | Empty`. -/
inductive Node where
  | Internal (hash : List Nat) (left right : Node)
  | StemLeaf (hash : List Nat) (stem : List Nat)
  | Empty
deriving DecidableEq, Repr

/-- `Node::hash`. -/
def Node.hash : Node → List Nat
  | .Empty => ZERO32
  | .StemLeaf h _ => h
  | .Internal h _ _ => h

/-- `lcp_bits_from`: first bit index `≥ from` where two stems differ, or
248 when they agree on all bits from `from` on.  The source's `while`
loop is driven by the fuel `248 - from`, which keeps it structural and
makes it stop exactly at bit 248. -/
def lcp_bits_from (a b : List Nat) (i : Nat) : Nat :=
  go (248 - i) i
where
  go : Nat → Nat → Nat
    | 0, i => i
    | f+1, i => if stem_bit a i = stem_bit b i then go f (i+1) else i

/-- `wrap_with_empties_up`: wrap `child` upward with `to - from`
`Internal` nodes whose non-matching sibling is `Empty`, at levels
`to-1, …, from`, sides chosen by the stem's bits. -/
def wrap_with_empties_up (child : Node) (stem : List Nat) (fromD toD : Nat) : Node :=
  go child (toD - fromD)
where
  go : Node → Nat → Node
    | c, 0 => c
    | c, n+1 =>
      let lvl := fromD + n
      let c' :=
        if stem_bit stem lvl = 0 then
          Node.Internal (h_pair c.hash ZERO32) c .Empty
        else
          Node.Internal (h_pair ZERO32 c.hash) .Empty c
      go c' n

/-- One wrapping step of `wrap_with_empties_up`: an `Internal` node with
the child on the side picked by the stem's bit at `lvl` and `Empty` on
the other side (proof-side name for the loop body). -/
def wrapAt (stem : List Nat) (lvl : Nat) (c : Node) : Node :=
  if stem_bit stem lvl = 0 then Node.Internal (h_pair c.hash ZERO32) c .Empty
  else Node.Internal (h_pair ZERO32 c.hash) .Empty c

/-- `build_stem_tree_sorted_parallel`: build from stem-sorted buckets by
LCP extension and partition point; the two recursive halves are
combined the same way whether or not the source runs them on two rayon
tasks, so the model is the plain recursion.  `partition_point` on the
sorted slice equals the length of the `takeWhile` prefix.  Recursion is
by the fuel `248`, which cannot run out: each step moves the depth past
a differing bit of two distinct 248-bit stems. -/
def build_stem_tree_sorted_parallel (fuel : Nat) (stems : List StemBucket) (depth : Nat) :
    Node :=
  match fuel, stems with
  | _, [] => .Empty
  | _, [sb] => .StemLeaf sb.stem_hash sb.stem
  | 0, _ => .Empty
  | f+1, stems =>
    let d := lcp_bits_from (stems.headD default).stem (stems.getLastD default).stem depth
    let split := (stems.takeWhile (fun sb => stem_bit sb.stem d == 0)).length
    let left_node := build_stem_tree_sorted_parallel f (stems.take split) (d + 1)
    let right_node := build_stem_tree_sorted_parallel f (stems.drop split) (d + 1)
    let merged :=
      Node.Internal (h_pair left_node.hash right_node.hash) left_node right_node
    wrap_with_empties_up merged (stems.headD default).stem depth d

/-- `build_stem_tree`: the simple recursive builder (used by
`insert_many`), partitioning the buckets by the bit at the current
depth.  Same fuel discipline as the parallel builder. -/
def build_stem_tree (fuel : Nat) (stems : List StemBucket) (depth : Nat) : Node :=
  match fuel, stems with
  | _, [] => .Empty
  | _, [sb] => .StemLeaf sb.stem_hash sb.stem
  | 0, _ => .Empty
  | f+1, stems =>
    let lefts := stems.filter (fun sb => stem_bit sb.stem depth == 0)
    let rights := stems.filter (fun sb => !(stem_bit sb.stem depth == 0))
    let left := build_stem_tree f lefts (depth + 1)
    let right := build_stem_tree f rights (depth + 1)
    .Internal (h_pair left.hash right.hash) left right

/-- `merge_two_to_subtree`: the minimal subtree containing both stems,
descending the shared bits from `depth` and diverging at the first
differing bit.  The source returns a last-write-wins leaf at depth 248;
the fuel `248 - depth` reaches 0 exactly there. -/
def merge_two_to_subtree (a_stem : List Nat) (a_hash : List Nat)
    (b_stem : List Nat) (b_hash : List Nat) (depth : Nat) : Node :=
  go (248 - depth) depth
where
  go : Nat → Nat → Node
    | 0, _ => .StemLeaf b_hash a_stem
    | f+1, d =>
      let a := stem_bit a_stem d
      let b := stem_bit b_stem d
      if a ≠ b then
        if a = 0 then
          .Internal (h_pair a_hash b_hash) (.StemLeaf a_hash a_stem) (.StemLeaf b_hash b_stem)
        else
          .Internal (h_pair b_hash a_hash) (.StemLeaf b_hash b_stem) (.StemLeaf a_hash a_stem)
      else
        let child := go f (d + 1)
        if a = 0 then
          .Internal (h_pair child.hash ZERO32) child .Empty
        else
          .Internal (h_pair ZERO32 child.hash) .Empty child

/-- `upsert_stem`: insert or overwrite one `(stem, stem_hash)` in place,
rehashing only the changed path. -/
def upsert_stem (root : Node) (stem : List Nat) (stem_hash : List Nat) (depth : Nat) :
    Node :=
  match root with
  | .Empty => .StemLeaf stem_hash stem
  | .StemLeaf h s =>
    if s = stem then .StemLeaf stem_hash s
    else merge_two_to_subtree s h stem stem_hash depth
  | .Internal _ left right =>
    if stem_bit stem depth = 0 then
      let left' := upsert_stem left stem stem_hash (depth + 1)
      .Internal (h_pair left'.hash right.hash) left' right
    else
      let right' := upsert_stem right stem stem_hash (depth + 1)
      .Internal (h_pair left.hash right'.hash) left right'

/-! ## Pointer variant: proofs and verification -/

/-- The stem-path walk of `prove_paths_sparse`: from the root, push the
sibling child's hash at each `Internal` and descend by the stem's bit.
The source panics on `Empty` and asserts the reached leaf's stem; the
model returns `none` in exactly those two situations. -/
def walk_path_sibs (t : Node) (stem : List Nat) (depth : Nat) : Option (List (List Nat)) :=
  match t with
  | .Internal _ left right =>
    if stem_bit stem depth = 0 then
      (walk_path_sibs left stem (depth + 1)).map (fun sibs => right.hash :: sibs)
    else
      (walk_path_sibs right stem (depth + 1)).map (fun sibs => left.hash :: sibs)
  | .StemLeaf _ s => if s = stem then some [] else none
  | .Empty => none

/-- `prove_paths_sparse`: the 8 in-bucket siblings (LSB-first) and the
root-to-leaf path siblings (MSB-first).  `none` models the source's
panic/assertion paths, which the development proves unreachable for
trees the API builds. -/
def prove_paths_sparse (root : Node) (stem : List Nat) (subindex : Nat)
    (leaves_for_stem : List (Nat × List Nat)) :
    Option (List (List Nat) × List (List Nat)) :=
  let stem_sibs := (List.range 8).map (sibling_at_level_sparse leaves_for_stem subindex)
  (walk_path_sibs root stem 0).map (fun path_sibs => (stem_sibs, path_sibs))

/-- `verify_proof`: recompute the root from the value, the 8 sub-tree
siblings and the path siblings.  The path is folded bottom-up
(`path.iter().rev()`), the depth of entry `i_rev` being
`path.length - 1 - i_rev`. -/
def verify_proof (root : List Nat) (key : List Nat) (value : List Nat)
    (sibs256 : List (List Nat)) (path : List (List Nat)) : Bool :=
  let stem := key.take 31
  let sub := key.getD 31 0
  let accFinal := (List.range 8).foldl
    (fun (st : Nat × List Nat) lvl =>
      let sib := sibs256.getD lvl ZERO32
      let acc := if st.1 &&& 1 = 0 then h_pair st.2 sib else h_pair sib st.2
      (st.1 >>> 1, acc))
    (sub, sha256_32 value)
  let cur0 := stem_node_hash stem accFinal.2
  let plen := path.length
  if plen > 248 then false
  else
    let cur := (path.reverse.enum.foldl
      (fun cur (p : Nat × List Nat) =>
        let depth_from_root := plen - 1 - p.1
        if stem_bit stem depth_from_root = 0 then h_pair cur p.2
        else h_pair p.2 cur) cur0)
    cur == root

/-! ## Pointer variant: the updatable tree

The source keeps the buckets in a `HashMap<Stem, StemBucket>`.  The
model is an association list of buckets that the operations keep sorted
by stem (byte-lexicographically); wherever the source iterates the map
in `HashMap` order the development proves the result independent of the
iteration order, so pinning the sorted order loses nothing. -/

/-- Strict byte-lexicographic order (Rust's `[u8; N]::cmp`). -/
def bytesLt : List Nat → List Nat → Bool
  | [], [] => false
  | [], _ :: _ => true
  | _ :: _, [] => false
  | a :: as, b :: bs => if a < b then true else if b < a then false else bytesLt as bs

/-- Keep the first occurrence of each key (`seen`-array dedup of the
source, and the model of `HashSet` iteration for touched stems). -/
def dedupFirstBy {α β : Type} [BEq β] (key : α → β) : List β → List α → List α
  | _, [] => []
  | seen, a :: rest =>
    if seen.contains (key a) then dedupFirstBy key seen rest
    else a :: dedupFirstBy key (key a :: seen) rest

/-- Insert a bucket at its sorted position. -/
def insertBucketSorted (sb : StemBucket) : List StemBucket → List StemBucket
  | [] => [sb]
  | x :: rest =>
    if bytesLt sb.stem x.stem then sb :: x :: rest else x :: insertBucketSorted sb rest

/-- `stems.entry(stem).or_insert_with(mkNew)` followed by
`sb.leaves.insert(sub, v)`. -/
def bucketUpsertLeaf (st : List StemBucket) (stem : List Nat) (sub : Nat)
    (v : List Nat) (mkNew : StemBucket) : List StemBucket :=
  if st.any (fun sb => sb.stem == stem) then
    st.map (fun sb => if sb.stem == stem then { sb with leaves := mapInsert sb.leaves sub v } else sb)
  else insertBucketSorted { mkNew with leaves := mapInsert mkNew.leaves sub v } st

/-- The updatable binary-state tree. -/
structure BinaryStateTree where
  stems : List StemBucket
  root : Node
deriving Repr

/-- `BinaryStateTree::new`. -/
def BinaryStateTree.new : BinaryStateTree := ⟨[], .Empty⟩

/-- `state_root`. -/
def BinaryStateTree.state_root (t : BinaryStateTree) : List Nat := t.root.hash

/-- The flattened entry of the bulk build: stem, sub-index, value and
input sequence number. -/
structure Flat where
  stem : List Nat
  sub : Nat
  val : List Nat
  seq : Nat
deriving DecidableEq, Repr

/-- The bulk-build comparator: `(stem, sub, seq)` lexicographically.
Distinct entries always have distinct `seq`, so this order is total and
antisymmetric on every input slice; any correct sort (in particular the
source's parallel unstable sort) therefore produces the same list as the
insertion sort used in the model. -/
def flatLe (a b : Flat) : Prop :=
  bytesLt a.stem b.stem = true ∨
    (a.stem = b.stem ∧ (a.sub < b.sub ∨ (a.sub = b.sub ∧ a.seq ≤ b.seq)))

instance : DecidableRel flatLe := by
  unfold flatLe; infer_instance

/-- Group a stem-sorted projection list into runs of equal stems
(the `bounds` construction of the source); fuel is the list length. -/
def groupStems : Nat → List (List Nat × Nat × List Nat) → List (List (List Nat × Nat × List Nat))
  | 0, _ => []
  | _, [] => []
  | f+1, p :: rest =>
    (p :: rest.takeWhile (fun q => q.1 == p.1)) ::
      groupStems f (rest.dropWhile (fun q => q.1 == p.1))

/-- Build one `StemBucket` from a (nonempty) group of sorted projected
entries sharing a stem: dedup sub-indices last-write-wins by scanning
the group from the end, Merkleize sparsely, fill the leaves map. -/
def mkBucket (g : List (List Nat × Nat × List Nat)) : StemBucket :=
  let stem := (g.headD ([], 0, [])).1
  let dedup := dedupFirstBy (fun p => p.1) [] (g.reverse.map (fun p => (p.2.1, p.2.2)))
  let subtree_root := subtree_root_sparse_pairs dedup
  { stem, leaves := dedup, subtree_root, stem_hash := stem_node_hash stem subtree_root }

/-- `from_entries`: the parallel bulk build.  Flatten with sequence
numbers, sort by `(stem, sub, seq)`, group by stem, build each bucket,
then build the stem tree from the sorted buckets.  After the sort the
source never reads `seq` again, so the model projects it away. -/
def from_entries (entries : List (List Nat × List Nat)) : BinaryStateTree :=
  if entries = [] then .new
  else
    let flats := entries.enum.map
      (fun p => Flat.mk (p.2.1.take 31) (p.2.1.getD 31 0) p.2.2 p.1)
    let sorted := List.insertionSort flatLe flats
    let projs := sorted.map (fun f => (f.stem, f.sub, f.val))
    let buckets := (groupStems projs.length projs).map mkBucket
    { stems := buckets, root := build_stem_tree_sorted_parallel 248 buckets 0 }

/-- `insert_many`: upsert the leaves, recompute every touched bucket,
then rebuild the whole stem tree root with `build_stem_tree`. -/
def BinaryStateTree.insert_many (t : BinaryStateTree)
    (entries : List (List Nat × List Nat)) : BinaryStateTree :=
  let stems1 := entries.foldl
    (fun st kv =>
      bucketUpsertLeaf st (kv.1.take 31) (kv.1.getD 31 0) kv.2 (StemBucket.new (kv.1.take 31)))
    t.stems
  let touched := entries.map (fun kv => kv.1.take 31)
  let stems2 := stems1.map (fun sb => if touched.contains sb.stem then sb.recompute else sb)
  { stems := stems2, root := build_stem_tree 248 stems2 0 }

/-- `insert_many_incremental`: upsert the leaves (placeholder hashes for
fresh buckets), then for each touched stem recompute its hashes and
upsert it into the tree in place. -/
def BinaryStateTree.insert_many_incremental (t : BinaryStateTree)
    (entries : List (List Nat × List Nat)) : BinaryStateTree :=
  let stems1 := entries.foldl
    (fun st kv =>
      bucketUpsertLeaf st (kv.1.take 31) (kv.1.getD 31 0) kv.2 ⟨kv.1.take 31, [], ZERO32, ZERO32⟩)
    t.stems
  let touched := dedupFirstBy id [] (entries.map (fun kv => kv.1.take 31))
  touched.foldl
    (fun acc stem =>
      match acc.stems.find? (fun sb => sb.stem == stem) with
      | none => acc
      | some sb =>
        let sb' := sb.recompute
        { stems := acc.stems.map (fun x => if x.stem == stem then sb' else x),
          root := upsert_stem acc.root stem sb'.stem_hash 0 })
    { stems := stems1, root := t.root }

/-- `prove_for_key`: the value (absent ⇒ no proof) together with the 8
in-bucket siblings and the stem-path siblings. -/
def BinaryStateTree.prove_for_key (t : BinaryStateTree) (key : List Nat) :
    Option (List Nat × List (List Nat) × List (List Nat)) :=
  let stem := key.take 31
  let sub := key.getD 31 0
  match t.stems.find? (fun sb => sb.stem == stem) with
  | none => none
  | some sb =>
    match mapLookup sb.leaves sub with
    | none => none
    | some value =>
      (prove_paths_sparse t.root stem sub sb.leaves).map (fun pr => (value, pr.1, pr.2))

/-- The value bound under `key` (bucket lookup then leaf lookup): what
`prove_for_key` echoes as the proof's value. -/
def BinaryStateTree.boundValue (t : BinaryStateTree) (key : List Nat) : Option (List Nat) :=
  (t.stems.find? (fun sb => sb.stem == key.take 31)).bind
    (fun sb => mapLookup sb.leaves (key.getD 31 0))

/-! ## Flat variant (`src/hubt_rocksdb.rs`)

The RocksDB column family is an ordered map from serialized
`(path, len)` node keys to 32-byte hashes.  The model is an association
list with the key order made explicit; `seek`/`seek_for_prev` become
minimum/maximum selections over the list, which is exactly the
behaviour of the ordered store regardless of physical layout. -/

/-- `get_bit_be`: MSB-first bit of a 32-byte path; 0 beyond index 255. -/
def get_bit_be (data : List Nat) (index : Nat) : Nat :=
  if index ≥ 256 then 0
  else (data.getD (index >>> 3) 0) >>> (7 - (index &&& 7)) &&& 1

/-- `set_bit_be`: set or clear one MSB-first bit (no-op beyond 255). -/
def set_bit_be (data : List Nat) (index : Nat) (val : Nat) : List Nat :=
  if index ≥ 256 then data
  else
    let byteIdx := index >>> 3
    let off := 7 - (index &&& 7)
    let old := data.getD byteIdx 0
    data.set byteIdx (if val = 1 then old ||| (1 <<< off) else old &&& (255 - (1 <<< off)))

/-- `mask_after_be`: zero bits `[len..)`.  The source's bit loop clears
exactly the low `8 - len % 8` bits of byte `len / 8` and then fills the
remaining bytes with zero. -/
def mask_after_be (data : List Nat) (len : Nat) : List Nat :=
  if len ≥ 256 then data
  else
    let byteIdx := len >>> 3
    let newByte := (data.getD byteIdx 0) &&& ((255 <<< (8 - (len &&& 7))) &&& 255)
    data.take byteIdx ++ [newByte] ++ List.replicate (data.length - byteIdx - 1) 0

/-- Number of equal leading bytes (the byte loop of `lcp_be`). -/
def lcpBytes : List Nat → List Nat → Nat
  | a :: as, b :: bs => if a = b then 1 + lcpBytes as bs else 0
  | _, _ => 0

/-- The bit loop of `lcp_be`: matching bits from `i`, at most `f` more. -/
def lcpBitRun (p1 p2 : List Nat) : Nat → Nat → Nat
  | 0, _ => 0
  | f+1, i => if get_bit_be p1 i = get_bit_be p2 i then 1 + lcpBitRun p1 p2 f (i+1) else 0

/-- `lcp_be`: longest common prefix of two 32-byte paths, as the masked
prefix and its bit length. -/
def lcp_be (p1 p2 : List Nat) : List Nat × Nat :=
  let byteIdx := lcpBytes p1 p2
  let len := 8 * byteIdx + (if byteIdx < 32 then lcpBitRun p1 p2 8 (8 * byteIdx) else 0)
  (mask_after_be p1 len, len)

/-- `prefix_match_be`: the first `len` bits of `target` equal those of
`path`. -/
def prefix_match_be (target : List Nat) (path : List Nat) (len : Nat) : Bool :=
  let fullBytes := len >>> 3
  if target.take fullBytes ≠ path.take fullBytes then false
  else
    let rem := len &&& 7
    if rem > 0 then
      let mask := (255 <<< (8 - rem)) &&& 255
      (target.getD fullBytes 0 &&& mask) == (path.getD fullBytes 0 &&& mask)
    else true

/-- `concat_and_hash`: SHA-256 of the concatenation (the flat variant's
two-sibling combiner; note: no zero-collapse special case). -/
def concat_and_hash (a b : List Nat) : List Nat :=
  sha256_32 (a ++ b)

/-- An internal-node key of the flat variant. -/
structure NodeKey where
  path : List Nat
  len : Nat
deriving DecidableEq, Repr

/-- The store order: path bytes first, then length (`Ord for NodeKey`,
which agrees with the lexicographic order of the serialized
`path ‖ len_be` keys RocksDB sorts by). -/
def nodeKeyLt (a b : NodeKey) : Bool :=
  bytesLt a.path b.path || (a.path == b.path && a.len < b.len)

/-- The ordered store: an association list of `(key, hash)` entries. -/
abbrev Store := List (NodeKey × List Nat)

/-- `put_cf`: insert or overwrite. -/
def insert_raw (st : Store) (k : NodeKey) (v : List Nat) : Store :=
  if st.any (fun e => e.1 == k) then
    st.map (fun e => if e.1 == k then (k, v) else e)
  else st ++ [(k, v)]

/-- `delete_cf`. -/
def remove_raw (st : Store) (k : NodeKey) : Store :=
  st.filter (fun e => !(e.1 == k))

/-- `get_cf`. -/
def storeGet (st : Store) (k : NodeKey) : Option (List Nat) :=
  (st.find? (fun e => e.1 == k)).map (·.2)

/-- `seek_for_prev`: the greatest entry with key ≤ `k` (`seek_prev`). -/
def seek_prev (st : Store) (k : NodeKey) : Option (NodeKey × List Nat) :=
  st.foldl
    (fun acc e =>
      if nodeKeyLt e.1 k || e.1 == k then
        match acc with
        | none => some e
        | some b => if nodeKeyLt b.1 e.1 then some e else some b
      else acc)
    none

/-- `seek_next`: `seek` to the first entry ≥ `k` and skip an exact
match, i.e. the least entry with key strictly greater than `k`. -/
def seek_next (st : Store) (k : NodeKey) : Option (NodeKey × List Nat) :=
  st.foldl
    (fun acc e =>
      if nodeKeyLt k e.1 then
        match acc with
        | none => some e
        | some b => if nodeKeyLt e.1 b.1 then some e else some b
      else acc)
    none

/-- One step of the minimum-entry selection (`seek_to_first` over the
ordered store). -/
def minEntryStep (acc : Option (NodeKey × List Nat)) (e : NodeKey × List Nat) :
    Option (NodeKey × List Nat) :=
  match acc with
  | none => some e
  | some b => if nodeKeyLt e.1 b.1 then some e else some b

/-- `root`: the value at the smallest key, or zero when empty. -/
def flatRoot (st : Store) : List Nat :=
  match st.foldl minEntryStep none with
  | some e => e.2
  | none => ZERO32

/-- One child-hash lookup of `rehash_and_prune`: seek past the first key
of the child range and keep the hash only if it still lies under the
child prefix. -/
def childHash (st : Store) (node : NodeKey) (bit : Nat) : List Nat :=
  let cpath := mask_after_be (set_bit_be node.path node.len bit) (node.len + 1)
  let ckey : NodeKey := ⟨cpath, node.len + 1⟩
  match seek_next st ckey with
  | some e => if prefix_match_be e.1.path cpath (node.len + 1) then e.2 else ZERO32
  | none => ZERO32

/-- The per-node body of `rehash_and_prune`: leaves (`len = 256`) are
skipped; otherwise the node is stored with the combined child hash when
both children are non-zero and removed otherwise. -/
def rehash_step (st : Store) (node : NodeKey) : Store :=
  if node.len = 256 then st
  else
    let l_hash := childHash st node 0
    let r_hash := childHash st node 1
    if l_hash ≠ ZERO32 ∧ r_hash ≠ ZERO32 then
      insert_raw st node (concat_and_hash l_hash r_hash)
    else remove_raw st node

/-- `rehash_and_prune`: fold the per-node step over the dirty set in
descending `len` order. -/
def rehash_and_prune (st : Store) (dirty : List NodeKey) : Store :=
  (List.insertionSort (fun a b => b.len ≤ a.len) dirty).foldl rehash_step st

/-! ## Remaining specification-side definitions used by the claims -/

/-- The value of the last occurrence of `key` in `entries`, in input
order (the reference point of the last-write-wins claims). -/
def lastValueOf (entries : List (List Nat × List Nat)) (key : List Nat) : Option (List Nat) :=
  (entries.reverse.find? (fun kv => kv.1 == key)).map (·.2)

/-- Entry-list well-formedness: 32-byte keys and values. -/
def entriesWF (entries : List (List Nat × List Nat)) : Prop :=
  ∀ kv ∈ entries, isBytes 32 kv.1 ∧ isBytes 32 kv.2

instance (entries : List (List Nat × List Nat)) : Decidable (entriesWF entries) := by
  unfold entriesWF; infer_instance

/-- The trees reachable through the public build/update surface:
a bulk build optionally followed by `insert_many` /
`insert_many_incremental` batches (all with well-formed entries). -/
inductive Built : BinaryStateTree → Prop
  | base (entries) : entriesWF entries → Built (from_entries entries)
  | many (t entries) : entriesWF entries → Built t → Built (t.insert_many entries)
  | inc (t entries) : entriesWF entries → Built t →
      Built (t.insert_many_incremental entries)

/-- Number of `StemLeaf` nodes carrying `stem` with hash `h` in a tree. -/
def countStemLeaf (t : Node) (stem : List Nat) (h : List Nat) : Nat :=
  match t with
  | .Internal _ l r => countStemLeaf l stem h + countStemLeaf r stem h
  | .StemLeaf h' s => if s = stem ∧ h' = h then 1 else 0
  | .Empty => 0

/-- The mathematical sparse sub-tree root: at level `lvl`, position
`pos`, over the partial leaf assignment `f` (leaf hash `H(value)`,
absent leaves contributing zero through the zero-collapse rule). -/
def srootF (f : Nat → Option (List Nat)) : Nat → Nat → List Nat
  | 0, pos => match f pos with
    | some v => sha256_32 v
    | none => ZERO32
  | lvl+1, pos => h_pair (srootF f lvl (2 * pos)) (srootF f lvl (2 * pos + 1))

/-- The clean bottom-up form of the in-bucket fold of `verify_proof`. -/
def subFold : List (List Nat) → Nat → List Nat → List Nat
  | [], _, acc => acc
  | s :: rest, idx, acc =>
    subFold rest (idx >>> 1) (if idx &&& 1 = 0 then h_pair acc s else h_pair s acc)

/-- The clean top-down form of the stem-path fold of `verify_proof`:
`pathFold stem d sibs cur` combines `cur` (the hash of the subtree at
depth `d + sibs.length`) upward with the siblings, the sibling listed
first sitting at depth `d`. -/
def pathFold (stem : List Nat) : Nat → List (List Nat) → List Nat → List Nat
  | _, [], cur => cur
  | d, s :: rest, cur =>
    let inner := pathFold stem (d + 1) rest cur
    if stem_bit stem d = 0 then h_pair inner s else h_pair s inner

/-- The sorted projected entries the bulk build works from (the
`sorted`/`projs` stage of `from_entries`, factored out for the proofs). -/
def projsOf (entries : List (List Nat × List Nat)) : List (List Nat × Nat × List Nat) :=
  (List.insertionSort flatLe (entries.enum.map
    (fun p => Flat.mk (p.2.1.take 31) (p.2.1.getD 31 0) p.2.2 p.1))).map
    (fun f => (f.stem, f.sub, f.val))

/-- The bucket list the bulk build produces (factored out). -/
def bucketsOf (entries : List (List Nat × List Nat)) : List StemBucket :=
  (groupStems (projsOf entries).length (projsOf entries)).map mkBucket

/-- Strict order on projected entries: stems byte-lexicographically,
then sub-indices. -/
def tripLt (p q : List Nat × Nat × List Nat) : Prop :=
  bytesLt p.1 q.1 = true ∨ (p.1 = q.1 ∧ p.2.1 < q.2.1)

/-- The keys of a node list. -/
def nodeKeys (ns : List (Nat × List Nat)) : List Nat := ns.map (·.1)

/-- The invariant tying one level of the sparse fold to the
mathematical sparse root `srootF`: keys strictly sorted, every node's
hash is the sparse root at its position, and every absent position has
a zero sparse root. -/
def LevelInv (f : Nat → Option (List Nat)) (lvl : Nat) (ns : List (Nat × List Nat)) : Prop :=
  (nodeKeys ns).Pairwise (· < ·) ∧
  (∀ e ∈ ns, e.2 = srootF f lvl e.1) ∧
  (∀ p, p ∉ nodeKeys ns → srootF f lvl p = ZERO32)

/-- MSB-first bit order on stems: `a` comes first when at the first
differing bit it carries 0 and `b` carries 1. -/
def bitLt (a b : List Nat) : Prop :=
  ∃ i, (∀ j, j < i → stem_bit a j = stem_bit b j) ∧
    stem_bit a i = 0 ∧ stem_bit b i = 1

/-- The slice invariant of the stem-tree builders: valid stems, strictly
bit-sorted, and all agreeing on the bits below `depth`. -/
def SGood (depth : Nat) (S : List StemBucket) : Prop :=
  (∀ sb ∈ S, isBytes 31 sb.stem) ∧
  (S.map (·.stem)).Pairwise bitLt ∧
  ∀ sb ∈ S, ∀ sb' ∈ S, ∀ j, j < depth → stem_bit sb.stem j = stem_bit sb'.stem j

/-- Well-formedness of one stem bucket: valid stem, distinct in-range
leaf keys, and cached hashes equal to their recomputation. -/
def WFbucket (sb : StemBucket) : Prop :=
  isBytes 31 sb.stem ∧
  (sb.leaves.map (·.1)).Nodup ∧
  (∀ j ∈ sb.leaves.map (·.1), j < 256) ∧
  sb.subtree_root = subtree_root_sparse sb.leaves ∧
  sb.stem_hash = stem_node_hash sb.stem sb.subtree_root

/-- Well-formedness of the whole tree: well-formed buckets, stems
byte-sorted and pairwise distinct, and the root equal to the simple
build of the bucket list. -/
def WF (t : BinaryStateTree) : Prop :=
  (∀ sb ∈ t.stems, WFbucket sb) ∧
  t.stems.Pairwise (fun a b => bytesLt a.stem b.stem = true) ∧
  t.root = build_stem_tree 248 t.stems 0

instance : IsTotal (Nat × List Nat) (fun a b => a.1 ≤ b.1) :=
  ⟨fun a b => Nat.le_total a.1 b.1⟩

instance : IsTrans (Nat × List Nat) (fun a b => a.1 ≤ b.1) :=
  ⟨fun _ _ _ hab hbc => Nat.le_trans hab hbc⟩

/-- The bound-value lookup over a raw bucket list (the body of
`boundValue`, factored over the stems list for the fold proofs). -/
def stemsBound (stems : List StemBucket) (key : List Nat) : Option (List Nat) :=
  (stems.find? (fun sb => sb.stem == key.take 31)).bind
    (fun sb => mapLookup sb.leaves (key.getD 31 0))

/-- Membership of a stem in the touched-stem list (the `HashSet` of
touched stems). -/
def stemTouched (ts : List (List Nat)) (x : List Nat) : Bool :=
  ts.any (fun y => y == x)

/-! # Theorems

From here on the file only proves properties of the definitions above.
First the small order/byte lemmas, then each claim. -/

/-- `bytesLt` is irreflexive. -/
theorem bytesLt_irrefl : ∀ l : List Nat, bytesLt l l = false := by
  intro l
  induction l with
  | nil => rfl
  | cons a as ih => simp [bytesLt, ih]

/-- `bytesLt` is asymmetric. -/
theorem bytesLt_asymm : ∀ {a b : List Nat}, bytesLt a b = true → bytesLt b a = false := by
  intro a
  induction a with
  | nil => intro b h; cases b <;> simp_all [bytesLt]
  | cons x xs ih =>
    intro b h
    cases b with
    | nil => simp [bytesLt] at h
    | cons y ys =>
      simp only [bytesLt] at h ⊢
      by_cases hxy : x < y
      · have : ¬ y < x := by omega
        simp [hxy, this, Nat.ne_of_lt hxy]
      · by_cases hyx : y < x
        · simp [hxy, hyx] at h
        · have hxy' : x = y := by omega
          subst hxy'
          simp only [if_neg hxy, if_neg hyx] at h ⊢
          exact ih h

/-- `bytesLt` is transitive. -/
theorem bytesLt_trans : ∀ {a b c : List Nat},
    bytesLt a b = true → bytesLt b c = true → bytesLt a c = true := by
  intro a
  induction a with
  | nil =>
    intro b c hab hbc
    cases b <;> cases c <;> simp_all [bytesLt]
  | cons x xs ih =>
    intro b c hab hbc
    cases b with
    | nil => simp [bytesLt] at hab
    | cons y ys =>
      cases c with
      | nil => simp [bytesLt] at hbc
      | cons z zs =>
        simp only [bytesLt] at hab hbc ⊢
        by_cases hxy : x < y <;> by_cases hyz : y < z
        · have : x < z := Nat.lt_trans hxy hyz
          simp [this]
        · by_cases hzy : z < y
          · simp [hxy, hyz, hzy] at hbc
          · have : y = z := by omega
            subst this
            simp [hxy]
        · by_cases hyx : y < x
          · simp [hxy, hyx] at hab
          · have : x = y := by omega
            subst this
            simp [hyz]
        · by_cases hyx : y < x
          · simp [hxy, hyx] at hab
          · have hxy' : x = y := by omega
            subst hxy'
            by_cases hzy : z < x
            · simp [hyz, hzy] at hbc
            · have hxz : x = z := by omega
              subst hxz
              simp only [if_neg hxy, if_neg hyx] at hab
              simp only [if_neg hyz, if_neg hzy] at hbc
              simp only [if_neg hxy, if_neg hyx]
              exact ih hab hbc

/-- `bytesLt` is total on distinct lists. -/
theorem bytesLt_connex : ∀ {a b : List Nat}, a ≠ b →
    bytesLt a b = true ∨ bytesLt b a = true := by
  intro a
  induction a with
  | nil =>
    intro b h
    cases b with
    | nil => exact absurd rfl h
    | cons y ys => left; rfl
  | cons x xs ih =>
    intro b h
    cases b with
    | nil => right; rfl
    | cons y ys =>
      simp only [bytesLt]
      by_cases hxy : x < y
      · left; simp [hxy]
      · by_cases hyx : y < x
        · right; simp [hyx, Nat.ne_of_lt hyx]
        · have hxy' : x = y := by omega
          subst hxy'
          have hne : xs ≠ ys := by intro he; exact h (by rw [he])
          rcases ih hne with h1 | h1
          · left; simp [h1]
          · right; simp [h1]


/-- Helper evaluation: SHA-256 of 64 zero bytes is not the zero word. -/
theorem sha256_zeros64_ne : sha256_32 (List.replicate 64 0) ≠ ZERO32 := by decide

/-- `nodeKeyLt` is irreflexive. -/
theorem nodeKeyLt_irrefl (a : NodeKey) : nodeKeyLt a a = false := by
  simp [nodeKeyLt, bytesLt_irrefl]

/-- `nodeKeyLt` is asymmetric. -/
theorem nodeKeyLt_asymm {a b : NodeKey} (h : nodeKeyLt a b = true) :
    nodeKeyLt b a = false := by
  simp only [nodeKeyLt, Bool.or_eq_true, Bool.and_eq_true, beq_iff_eq,
    decide_eq_true_eq] at h
  rcases h with h | ⟨hpe, hlt⟩
  · have hba : bytesLt b.path a.path = false := bytesLt_asymm h
    have hne : b.path ≠ a.path := by
      intro he
      rw [he, bytesLt_irrefl] at h
      exact Bool.false_ne_true h
    simp [nodeKeyLt, hba, hne]
  · have h1 : bytesLt b.path a.path = false := by rw [hpe]; exact bytesLt_irrefl _
    simp only [nodeKeyLt, h1, Bool.false_or, Bool.and_eq_false_iff]
    right
    simp only [decide_eq_false_iff_not]
    omega

/-- `minEntryStep` keeps a dominant accumulator. -/
theorem foldl_minEntryStep_keep (e : NodeKey × List Nat) :
    ∀ l : Store, (∀ x ∈ l, nodeKeyLt e.1 x.1 = true ∨ x = e) →
      l.foldl minEntryStep (some e) = some e := by
  intro l
  induction l with
  | nil => intro _; rfl
  | cons x rest ih =>
    intro hdom
    have hx := hdom x (by simp)
    have hstep : minEntryStep (some e) x = some e := by
      rcases hx with h | h
      · simp [minEntryStep, nodeKeyLt_asymm h]
      · subst h; simp [minEntryStep, nodeKeyLt_irrefl]
    simpa [List.foldl_cons, hstep] using ih (fun y hy => hdom y (by simp [hy]))

/-- The minimum fold reaches the dominant element from any accumulator
it dominates. -/
theorem foldl_minEntryStep_reach (e : NodeKey × List Nat) :
    ∀ l : Store, e ∈ l → (∀ x ∈ l, x ≠ e → nodeKeyLt e.1 x.1 = true) →
      ∀ b : NodeKey × List Nat, nodeKeyLt e.1 b.1 = true →
        l.foldl minEntryStep (some b) = some e := by
  intro l
  induction l with
  | nil => intro h; cases h
  | cons x rest ih =>
    intro hmem hdom b hb
    by_cases hxe : x = e
    · subst hxe
      have hstep : minEntryStep (some b) x = some x := by simp [minEntryStep, hb]
      rw [List.foldl_cons, hstep]
      exact foldl_minEntryStep_keep x rest
        (fun y hy => by
          by_cases hye : y = x
          · right; exact hye
          · left; exact hdom y (by simp [hy]) hye)
    · have hex : nodeKeyLt e.1 x.1 = true := hdom x (by simp) hxe
      have hmem' : e ∈ rest := by
        rcases List.mem_cons.mp hmem with h | h
        · exact absurd h.symm hxe
        · exact h
      rw [List.foldl_cons]
      by_cases hxb : nodeKeyLt x.1 b.1 = true
      · have hstep : minEntryStep (some b) x = some x := by simp [minEntryStep, hxb]
        rw [hstep]
        exact ih hmem' (fun y hy hye => hdom y (by simp [hy]) hye) x hex
      · have hstep : minEntryStep (some b) x = some b := by
          simp [minEntryStep, hxb]
        rw [hstep]
        exact ih hmem' (fun y hy hye => hdom y (by simp [hy]) hye) b hb

/-- C8.  **Confirmed.**  The state root of an empty store is the 32-byte
all-zero value in both variants: the pointer variant's `state_root` on a
tree built from no entries is zero, and the flat variant's `root` is
zero on an empty collection and otherwise the value stored at the
smallest key. -/
theorem C8_empty_root :
    (from_entries []).state_root = ZERO32 ∧
    flatRoot [] = ZERO32 ∧
    ∀ (st : Store) (e : NodeKey × List Nat), e ∈ st →
      (∀ e' ∈ st, e' ≠ e → nodeKeyLt e.1 e'.1 = true) →
      flatRoot st = e.2 := by
  refine ⟨rfl, rfl, ?_⟩
  intro st e hmem hdom
  have : st.foldl minEntryStep none = some e := by
    cases st with
    | nil => cases hmem
    | cons x rest =>
      rw [List.foldl_cons]
      show List.foldl minEntryStep (some x) rest = some e
      by_cases hxe : x = e
      · subst hxe
        exact foldl_minEntryStep_keep x rest
          (fun y hy => by
            by_cases hye : y = x
            · right; exact hye
            · left; exact hdom y (by simp [hy]) hye)
      · have hex := hdom x (by simp) hxe
        have hmem' : e ∈ rest := by
          rcases List.mem_cons.mp hmem with h | h
          · exact absurd h.symm hxe
          · exact h
        exact foldl_minEntryStep_reach e rest hmem'
          (fun y hy hye => hdom y (by simp [hy]) hye) x hex
  simp [flatRoot, this]

/-- Witness for C8 at a concrete one-entry store. -/
theorem C8_witness :
    flatRoot [((⟨List.replicate 32 0, 0⟩ : NodeKey), 1 :: List.replicate 31 0)] =
      1 :: List.replicate 31 0 :=
  C8_empty_root.2.2 [((⟨List.replicate 32 0, 0⟩ : NodeKey), 1 :: List.replicate 31 0)]
    ((⟨List.replicate 32 0, 0⟩ : NodeKey), 1 :: List.replicate 31 0)
    (by simp) (by intro e' h1 h2; simp at h1; exact absurd h1 h2)

/-- C7.  **Confirmed.**  `verify_proof` is a total function of its five
inputs (it is defined by structural recursion over them, so it cannot
panic), and it returns `false` whenever the path-sibling vector is
longer than 248 entries, for all roots, keys, values and sibling
arrays. -/
theorem C7_verify_overlong_false :
    ∀ (root key value : List Nat) (sibs256 path : List (List Nat)),
      path.length > 248 → verify_proof root key value sibs256 path = false := by
  intro root key value sibs path h
  simp [verify_proof, h]

/-- Witness for C7 on a concrete overlong path. -/
theorem C7_witness :
    (List.replicate 249 ZERO32).length > 248 ∧
    verify_proof ZERO32 ZERO32 ZERO32 [] (List.replicate 249 ZERO32) = false :=
  ⟨by decide, C7_verify_overlong_false _ _ _ _ _ (by decide)⟩

/-- The pointer variant's pair rule, stated for 32-byte inputs. -/
theorem h_pair_rule (L R : List Nat) (hL : L.length = 32) (hR : R.length = 32) :
    ((∀ b ∈ L ++ R, b = 0) → h_pair L R = ZERO32) ∧
    (¬ (∀ b ∈ L ++ R, b = 0) → h_pair L R = sha256_32 (L ++ R)) := by
  constructor
  · intro hz
    have hlen : (L ++ R).length = 64 := by simp [hL, hR]
    unfold h_pair h32or64
    rw [if_pos ⟨hlen, hz⟩]
  · intro hz
    have hc : ¬ ((L ++ R).length = 64 ∧ ∀ b ∈ L ++ R, b = 0) := fun h => hz h.2
    unfold h_pair h32or64
    rw [if_neg hc]

/-- C3.  **Corrected.**  The pointer variant's `h_pair` obeys the
zero-collapse rule: for 32-byte `L`, `R`, if `L ‖ R` is all-zero the
result is the 32-byte zero value and otherwise it is `SHA-256(L ‖ R)`.
The flat variant's `concat_and_hash`, however, is plain
`SHA-256(L ‖ R)` with no special case, and violates the zero-collapse
rule at `L = R = 0^32`. -/
theorem C3_zero_collapse :
    (∀ L R : List Nat, L.length = 32 → R.length = 32 →
      ((∀ b ∈ L ++ R, b = 0) → h_pair L R = ZERO32) ∧
      (¬ (∀ b ∈ L ++ R, b = 0) → h_pair L R = sha256_32 (L ++ R))) ∧
    (∀ L R : List Nat, concat_and_hash L R = sha256_32 (L ++ R)) ∧
    concat_and_hash ZERO32 ZERO32 ≠ ZERO32 := by
  refine ⟨h_pair_rule, fun L R => rfl, ?_⟩
  show sha256_32 (ZERO32 ++ ZERO32) ≠ ZERO32
  have : ZERO32 ++ ZERO32 = List.replicate 64 0 := by decide
  rw [this]
  exact sha256_zeros64_ne

/-- Counterexample for C3 as stated: the flat variant's two-sibling
combiner applied to two all-zero siblings is not the all-zero value (it
is SHA-256 of 64 zero bytes). -/
theorem C3_counterexample : ¬ (concat_and_hash ZERO32 ZERO32 = ZERO32) :=
  C3_zero_collapse.2.2

/-- Witness for C3 at concrete inputs: the zero-collapse branch and the
generic branch of `h_pair`, and the flat combiner's value. -/
theorem C3_witness :
    h_pair ZERO32 ZERO32 = ZERO32 ∧
    h_pair (sha256_32 []) ZERO32 = sha256_32 (sha256_32 [] ++ ZERO32) :=
  ⟨(C3_zero_collapse.1 ZERO32 ZERO32 (by decide) (by decide)).1 (by decide),
   (C3_zero_collapse.1 (sha256_32 []) ZERO32 (by decide) (by decide)).2 (by decide)⟩

/-- `storeGet` after `remove_raw` at the removed key is `none`. -/
theorem storeGet_remove_raw (st : Store) (k : NodeKey) :
    storeGet (remove_raw st k) k = none := by
  induction st with
  | nil => rfl
  | cons e rest ih =>
    by_cases he : e.1 = k
    · rw [remove_raw, List.filter_cons, if_neg (by simp [he])]
      exact ih
    · have hne : (e.1 == k) = false := beq_false_of_ne he
      rw [remove_raw, List.filter_cons, if_pos (by simp [hne])]
      simp only [storeGet]
      rw [List.find?_cons_of_neg _ (by simp [hne])]
      exact ih

/-- `storeGet` after `insert_raw` at the inserted key is the value. -/
theorem storeGet_insert_raw (st : Store) (k : NodeKey) (v : List Nat) :
    storeGet (insert_raw st k v) k = some v := by
  unfold insert_raw
  by_cases hany : st.any (fun e => e.1 == k) = true
  · rw [if_pos hany]
    induction st with
    | nil => simp at hany
    | cons e rest ih =>
      by_cases he : e.1 = k
      · simp [storeGet, List.find?, he]
      · have hne : (e.1 == k) = false := beq_false_of_ne he
        have hany' : rest.any (fun e => e.1 == k) = true := by
          simpa [List.any_cons, hne] using hany
        simpa [storeGet, List.find?, hne] using ih hany'
  · rw [if_neg hany]
    induction st with
    | nil => simp [storeGet, List.find?]
    | cons e rest ih =>
      simp only [List.any_cons, Bool.or_eq_true, not_or] at hany
      obtain ⟨h1, h2⟩ := hany
      have h1' : (e.1 == k) = false := by revert h1; cases (e.1 == k) <;> simp
      have h2' : ¬ rest.any (fun e => e.1 == k) = true := h2
      simpa [storeGet, List.find?, h1'] using ih h2'

/-- C4 (amended).  **Corrected.**  In the flat variant's bottom-up
rehash step, a dirty internal node (`len < 256`) is deleted from the
store exactly when *at least one* of its two child hashes is zero, and
is stored with the combined hash of its children only when both are
non-zero. -/
theorem C4_rehash_step :
    ∀ (st : Store) (node : NodeKey), node.len < 256 →
      ((childHash st node 0 = ZERO32 ∨ childHash st node 1 = ZERO32) →
        storeGet (rehash_step st node) node = none) ∧
      (childHash st node 0 ≠ ZERO32 ∧ childHash st node 1 ≠ ZERO32 →
        storeGet (rehash_step st node) node =
          some (concat_and_hash (childHash st node 0) (childHash st node 1))) := by
  intro st node hlen
  have hne : node.len ≠ 256 := by omega
  constructor
  · intro hz
    have hcond : ¬ (childHash st node 0 ≠ ZERO32 ∧ childHash st node 1 ≠ ZERO32) := by
      rcases hz with h | h
      · intro hc; exact hc.1 h
      · intro hc; exact hc.2 h
    rw [rehash_step, if_neg hne, if_neg hcond]
    exact storeGet_remove_raw st node
  · intro hc
    rw [rehash_step, if_neg hne, if_pos hc]
    exact storeGet_insert_raw st node _

/-- Counterexample for C4 as stated: a store whose node `(0^32, 0)` has
a non-zero left child hash and a zero right child hash; the claim says
the node is then stored with the combined hash, but the code deletes
it. -/
theorem C4_counterexample :
    (⟨List.replicate 32 0, 0⟩ : NodeKey).len < 256 ∧
    childHash [(⟨List.replicate 32 0, 0⟩, ZERO32),
               (⟨List.replicate 32 0, 5⟩, 1 :: List.replicate 31 0)]
      ⟨List.replicate 32 0, 0⟩ 0 ≠ ZERO32 ∧
    storeGet
      (rehash_step [(⟨List.replicate 32 0, 0⟩, ZERO32),
                    (⟨List.replicate 32 0, 5⟩, 1 :: List.replicate 31 0)]
        ⟨List.replicate 32 0, 0⟩)
      ⟨List.replicate 32 0, 0⟩ = none := by
  refine ⟨by decide, by decide, ?_⟩
  exact (C4_rehash_step _ _ (by decide)).1 (Or.inr (by decide))

/-- Witness for C4 (amended) on the concrete two-entry store of the
counterexample: one child hash is zero, so the node is removed. -/
theorem C4_witness :
    storeGet
      (rehash_step [(⟨List.replicate 32 0, 0⟩, ZERO32),
                    (⟨List.replicate 32 0, 5⟩, 1 :: List.replicate 31 0)]
        ⟨List.replicate 32 0, 0⟩)
      ⟨List.replicate 32 0, 0⟩ = none :=
  (C4_rehash_step _ _ (by decide)).1 (Or.inr (by decide))

/-- Sorting a singleton node list is the identity. -/
theorem sortNodes_singleton (p : Nat × List Nat) : sortNodes [p] = [p] := rfl

/-- Iterating `foldLevel` on a singleton tracks the one-leaf loop. -/
theorem foldLevel_iterate_singleton (n : Nat) :
    ∀ (i : Nat) (h : List Nat),
      (foldLevel^[n]) [(i, h)] = [(i >>> n, subtree_root_one_leaf.go n i h)] := by
  induction n with
  | zero => intro i h; simp [subtree_root_one_leaf.go]
  | succ n ih =>
    intro i h
    rw [Function.iterate_succ_apply]
    have hstep : foldLevel [(i, h)] =
        [(i / 2, if i % 2 = 0 then h_pair h ZERO32 else h_pair ZERO32 h)] := by
      rfl
    rw [hstep, ih]
    have h1 : i >>> 1 = i / 2 := Nat.shiftRight_one i
    have h2 : i &&& 1 = i % 2 := Nat.and_one_is_mod i
    have h3 : (i / 2) >>> n = i >>> (n + 1) := by
      rw [Nat.shiftRight_eq_div_pow, Nat.shiftRight_eq_div_pow,
        Nat.div_div_eq_div_mul, ← Nat.pow_succ']
    rw [h3]
    show _ = [(i >>> (n+1), subtree_root_one_leaf.go n (i >>> 1) _)]
    rw [h1, h2]

/-- C9.  **Confirmed.**  For every sub-index and every 32-byte value,
the single-leaf fast path `subtree_root_one_leaf` — starting from
`H(value)` and combining eight times with the zero hash on the sides
chosen by the bits of `sub` from LSB to MSB — returns the same root as
the general sparse fold `subtree_root_sparse` applied to the one-entry
mapping `{sub ↦ value}`. -/
theorem C9_one_leaf_fast_path :
    ∀ (sub : Nat) (value : List Nat), sub < 256 → isBytes 32 value →
      subtree_root_one_leaf sub value = subtree_root_sparse [(sub, value)] := by
  intro sub value _ _
  rw [subtree_root_sparse]
  rw [if_neg (by simp)]
  show subtree_root_one_leaf sub value =
    (((foldLevel^[8]) [(sub, sha256_32 value)]).headD (0, ZERO32)).2
  rw [foldLevel_iterate_singleton 8 sub (sha256_32 value)]
  rfl

/-- Witness for C9 at `sub = 5` and a concrete hash value. -/
theorem C9_witness :
    subtree_root_one_leaf 5 ZERO32 = subtree_root_sparse [(5, ZERO32)] :=
  C9_one_leaf_fast_path 5 ZERO32 (by decide) (by decide)

/-- The zero-collapse rule at the pair level. -/
theorem h_pair_zero : h_pair ZERO32 ZERO32 = ZERO32 := by decide

/-- Xor with one on an even number. -/
theorem xor1_even (k : Nat) : (2*k) ^^^ 1 = 2*k+1 := by
  apply Nat.eq_of_testBit_eq
  intro j
  simp only [Nat.testBit_xor]
  cases j with
  | zero =>
    simp only [Nat.testBit_zero]
    have h1 : (2 * k) % 2 = 0 := by omega
    have h2 : (2 * k + 1) % 2 = 1 := by omega
    simp [h1, h2]
  | succ n =>
    have h1 : Nat.testBit 1 (n+1) = false := by simp [Nat.testBit_succ]
    have h2 : (2 * k) / 2 = k := by omega
    have h3 : (2 * k + 1) / 2 = k := by omega
    simp [h1, Nat.testBit_succ, h2, h3]

/-- Xor with one on an odd number. -/
theorem xor1_odd (k : Nat) : (2*k+1) ^^^ 1 = 2*k := by
  apply Nat.eq_of_testBit_eq
  intro j
  simp only [Nat.testBit_xor]
  cases j with
  | zero =>
    simp only [Nat.testBit_zero]
    have h1 : (2 * k) % 2 = 0 := by omega
    have h2 : (2 * k + 1) % 2 = 1 := by omega
    simp [h1, h2]
  | succ n =>
    have h1 : Nat.testBit 1 (n+1) = false := by simp [Nat.testBit_succ]
    have h2 : (2 * k) / 2 = k := by omega
    have h3 : (2 * k + 1) / 2 = k := by omega
    simp [h1, Nat.testBit_succ, h2, h3]

@[simp]
theorem nodeKeys_nil : nodeKeys [] = [] := rfl

@[simp]
theorem nodeKeys_cons (a : Nat × List Nat) (l : List (Nat × List Nat)) :
    nodeKeys (a :: l) = a.1 :: nodeKeys l := rfl

/-- The correctness of one pair scan: over a strictly sorted node list
whose hashes are level-`lvl` sparse roots (`lowbar` bounds the region
in which absent positions are known to be zero), the scan produces the
level-`lvl+1` sparse roots, stays sorted, and its key set is the image
of the input key set under halving. -/
theorem pairScan_char (f : Nat → Option (List Nat)) (lvl : Nat) :
    ∀ (ns : List (Nat × List Nat)), ∀ (lowbar : Nat),
      (nodeKeys ns).Pairwise (· < ·) →
      (∀ e ∈ ns, e.2 = srootF f lvl e.1) →
      (∀ p, p ∉ nodeKeys ns → lowbar ≤ p → srootF f lvl p = ZERO32) →
      (∀ q ∈ nodeKeys ns, lowbar ≤ q ∧ (q % 2 = 1 → lowbar + 1 ≤ q)) →
      (∀ e ∈ pairScan ns, e.2 = srootF f (lvl+1) e.1) ∧
      (nodeKeys (pairScan ns)).Pairwise (· < ·) ∧
      (∀ q, q ∈ nodeKeys (pairScan ns) ↔
        (2*q ∈ nodeKeys ns ∨ 2*q+1 ∈ nodeKeys ns)) := by
  intro ns
  induction ns using pairScan.induct with
  | case1 =>
    intro lowbar _ _ _ _
    refine ⟨by simp [pairScan], by simp [pairScan], ?_⟩
    simp [pairScan]
  | case2 idx h =>
    intro lowbar hsort hval hz hlb
    have hvh : h = srootF f lvl idx := hval (idx, h) (by simp)
    have hlow : lowbar ≤ idx := (hlb idx (by simp)).1
    rcases Nat.even_or_odd idx with ⟨k, hk⟩ | ⟨k, hk⟩
    · have hk' : idx = 2 * k := by omega
      subst hk'
      have hpartner : srootF f lvl (2*k+1) = ZERO32 := by
        apply hz
        · simp only [nodeKeys_cons, nodeKeys_nil, List.mem_singleton]; omega
        · omega
      have hscan : pairScan [(2*k, h)] = [(k, h_pair h ZERO32)] := by
        have hmod : (2*k) % 2 = 0 := by omega
        have hdiv : (2*k) / 2 = k := by omega
        simp [pairScan, hmod, hdiv]
      rw [hscan]
      refine ⟨?_, by simp, ?_⟩
      · intro e he
        rw [List.mem_singleton] at he
        subst he
        show h_pair h ZERO32 = srootF f (lvl+1) k
        rw [srootF, hvh, hpartner]
      · intro q
        simp only [nodeKeys_cons, nodeKeys_nil, List.mem_singleton]
        omega
    · have hk' : idx = 2 * k + 1 := by omega
      subst hk'
      have hlow1 : lowbar + 1 ≤ 2*k+1 := (hlb (2*k+1) (by simp)).2 (by omega)
      have hpartner : srootF f lvl (2*k) = ZERO32 := by
        apply hz
        · simp only [nodeKeys_cons, nodeKeys_nil, List.mem_singleton]; omega
        · omega
      have hscan : pairScan [(2*k+1, h)] = [(k, h_pair ZERO32 h)] := by
        have hmod : (2*k+1) % 2 = 1 := by omega
        have hdiv : (2*k+1) / 2 = k := by omega
        simp [pairScan, hmod, hdiv]
      rw [hscan]
      refine ⟨?_, by simp, ?_⟩
      · intro e he
        rw [List.mem_singleton] at he
        subst he
        show h_pair ZERO32 h = srootF f (lvl+1) k
        rw [srootF, hvh, hpartner]
      · intro q
        simp only [nodeKeys_cons, nodeKeys_nil, List.mem_singleton]
        omega
  | case3 idx h h2 rest2 ih =>
    intro lowbar hsort hval hz hlb
    simp only [nodeKeys_cons, List.pairwise_cons, List.mem_cons] at hsort
    obtain ⟨hhead, hhead2, hsortr⟩ := hsort
    have hlt : idx < idx ^^^ 1 := hhead _ (Or.inl rfl)
    have hkeven : ∃ k, idx = 2 * k := by
      rcases Nat.even_or_odd idx with ⟨k, hk⟩ | ⟨k, hk⟩
      · exact ⟨k, by omega⟩
      · exfalso
        have hkk : idx = 2*k+1 := by omega
        rw [hkk, xor1_odd] at hlt
        omega
    obtain ⟨k, hk⟩ := hkeven
    subst hk
    have hx : (2*k) ^^^ 1 = 2*k+1 := xor1_even k
    have hvh : h = srootF f lvl (2*k) := hval (2*k, h) (by simp)
    have hvh2 : h2 = srootF f lvl (2*k+1) := by
      have := hval (2*k ^^^ 1, h2) (by simp)
      rwa [hx] at this
    have hscan : pairScan ((2*k, h) :: (2*k ^^^ 1, h2) :: rest2) =
        (k, h_pair h h2) :: pairScan rest2 := by
      rw [pairScan, if_pos rfl]
      have hmod : (2*k) % 2 = 0 := by omega
      have hdiv : (2*k) / 2 = k := by omega
      rw [if_pos hmod, hdiv]
    rw [hscan]
    have hrk : ∀ x ∈ nodeKeys rest2, 2*k+1 < x := by
      intro x hx'
      have := hhead2 x hx'
      rwa [hx] at this
    have hlow : lowbar ≤ 2*k := (hlb (2*k) (by simp)).1
    obtain ⟨ihval, ihsort, ihiff⟩ := ih (2*k+2) hsortr
      (fun e he => hval e (by simp [he]))
      (fun p hp hpge => by
        apply hz
        · simp only [nodeKeys_cons, List.mem_cons, not_or, hx]
          exact ⟨by omega, by omega, hp⟩
        · omega)
      (fun q hq => by
        have h1 := hrk q hq
        exact ⟨by omega, fun hodd => by omega⟩)
    refine ⟨?_, ?_, ?_⟩
    · intro e he
      rcases List.mem_cons.mp he with he | he
      · subst he
        show h_pair h h2 = srootF f (lvl+1) k
        rw [srootF, hvh, hvh2]
      · exact ihval e he
    · rw [nodeKeys_cons]
      refine List.pairwise_cons.mpr ⟨?_, ihsort⟩
      intro x hx'
      rcases (ihiff x).mp hx' with hmm | hmm
      · have := hrk _ hmm; omega
      · have := hrk _ hmm; omega
    · intro q
      simp only [nodeKeys_cons, List.mem_cons, hx]
      constructor
      · intro hc
        rcases hc with hc | hc
        · left; left; omega
        · rcases (ihiff q).mp hc with hmm | hmm
          · exact Or.inl (Or.inr (Or.inr hmm))
          · exact Or.inr (Or.inr (Or.inr hmm))
      · intro hc
        rcases hc with (hc | hc | hc) | (hc | hc | hc)
        · left; omega
        · exfalso; omega
        · right; exact (ihiff q).mpr (Or.inl hc)
        · exfalso; omega
        · left; omega
        · right; exact (ihiff q).mpr (Or.inr hc)
  | case4 idx h idx2 h2 rest2 hne ih =>
    intro lowbar hsort hval hz hlb
    simp only [nodeKeys_cons, List.pairwise_cons, List.mem_cons] at hsort
    obtain ⟨hhead, hhead2, hsortr⟩ := hsort
    have hlt : idx < idx2 := hhead _ (Or.inl rfl)
    have hrk : ∀ x ∈ nodeKeys rest2, idx2 < x := hhead2
    have hvh : h = srootF f lvl idx := hval (idx, h) (by simp)
    have hsort2 : (nodeKeys ((idx2, h2) :: rest2)).Pairwise (· < ·) := by
      rw [nodeKeys_cons]
      exact List.pairwise_cons.mpr ⟨hhead2, hsortr⟩
    rcases Nat.even_or_odd idx with ⟨k, hkk⟩ | ⟨k, hkk⟩
    · -- idx = 2k even, unmatched: idx2 ≥ 2k+2
      have hk : idx = 2 * k := by omega
      subst hk
      have hne' : idx2 ≠ 2*k+1 := by rw [xor1_even] at hne; exact hne
      have hidx2 : 2*k+2 ≤ idx2 := by omega
      have hlow : lowbar ≤ 2*k := (hlb (2*k) (by simp)).1
      have hpartner : srootF f lvl (2*k+1) = ZERO32 := by
        apply hz
        · simp only [nodeKeys_cons, List.mem_cons, not_or]
          refine ⟨by omega, by omega, ?_⟩
          intro hmm
          have := hrk _ hmm; omega
        · omega
      have hscan : pairScan ((2*k, h) :: (idx2, h2) :: rest2) =
          (k, h_pair h ZERO32) :: pairScan ((idx2, h2) :: rest2) := by
        rw [pairScan, if_neg hne]
        have hmod : (2*k) % 2 = 0 := by omega
        have hdiv : (2*k) / 2 = k := by omega
        rw [if_pos hmod, hdiv]
      rw [hscan]
      obtain ⟨ihval, ihsort, ihiff⟩ := ih (2*k+1) hsort2
        (fun e he => hval e (by simp [he]))
        (fun p hp hpge => by
          apply hz
          · simp only [nodeKeys_cons, List.mem_cons, not_or] at hp ⊢
            exact ⟨by omega, hp⟩
          · omega)
        (fun q hq => by
          have hq' : q = idx2 ∨ q ∈ nodeKeys rest2 := by
            simpa only [nodeKeys_cons, List.mem_cons] using hq
          have hqb : 2*k+2 ≤ q := by
            rcases hq' with hc | hc
            · omega
            · have := hrk _ hc; omega
          exact ⟨by omega, fun _ => by omega⟩)
      refine ⟨?_, ?_, ?_⟩
      · intro e he
        rcases List.mem_cons.mp he with he | he
        · subst he
          show h_pair h ZERO32 = srootF f (lvl+1) k
          rw [srootF, hvh, hpartner]
        · exact ihval e he
      · rw [nodeKeys_cons]
        refine List.pairwise_cons.mpr ⟨?_, ihsort⟩
        intro x hx'
        have hx'' : 2*x = idx2 ∨ 2*x ∈ nodeKeys rest2 ∨
            2*x+1 = idx2 ∨ 2*x+1 ∈ nodeKeys rest2 := by
          rcases (ihiff x).mp hx' with hmm | hmm
          · rcases List.mem_cons.mp (by simpa only [nodeKeys_cons] using hmm) with hc | hc
            · exact Or.inl hc
            · exact Or.inr (Or.inl hc)
          · rcases List.mem_cons.mp (by simpa only [nodeKeys_cons] using hmm) with hc | hc
            · exact Or.inr (Or.inr (Or.inl hc))
            · exact Or.inr (Or.inr (Or.inr hc))
        rcases hx'' with hc | hc | hc | hc
        · omega
        · have := hrk _ hc; omega
        · omega
        · have := hrk _ hc; omega
      · intro q
        simp only [nodeKeys_cons, List.mem_cons]
        have hiffq := ihiff q
        simp only [nodeKeys_cons, List.mem_cons] at hiffq
        constructor
        · intro hc
          rcases hc with hc | hc
          · left; left; omega
          · rcases hiffq.mp hc with hmm | hmm
            · exact Or.inl (Or.inr hmm)
            · exact Or.inr (Or.inr hmm)
        · intro hc
          rcases hc with (hc | hc) | (hc | hc)
          · left; omega
          · right; exact hiffq.mpr (Or.inl hc)
          · exfalso; omega
          · right; exact hiffq.mpr (Or.inr hc)
    · -- idx = 2k+1 odd: partner 2k sits below every key
      have hk : idx = 2 * k + 1 := by omega
      subst hk
      have hlow1 : lowbar + 1 ≤ 2*k+1 := (hlb (2*k+1) (by simp)).2 (by omega)
      have hpartner : srootF f lvl (2*k) = ZERO32 := by
        apply hz
        · simp only [nodeKeys_cons, List.mem_cons, not_or]
          refine ⟨by omega, by omega, ?_⟩
          intro hmm
          have := hrk _ hmm; omega
        · omega
      have hscan : pairScan ((2*k+1, h) :: (idx2, h2) :: rest2) =
          (k, h_pair ZERO32 h) :: pairScan ((idx2, h2) :: rest2) := by
        rw [pairScan, if_neg hne]
        have hmod : ¬ ((2*k+1) % 2 = 0) := by omega
        have hdiv : (2*k+1) / 2 = k := by omega
        rw [if_neg hmod, hdiv]
      rw [hscan]
      obtain ⟨ihval, ihsort, ihiff⟩ := ih (2*k+2) hsort2
        (fun e he => hval e (by simp [he]))
        (fun p hp hpge => by
          apply hz
          · simp only [nodeKeys_cons, List.mem_cons, not_or] at hp ⊢
            exact ⟨by omega, hp⟩
          · omega)
        (fun q hq => by
          have hq' : q = idx2 ∨ q ∈ nodeKeys rest2 := by
            simpa only [nodeKeys_cons, List.mem_cons] using hq
          have hqb : 2*k+2 ≤ q := by
            rcases hq' with hc | hc
            · omega
            · have := hrk _ hc; omega
          have hqodd : q % 2 = 1 → 2*k+3 ≤ q := by
            intro hodd
            rcases hq' with hc | hc
            · -- q = idx2; if q = 2k+2 it would be even
              omega
            · have := hrk _ hc; omega
          exact ⟨by omega, hqodd⟩)
      refine ⟨?_, ?_, ?_⟩
      · intro e he
        rcases List.mem_cons.mp he with he | he
        · subst he
          show h_pair ZERO32 h = srootF f (lvl+1) k
          rw [srootF, hvh, hpartner]
        · exact ihval e he
      · rw [nodeKeys_cons]
        refine List.pairwise_cons.mpr ⟨?_, ihsort⟩
        intro x hx'
        have hx'' : 2*x = idx2 ∨ 2*x ∈ nodeKeys rest2 ∨
            2*x+1 = idx2 ∨ 2*x+1 ∈ nodeKeys rest2 := by
          rcases (ihiff x).mp hx' with hmm | hmm
          · rcases List.mem_cons.mp (by simpa only [nodeKeys_cons] using hmm) with hc | hc
            · exact Or.inl hc
            · exact Or.inr (Or.inl hc)
          · rcases List.mem_cons.mp (by simpa only [nodeKeys_cons] using hmm) with hc | hc
            · exact Or.inr (Or.inr (Or.inl hc))
            · exact Or.inr (Or.inr (Or.inr hc))
        rcases hx'' with hc | hc | hc | hc
        · omega
        · have := hrk _ hc; omega
        · omega
        · have := hrk _ hc; omega
      · intro q
        simp only [nodeKeys_cons, List.mem_cons]
        have hiffq := ihiff q
        simp only [nodeKeys_cons, List.mem_cons] at hiffq
        constructor
        · intro hc
          rcases hc with hc | hc
          · right; left; omega
          · rcases hiffq.mp hc with hmm | hmm
            · exact Or.inl (Or.inr hmm)
            · exact Or.inr (Or.inr hmm)
        · intro hc
          rcases hc with (hc | hc) | (hc | hc)
          · exfalso; omega
          · right; exact hiffq.mpr (Or.inl hc)
          · left; omega
          · right; exact hiffq.mpr (Or.inr hc)
/-- One fold level preserves the invariant (`lowbar = 0` instance). -/
theorem LevelInv_pairScan {f : Nat → Option (List Nat)} {lvl : Nat}
    {ns : List (Nat × List Nat)} (h : LevelInv f lvl ns) :
    LevelInv f (lvl+1) (pairScan ns) ∧
    (∀ q, q ∈ nodeKeys (pairScan ns) ↔
      (2*q ∈ nodeKeys ns ∨ 2*q+1 ∈ nodeKeys ns)) := by
  obtain ⟨hs, hv, hz⟩ := h
  obtain ⟨hv', hs', hiff⟩ := pairScan_char f lvl ns 0 hs hv
    (fun p hp _ => hz p hp)
    (fun q _ => ⟨Nat.zero_le _, fun hodd => by omega⟩)
  refine ⟨⟨hs', hv', ?_⟩, hiff⟩
  intro p hp
  have h2 : 2*p ∉ nodeKeys ns ∧ 2*p+1 ∉ nodeKeys ns := by
    constructor
    · intro hc; exact hp ((hiff p).mpr (Or.inl hc))
    · intro hc; exact hp ((hiff p).mpr (Or.inr hc))
  rw [srootF, hz _ h2.1, hz _ h2.2]
  exact h_pair_zero

/-- The sort inside `foldLevel` is a no-op on level lists (their keys
are strictly sorted). -/
theorem sortNodes_of_sorted {ns : List (Nat × List Nat)}
    (h : (nodeKeys ns).Pairwise (· < ·)) : sortNodes ns = ns := by
  apply List.Sorted.insertionSort_eq
  have := (List.pairwise_map.mp h)
  exact this.imp (fun hab => Nat.le_of_lt hab)

/-- Lookup of a present key in a map with distinct keys. -/
theorem mapLookup_of_mem {m : List (Nat × List Nat)} {j : Nat} {v : List Nat}
    (hnd : (m.map (·.1)).Nodup) (hm : (j, v) ∈ m) : mapLookup m j = some v := by
  induction m with
  | nil => cases hm
  | cons e rest ih =>
    rcases List.mem_cons.mp hm with he | he
    · subst he
      simp [mapLookup, List.find?]
    · have hne : e.1 ≠ j := by
        intro hc
        have : j ∈ rest.map (·.1) := List.mem_map.mpr ⟨(j, v), he, rfl⟩
        rw [List.map_cons, List.nodup_cons] at hnd
        exact hnd.1 (hc ▸ this)
      have : (e.1 == j) = false := beq_false_of_ne hne
      rw [List.map_cons, List.nodup_cons] at hnd
      simpa [mapLookup, List.find?, this] using ih hnd.2 he

/-- Lookup of an absent key. -/
theorem mapLookup_of_not_mem {m : List (Nat × List Nat)} {j : Nat}
    (hm : j ∉ m.map (·.1)) : mapLookup m j = none := by
  induction m with
  | nil => rfl
  | cons e rest ih =>
    rw [List.map_cons, List.mem_cons, not_or] at hm
    have : (e.1 == j) = false := beq_false_of_ne (fun hc => hm.1 hc.symm)
    simpa [mapLookup, List.find?, this] using ih hm.2

/-- The base level of the fold: the sorted leaf-hash list satisfies the
invariant for the map's lookup function. -/
theorem LevelInv_base (m : List (Nat × List Nat)) (hnd : (m.map (·.1)).Nodup) :
    LevelInv (mapLookup m) 0
      (sortNodes (m.map (fun p => (p.1, sha256_32 p.2)))) ∧
    List.Perm (nodeKeys (sortNodes (m.map (fun p => (p.1, sha256_32 p.2))))) (m.map (·.1)) := by
  set init := m.map (fun p => (p.1, sha256_32 p.2)) with hinit
  have hperm : List.Perm (sortNodes init) init := List.perm_insertionSort _ _
  have hkeysperm : List.Perm (nodeKeys (sortNodes init)) (m.map (·.1)) := by
    have h1 : List.Perm (nodeKeys (sortNodes init)) (nodeKeys init) := hperm.map _
    have h2 : nodeKeys init = m.map (·.1) := by
      rw [hinit, nodeKeys, List.map_map]
      rfl
    rwa [h2] at h1
  have hsorted : (nodeKeys (sortNodes init)).Sorted (· ≤ ·) := by
    have := List.sorted_insertionSort (fun (a b : Nat × List Nat) => a.1 ≤ b.1) init
    exact List.pairwise_map.mpr this
  have hnd' : (nodeKeys (sortNodes init)).Nodup := hkeysperm.nodup_iff.mpr hnd
  have hstrict : (nodeKeys (sortNodes init)).Pairwise (· < ·) := by
    have hcomb := List.Pairwise.and hsorted hnd'
    exact hcomb.imp (fun ⟨hle, hne⟩ => Nat.lt_of_le_of_ne hle hne)
  refine ⟨⟨hstrict, ?_, ?_⟩, hkeysperm⟩
  · intro e he
    have he' : e ∈ init := hperm.mem_iff.mp he
    rw [hinit] at he'
    obtain ⟨p, hp, hpe⟩ := List.mem_map.mp he'
    subst hpe
    show sha256_32 p.2 = srootF (mapLookup m) 0 p.1
    rw [srootF, mapLookup_of_mem hnd hp]
  · intro p hp
    have hp' : p ∉ m.map (·.1) := fun hc => hp (hkeysperm.mem_iff.mpr hc)
    rw [srootF, mapLookup_of_not_mem hp']


/-- The sparse root of an everywhere-absent assignment is zero. -/
theorem srootF_none {f : Nat → Option (List Nat)} (hf : ∀ j, f j = none) :
    ∀ (lvl p : Nat), srootF f lvl p = ZERO32 := by
  intro lvl
  induction lvl with
  | zero => intro p; rw [srootF, hf]
  | succ n ih => intro p; rw [srootF, ih, ih]; exact h_pair_zero

/-- Iterating the scan from a base-level list. -/
theorem pairScan_iter_char {f : Nat → Option (List Nat)}
    {ns0 : List (Nat × List Nat)} (h0 : LevelInv f 0 ns0) :
    ∀ n, LevelInv f n (pairScan^[n] ns0) ∧
      (∀ q, q ∈ nodeKeys (pairScan^[n] ns0) ↔ ∃ j ∈ nodeKeys ns0, j / 2^n = q) := by
  intro n
  induction n with
  | zero =>
    refine ⟨h0, ?_⟩
    intro q
    simp only [Function.iterate_zero_apply, Nat.pow_zero, Nat.div_one]
    constructor
    · intro hq; exact ⟨q, hq, rfl⟩
    · rintro ⟨j, hj, rfl⟩; exact hj
  | succ n ih =>
    obtain ⟨hinv, hmem⟩ := ih
    obtain ⟨hinv', hiff⟩ := LevelInv_pairScan hinv
    rw [Function.iterate_succ_apply']
    refine ⟨hinv', ?_⟩
    intro q
    rw [hiff q]
    have hdiv : ∀ j : Nat, j / 2^(n+1) = (j / 2^n) / 2 := by
      intro j
      rw [Nat.div_div_eq_div_mul, ← Nat.pow_succ]
    constructor
    · intro hc
      rcases hc with hc | hc
      · obtain ⟨j, hj, hjq⟩ := hmem (2*q) |>.mp hc
        exact ⟨j, hj, by rw [hdiv, hjq]; omega⟩
      · obtain ⟨j, hj, hjq⟩ := hmem (2*q+1) |>.mp hc
        exact ⟨j, hj, by rw [hdiv, hjq]; omega⟩
    · rintro ⟨j, hj, rfl⟩
      have hsplit : j / 2^n = 2 * (j / 2^(n+1)) ∨ j / 2^n = 2 * (j / 2^(n+1)) + 1 := by
        rw [hdiv]; omega
      rcases hsplit with hc | hc
      · exact Or.inl ((hmem _).mpr ⟨j, hj, hc⟩)
      · exact Or.inr ((hmem _).mpr ⟨j, hj, hc⟩)

/-- `foldLevel` iterations coincide with raw scans once the initial
sort has happened. -/
theorem foldLevel_iterate_eq {f : Nat → Option (List Nat)}
    (init : List (Nat × List Nat)) (h0 : LevelInv f 0 (sortNodes init)) :
    ∀ n, 1 ≤ n → foldLevel^[n] init = pairScan^[n] (sortNodes init) := by
  have main : ∀ n, foldLevel^[n+1] init = pairScan^[n+1] (sortNodes init) := ?_
  · intro n hn
    obtain ⟨k, rfl⟩ : ∃ k, n = k + 1 := ⟨n - 1, by omega⟩
    exact main k
  intro n
  induction n with
  | zero => rfl
  | succ n ih =>
    have hsorted := ((pairScan_iter_char h0 (n+1)).1).1
    calc foldLevel^[n+1+1] init
        = foldLevel (foldLevel^[n+1] init) := Function.iterate_succ_apply' _ _ _
      _ = foldLevel (pairScan^[n+1] (sortNodes init)) := by rw [ih]
      _ = pairScan (sortNodes (pairScan^[n+1] (sortNodes init))) := rfl
      _ = pairScan (pairScan^[n+1] (sortNodes init)) := by
            rw [sortNodes_of_sorted hsorted]
      _ = pairScan^[n+1+1] (sortNodes init) := (Function.iterate_succ_apply' _ _ _).symm

/-- A strictly sorted list of zeros containing zero is `[0]`. -/
theorem keys_all_zero {ks : List Nat} (hs : ks.Pairwise (· < ·))
    (hz : ∀ q ∈ ks, q = 0) (h0 : (0 : Nat) ∈ ks) : ks = [0] := by
  cases ks with
  | nil => cases h0
  | cons a l =>
    have ha : a = 0 := hz a (by simp)
    cases l with
    | nil => rw [ha]
    | cons b l2 =>
      have hb : b = 0 := hz b (by simp)
      have := (List.pairwise_cons.mp hs).1 b (by simp)
      omega

/-- The general fold characterization: folding `L` levels over the
leaf-hash list of a nonempty map with distinct keys below `2^L`
produces the single node `(0, srootF (mapLookup m) L 0)`. -/
theorem fold_char (m : List (Nat × List Nat)) (L : Nat)
    (hnd : (m.map (·.1)).Nodup) (hlt : ∀ j ∈ m.map (·.1), j < 2^L) (hm : m ≠ []) :
    pairScan^[L] (sortNodes (m.map (fun p => (p.1, sha256_32 p.2)))) =
      [(0, srootF (mapLookup m) L 0)] := by
  obtain ⟨h0, hkeysperm⟩ := LevelInv_base m hnd
  obtain ⟨hinv, hmem⟩ := pairScan_iter_char h0 L
  obtain ⟨hsort, hval, _⟩ := hinv
  set lvlL := pairScan^[L] (sortNodes (m.map (fun p => (p.1, sha256_32 p.2)))) with hL
  have hzero : ∀ q ∈ nodeKeys lvlL, q = 0 := by
    intro q hq
    obtain ⟨j, hj, hjq⟩ := (hmem q).mp hq
    have hj0 : j / 2^L = 0 := Nat.div_eq_of_lt (hlt j (hkeysperm.mem_iff.mp hj))
    omega
  have h0mem : (0 : Nat) ∈ nodeKeys lvlL := by
    have hne : m.map (·.1) ≠ [] := by
      intro hc; exact hm (List.map_eq_nil_iff.mp hc)
    obtain ⟨j0, hj0⟩ := List.exists_mem_of_ne_nil _ hne
    apply (hmem 0).mpr
    refine ⟨j0, hkeysperm.mem_iff.mpr hj0, ?_⟩
    exact Nat.div_eq_of_lt (hlt j0 hj0)
  have hks : nodeKeys lvlL = [0] := keys_all_zero hsort hzero h0mem
  cases hcase : lvlL with
  | nil => rw [hcase] at hks; cases hks
  | cons e rest =>
    rw [hcase] at hks
    rw [nodeKeys_cons] at hks
    have he1 : e.1 = 0 := by
      have := List.head_eq_of_cons_eq hks
      exact this
    have hrest : rest = [] := by
      have := List.tail_eq_of_cons_eq hks
      exact List.map_eq_nil_iff.mp this
    subst hrest
    have hv : e.2 = srootF (mapLookup m) L e.1 := by
      apply hval
      rw [hcase]; simp
    cases e with
    | mk e1 e2 =>
      simp only at he1 hv
      subst he1
      subst hv
      rfl

/-- `mapLookup` is `none` exactly off the key set. -/
theorem mapLookup_none_iff {m : List (Nat × List Nat)} {j : Nat} :
    mapLookup m j = none ↔ j ∉ m.map (·.1) := by
  induction m with
  | nil => simp [mapLookup, List.find?]
  | cons e rest ih =>
    by_cases he : e.1 = j
    · simp [mapLookup, List.find?, he]
    · have hne : (e.1 == j) = false := beq_false_of_ne he
      simp only [mapLookup, List.find?, hne, List.map_cons, List.mem_cons]
      rw [← mapLookup]
      rw [ih]
      constructor
      · intro h hc
        rcases hc with hc | hc
        · exact he hc.symm
        · exact h hc
      · intro h hc
        exact h (Or.inr hc)

/-- A successful `mapLookup` comes from a member. -/
theorem mapLookup_some_mem {m : List (Nat × List Nat)} {j : Nat} {v : List Nat}
    (h : mapLookup m j = some v) : (j, v) ∈ m := by
  induction m with
  | nil => simp [mapLookup, List.find?] at h
  | cons e rest ih =>
    by_cases he : e.1 = j
    · cases e with
      | mk a b =>
        simp only at he
        subst he
        have hbv : b = v := by simpa [mapLookup, List.find?] using h
        subst hbv
        exact List.mem_cons_self _ _
    · have hne : (e.1 == j) = false := beq_false_of_ne he
      simp only [mapLookup, List.find?, hne] at h
      right
      exact ih h

/-- Permutations of a distinct-key map have identical lookups. -/
theorem mapLookup_perm {m₁ m₂ : List (Nat × List Nat)} (hp : List.Perm m₁ m₂)
    (hnd : (m₁.map (·.1)).Nodup) : mapLookup m₁ = mapLookup m₂ := by
  have hnd₂ : (m₂.map (·.1)).Nodup := ((hp.map (·.1)).nodup_iff).mp hnd
  funext j
  cases hc : mapLookup m₁ j with
  | some v =>
    exact (mapLookup_of_mem hnd₂ (hp.mem_iff.mp (mapLookup_some_mem hc))).symm
  | none =>
    symm
    rw [mapLookup_none_iff] at hc ⊢
    intro hj
    exact hc ((hp.map (·.1)).mem_iff.mpr hj)

/-- The one-leaf fast path agrees with the sparse fold on a singleton
(the general form behind claim C9). -/
theorem one_leaf_eq (sub : Nat) (value : List Nat) :
    subtree_root_one_leaf sub value = subtree_root_sparse [(sub, value)] := by
  rw [subtree_root_sparse]
  rw [if_neg (by simp)]
  show subtree_root_one_leaf sub value =
    (((foldLevel^[8]) [(sub, sha256_32 value)]).headD (0, ZERO32)).2
  rw [foldLevel_iterate_singleton 8 sub (sha256_32 value)]
  rfl

/-- `subtree_root_sparse` computes the mathematical sparse root of the
leaves map. -/
theorem subtree_root_sparse_char (m : List (Nat × List Nat))
    (hnd : (m.map (·.1)).Nodup) (hlt : ∀ j ∈ m.map (·.1), j < 256) :
    subtree_root_sparse m = srootF (mapLookup m) 8 0 := by
  by_cases hm : m = []
  · subst hm
    rw [subtree_root_sparse, if_pos rfl]
    exact (srootF_none (fun j => rfl) 8 0).symm
  · rw [subtree_root_sparse, if_neg hm]
    have h0 := (LevelInv_base m hnd).1
    show (((foldLevel^[8]) (m.map (fun p => (p.1, sha256_32 p.2)))).headD (0, ZERO32)).2 = _
    rw [foldLevel_iterate_eq _ h0 8 (by omega)]
    have hx := fold_char m 8 hnd (by intro j hj; exact hlt j hj) hm
    simp only [hx, List.headD_cons]

/-- `subtree_root_sparse_pairs` computes the same mathematical sparse
root. -/
theorem subtree_root_sparse_pairs_char (m : List (Nat × List Nat))
    (hnd : (m.map (·.1)).Nodup) (hlt : ∀ j ∈ m.map (·.1), j < 256) :
    subtree_root_sparse_pairs m = srootF (mapLookup m) 8 0 := by
  match m with
  | [] =>
    rw [subtree_root_sparse_pairs]
    exact (srootF_none (fun j => rfl) 8 0).symm
  | [(sub, val)] =>
    rw [subtree_root_sparse_pairs, one_leaf_eq]
    exact subtree_root_sparse_char [(sub, val)] hnd hlt
  | (a :: b :: rest) =>
    show (((pairScan^[8]) (sortNodes ((a :: b :: rest).map
      (fun p => (p.1, sha256_32 p.2))))).headD (0, ZERO32)).2 = _
    have hx := fold_char (a :: b :: rest) 8 hnd (by intro j hj; exact hlt j hj) (by simp)
    simp only [hx, List.headD_cons]

/-- The two sparse-fold implementations agree. -/
theorem subtree_root_pairs_eq_sparse (m : List (Nat × List Nat))
    (hnd : (m.map (·.1)).Nodup) (hlt : ∀ j ∈ m.map (·.1), j < 256) :
    subtree_root_sparse_pairs m = subtree_root_sparse m := by
  rw [subtree_root_sparse_char m hnd hlt, subtree_root_sparse_pairs_char m hnd hlt]

/-- The sparse root only depends on the leaves map up to permutation. -/
theorem subtree_root_sparse_perm {m₁ m₂ : List (Nat × List Nat)}
    (hp : List.Perm m₁ m₂) (hnd : (m₁.map (·.1)).Nodup)
    (hlt : ∀ j ∈ m₁.map (·.1), j < 256) :
    subtree_root_sparse m₁ = subtree_root_sparse m₂ := by
  have hnd₂ : (m₂.map (·.1)).Nodup := ((hp.map (·.1)).nodup_iff).mp hnd
  have hlt₂ : ∀ j ∈ m₂.map (·.1), j < 256 := by
    intro j hj
    exact hlt j ((hp.map (·.1)).mem_iff.mpr hj)
  rw [subtree_root_sparse_char m₁ hnd hlt, subtree_root_sparse_char m₂ hnd₂ hlt₂,
    mapLookup_perm hp hnd]

/-- `srootF` only depends on the assignment inside the node's range. -/
theorem srootF_congr_on :
    ∀ (l : Nat) (f g : Nat → Option (List Nat)) (p : Nat),
      (∀ j, p * 2^l ≤ j → j < (p+1) * 2^l → f j = g j) →
      srootF f l p = srootF g l p := by
  intro l
  induction l with
  | zero =>
    intro f g p h
    have := h p (by omega) (by omega)
    rw [srootF, srootF, this]
  | succ l ih =>
    intro f g p h
    have hpow : 2^(l+1) = 2 * 2^l := by rw [Nat.pow_succ]; omega
    have e1 : (2*p) * 2^l = p * 2^(l+1) := by rw [hpow]; ring
    have e2 : (2*p+1) * 2^l = p * 2^(l+1) + 2^l := by rw [hpow]; ring
    have e3 : (2*p+1+1) * 2^l = (p+1) * 2^(l+1) := by rw [hpow]; ring
    have e4 : (2*p+1) * 2^l = (2*p) * 2^l + 2^l := by ring
    have e5 : (p+1) * 2^(l+1) = p * 2^(l+1) + 2^(l+1) := by ring
    rw [srootF, srootF]
    rw [ih f g (2*p) (fun j h1 h2 => h j (by omega) (by omega)),
        ih f g (2*p+1) (fun j h1 h2 => h j (by omega) (by omega))]

/-- A node whose whole range is absent has a zero sparse root. -/
theorem srootF_none_on :
    ∀ (l : Nat) (f : Nat → Option (List Nat)) (p : Nat),
      (∀ j, p * 2^l ≤ j → j < (p+1) * 2^l → f j = none) →
      srootF f l p = ZERO32 := by
  intro l
  induction l with
  | zero =>
    intro f p h
    rw [srootF, h p (by omega) (by omega)]
  | succ l ih =>
    intro f p h
    have hpow : 2^(l+1) = 2 * 2^l := by rw [Nat.pow_succ]; omega
    have e1 : (2*p) * 2^l = p * 2^(l+1) := by rw [hpow]; ring
    have e2 : (2*p+1) * 2^l = p * 2^(l+1) + 2^l := by rw [hpow]; ring
    have e3 : (2*p+1+1) * 2^l = (p+1) * 2^(l+1) := by rw [hpow]; ring
    have e4 : (2*p+1) * 2^l = (2*p) * 2^l + 2^l := by ring
    have e5 : (p+1) * 2^(l+1) = p * 2^(l+1) + 2^(l+1) := by ring
    rw [srootF]
    rw [ih f (2*p) (fun j h1 h2 => h j (by omega) (by omega)),
        ih f (2*p+1) (fun j h1 h2 => h j (by omega) (by omega))]
    exact h_pair_zero

/-- Shifting the assignment moves the evaluation position to zero. -/
theorem srootF_shift :
    ∀ (l : Nat) (f : Nat → Option (List Nat)) (q : Nat),
      srootF f l q = srootF (fun r => f (q * 2^l + r)) l 0 := by
  intro l
  induction l with
  | zero =>
    intro f q
    show (match f q with | some v => sha256_32 v | none => ZERO32) = _
    have : q * 2^0 + 0 = q := by omega
    rw [srootF, this]
  | succ l ih =>
    intro f q
    have hpow : 2^(l+1) = 2 * 2^l := by rw [Nat.pow_succ]; omega
    rw [srootF, srootF]
    have h1 : srootF f l (2*q) = srootF (fun r => f (q * 2^(l+1) + r)) l (2*0) := by
      rw [ih f (2*q), ih (fun r => f (q * 2^(l+1) + r)) 0]
      apply srootF_congr_on
      intro j _ _
      have : 2*q * 2^l = q * 2^(l+1) := by rw [hpow]; ring
      simp [this]
    have h2 : srootF f l (2*q+1) = srootF (fun r => f (q * 2^(l+1) + r)) l (2*0+1) := by
      rw [ih f (2*q+1), ih (fun r => f (q * 2^(l+1) + r)) 1]
      apply srootF_congr_on
      intro j _ _
      have : (2*q+1) * 2^l + j = q * 2^(l+1) + (1 * 2^l + j) := by rw [hpow]; ring
      simp [this]
    rw [h1, h2]

/-- Bit-mask arithmetic: `x &&& (1 <<< n - 1) = x % 2^n`. -/
theorem and_mask_mod (x n : Nat) : x &&& ((1 <<< n) - 1) = x % 2^n := by
  rw [Nat.one_shiftLeft, Nat.and_pow_two_sub_one_eq_mod]

/-- Two members of a distinct-key map with equal keys are equal. -/
theorem eq_of_mem_nodup_keys {m : List (Nat × List Nat)}
    (hnd : (m.map (·.1)).Nodup) {p p' : Nat × List Nat}
    (hp : p ∈ m) (hp' : p' ∈ m) (hk : p.1 = p'.1) : p = p' := by
  induction m with
  | nil => cases hp
  | cons e rest ih =>
    rw [List.map_cons, List.nodup_cons] at hnd
    rcases List.mem_cons.mp hp with h1 | h1 <;> rcases List.mem_cons.mp hp' with h2 | h2
    · rw [h1, h2]
    · exfalso
      apply hnd.1
      rw [← h1, hk]
      exact List.mem_map.mpr ⟨p', h2, rfl⟩
    · exfalso
      apply hnd.1
      rw [← h2, ← hk]
      exact List.mem_map.mpr ⟨p, h1, rfl⟩
    · exact ih hnd.2 h1 h2

/-- A nonempty distinct-key map whose keys are all below 1 is a
singleton at key 0. -/
theorem singleton_of_keys_lt_one {m : List (Nat × List Nat)}
    (hlt : ∀ r ∈ m.map (·.1), r < 1) (hnd : (m.map (·.1)).Nodup)
    (hne : m ≠ []) : ∃ v, m = [(0, v)] := by
  cases m with
  | nil => exact absurd rfl hne
  | cons x rest =>
    have hx0 : x.1 = 0 := by
      have := hlt x.1 (by simp)
      omega
    cases rest with
    | nil =>
      refine ⟨x.2, ?_⟩
      cases x with
      | mk a b => simp only at hx0; rw [hx0]
    | cons y rest2 =>
      exfalso
      have hy0 : y.1 = 0 := by
        have := hlt y.1 (by simp)
        omega
      rw [List.map_cons, List.nodup_cons] at hnd
      apply hnd.1
      rw [hx0, ← hy0]
      simp

/-- The level-`lvl` fold over a leaf-hash list, with the emptiness
guard, computes the mathematical sparse root at position 0. -/
theorem fold_headD (m' : List (Nat × List Nat)) (lvl : Nat)
    (hnd : (m'.map (·.1)).Nodup) (hlt : ∀ r ∈ m'.map (·.1), r < 2^lvl) :
    (if (m'.map (fun p => (p.1, sha256_32 p.2))) = [] then ZERO32
     else (((foldLevel^[lvl]) (m'.map (fun p => (p.1, sha256_32 p.2)))).headD
       (0, ZERO32)).2)
    = srootF (mapLookup m') lvl 0 := by
  by_cases hm : m' = []
  · subst hm
    rw [if_pos (by simp)]
    exact (srootF_none (fun j => rfl) lvl 0).symm
  · rw [if_neg (by simpa using hm)]
    cases lvl with
    | zero =>
      obtain ⟨v, hv⟩ := singleton_of_keys_lt_one (by simpa using hlt) hnd hm
      subst hv
      show sha256_32 v = srootF (mapLookup [(0, v)]) 0 0
      rw [srootF, @mapLookup_of_mem [(0, v)] 0 v (by simp) (by simp)]
    | succ l =>
      have h0 := (LevelInv_base m' hnd).1
      rw [foldLevel_iterate_eq _ h0 (l+1) (by omega)]
      have hx := fold_char m' (l+1) hnd hlt hm
      simp only [hx, List.headD_cons]

/-- The sibling extraction computes the mathematical sparse root of the
sibling subtree at level `lvl`. -/
theorem sibling_at_level_char (m : List (Nat × List Nat))
    (hnd : (m.map (·.1)).Nodup) (sub lvl : Nat) :
    sibling_at_level_sparse m sub lvl =
      srootF (mapLookup m) lvl ((sub >>> lvl) ^^^ 1) := by
  have hpos : 0 < 2^lvl := Nat.pos_pow_of_pos _ (by omega)
  set sp := (sub >>> lvl) ^^^ 1 with hsp
  set mfil := m.filter (fun p => p.1 >>> lvl == sp) with hmfil
  set m' := mfil.map (fun p => (p.1 &&& ((1 <<< lvl) - 1), p.2)) with hm'
  have hdecomp : ∀ j : Nat, j >>> lvl = sp →
      j = sp * 2^lvl + (j &&& ((1 <<< lvl) - 1)) := by
    intro j hj
    rw [and_mask_mod]
    rw [Nat.shiftRight_eq_div_pow] at hj
    have h1 := Nat.div_add_mod j (2^lvl)
    rw [hj] at h1
    have h2 : 2^lvl * sp = sp * 2^lvl := Nat.mul_comm _ _
    omega
  have hdiv : ∀ r, r < 2^lvl → (sp * 2^lvl + r) >>> lvl = sp := by
    intro r hr
    rw [Nat.shiftRight_eq_div_pow, Nat.mul_comm, Nat.mul_add_div hpos,
      Nat.div_eq_of_lt hr]
    omega
  have hmaskr : ∀ r, r < 2^lvl → ((sp * 2^lvl + r) &&& ((1 <<< lvl) - 1)) = r := by
    intro r hr
    rw [and_mask_mod, Nat.mul_comm, Nat.mul_add_mod, Nat.mod_eq_of_lt hr]
  have hpairs : m.Nodup := List.Nodup.of_map _ hnd
  have hmem_fil : ∀ p : Nat × List Nat,
      p ∈ mfil ↔ p ∈ m ∧ p.1 >>> lvl = sp := by
    intro p
    rw [hmfil, List.mem_filter]
    simp
  -- distinctness of the relative keys
  have hnd' : (m'.map (·.1)).Nodup := by
    rw [hm', List.map_map]
    apply List.Nodup.map_on
    · intro p hp p' hp' he
      have h1 := (hmem_fil p).mp hp
      have h2 := (hmem_fil p').mp hp'
      have hk : p.1 = p'.1 := by
        have d1 := hdecomp p.1 h1.2
        have d2 := hdecomp p'.1 h2.2
        simp only [Function.comp] at he
        omega
      exact eq_of_mem_nodup_keys hnd h1.1 h2.1 hk
    · exact List.Sublist.nodup (List.filter_sublist m) hpairs
  have hlt' : ∀ r ∈ m'.map (·.1), r < 2^lvl := by
    intro r hr
    rw [hm', List.map_map] at hr
    obtain ⟨p, _, hpe⟩ := List.mem_map.mp hr
    rw [← hpe]
    show (p.1 &&& ((1 <<< lvl) - 1)) < 2^lvl
    rw [and_mask_mod]
    exact Nat.mod_lt _ hpos
  -- lookup correspondence between the relative map and the original
  have hcorr : ∀ r, r < 2^lvl → mapLookup m' r = mapLookup m (sp * 2^lvl + r) := by
    intro r hr
    cases hc : mapLookup m (sp * 2^lvl + r) with
    | some v =>
      have hmem : (sp * 2^lvl + r, v) ∈ m := mapLookup_some_mem hc
      have hf : (sp * 2^lvl + r, v) ∈ mfil :=
        (hmem_fil _).mpr ⟨hmem, hdiv r hr⟩
      have hm'mem : (r, v) ∈ m' := by
        rw [hm']
        apply List.mem_map.mpr
        refine ⟨(sp * 2^lvl + r, v), hf, ?_⟩
        simp only
        rw [hmaskr r hr]
      exact mapLookup_of_mem hnd' hm'mem
    | none =>
      rw [mapLookup_none_iff] at hc ⊢
      intro hrk
      apply hc
      rw [hm', List.map_map] at hrk
      obtain ⟨p, hp, hpe⟩ := List.mem_map.mp hrk
      have h1 := (hmem_fil p).mp hp
      have : p.1 = sp * 2^lvl + r := by
        have d1 := hdecomp p.1 h1.2
        simp only [Function.comp] at hpe
        omega
      rw [← this]
      exact List.mem_map.mpr ⟨p, h1.1, rfl⟩
  -- assemble
  have hnodes : m'.map (fun p => (p.1, sha256_32 p.2)) =
      mfil.map (fun p => (p.1 &&& ((1 <<< lvl) - 1), sha256_32 p.2)) := by
    rw [hm', List.map_map]
    rfl
  have hmain := fold_headD m' lvl hnd' hlt'
  rw [hnodes] at hmain
  have hshow : sibling_at_level_sparse m sub lvl =
      (if (mfil.map (fun p => (p.1 &&& ((1 <<< lvl) - 1), sha256_32 p.2))) = []
       then ZERO32
       else (((foldLevel^[lvl]) (mfil.map
         (fun p => (p.1 &&& ((1 <<< lvl) - 1), sha256_32 p.2)))).headD
         (0, ZERO32)).2) := rfl
  rw [hshow, hmain]
  rw [srootF_shift lvl (mapLookup m) sp]
  apply srootF_congr_on
  intro j hj1 hj2
  have hjlt : j < 2^lvl := by omega
  exact hcorr j hjlt

/-- The in-bucket verification fold rebuilds the sparse roots level by
level: starting from the sparse root of position `q` at level `k` and
folding the sibling roots of levels `k, …, k+n-1`, one obtains the
sparse root of the ancestor position at level `k+n`. -/
theorem subFold_sroot (f : Nat → Option (List Nat)) :
    ∀ (n k q : Nat) (acc : List Nat), acc = srootF f k q →
      subFold ((List.range n).map (fun i => srootF f (k+i) ((q >>> i) ^^^ 1))) q acc
        = srootF f (k+n) (q >>> n) := by
  intro n
  induction n with
  | zero =>
    intro k q acc hacc
    simpa [subFold] using hacc
  | succ n ih =>
    intro k q acc hacc
    rw [List.range_succ_eq_map, List.map_cons, List.map_map]
    rw [subFold]
    have hstep :
        (if q &&& 1 = 0 then h_pair acc (srootF f (k+0) ((q >>> 0) ^^^ 1))
         else h_pair (srootF f (k+0) ((q >>> 0) ^^^ 1)) acc)
        = srootF f (k+1) (q >>> 1) := by
      rw [srootF]
      rcases Nat.even_or_odd q with ⟨t, ht⟩ | ⟨t, ht⟩
      · have hq : q = 2 * t := by omega
        subst hq
        have h1 : (2*t) &&& 1 = 0 := by
          rw [Nat.and_one_is_mod]; omega
        have h2 : (2*t) >>> 1 = t := by
          rw [Nat.shiftRight_one]; omega
        have h3 : (2*t) >>> 0 = 2*t := rfl
        rw [if_pos h1, h2, h3, xor1_even, hacc]
        have h4 : 2 * t = k + 0 + (2 * t) - (k + 0) := by omega
        have e1 : 2 * t = 2 * t := rfl
        norm_num
      · have hq : q = 2 * t + 1 := by omega
        subst hq
        have h1 : ¬ ((2*t+1) &&& 1 = 0) := by
          rw [Nat.and_one_is_mod]; omega
        have h2 : (2*t+1) >>> 1 = t := by
          rw [Nat.shiftRight_one]; omega
        have h3 : (2*t+1) >>> 0 = 2*t+1 := rfl
        rw [if_neg h1, h2, h3, xor1_odd, hacc]
        norm_num
    show subFold _ (q >>> 1)
        (if q &&& 1 = 0 then h_pair acc (srootF f (k+0) ((q >>> 0) ^^^ 1))
         else h_pair (srootF f (k+0) ((q >>> 0) ^^^ 1)) acc) = _
    rw [hstep]
    have hcomp : ((fun i => srootF f (k+i) ((q >>> i) ^^^ 1)) ∘ Nat.succ)
        = fun i => srootF f ((k+1)+i) (((q >>> 1) >>> i) ^^^ 1) := by
      funext i
      simp only [Function.comp]
      have e1 : k + (i + 1) = k + 1 + i := by omega
      have e2 : q >>> (i+1) = (q >>> 1) >>> i := by
        rw [show i + 1 = 1 + i by omega, Nat.shiftRight_add]
      rw [Nat.succ_eq_add_one, e1, e2]
    rw [hcomp]
    have := ih (k+1) (q >>> 1) (srootF f (k+1) (q >>> 1)) rfl
    rw [this]
    have e3 : k + 1 + n = k + (n+1) := by omega
    have e4 : (q >>> 1) >>> n = q >>> (n+1) := by
      rw [← Nat.shiftRight_add, Nat.add_comm]
    rw [e3, e4]

/-- The reversed, enumerated path fold of `verify_proof` equals the
top-down `pathFold`. -/
theorem rev_enum_fold (stem : List Nat) (plen : Nat) :
    ∀ (path : List (List Nat)) (k : Nat) (cur : List Nat), k + path.length ≤ plen →
      (List.enumFrom k path.reverse).foldl
        (fun cur p => if stem_bit stem (plen - 1 - p.1) = 0
          then h_pair cur p.2 else h_pair p.2 cur) cur
      = pathFold stem (plen - k - path.length) path cur := by
  intro path
  induction path with
  | nil =>
    intro k cur _
    rw [pathFold]
    rfl
  | cons s rest ih =>
    intro k cur hk
    simp only [List.length_cons] at hk
    rw [List.reverse_cons, List.enumFrom_append, List.foldl_append]
    have hlen : (rest.reverse).length = rest.length := by simp
    rw [hlen]
    rw [ih k cur (by omega)]
    show (if stem_bit stem (plen - 1 - (k + rest.length)) = 0
      then h_pair (pathFold stem (plen - k - rest.length) rest cur) s
      else h_pair s (pathFold stem (plen - k - rest.length) rest cur)) = _
    rw [pathFold]
    have e1 : plen - 1 - (k + rest.length) = plen - k - (s :: rest).length := by
      simp only [List.length_cons]
      omega
    have e2 : plen - k - rest.length = plen - k - (s :: rest).length + 1 := by
      simp only [List.length_cons]
      omega
    rw [e1, e2]

/-- `verify_proof` decomposed into the bucket fold, the stem-leaf hash
and the path fold (for paths within the depth bound). -/
theorem verify_eq (root key value : List Nat) (sibs path : List (List Nat))
    (h : ¬ path.length > 248) :
    verify_proof root key value sibs path =
      ((pathFold (key.take 31) 0 path
        (stem_node_hash (key.take 31)
          (subFold ((List.range 8).map (fun lvl => sibs.getD lvl ZERO32))
            (key.getD 31 0) (sha256_32 value)))) == root) := by
  show (if path.length > 248 then false
    else ((path.reverse.enum.foldl
      (fun cur (p : Nat × List Nat) =>
        if stem_bit (key.take 31) (path.length - 1 - p.1) = 0
        then h_pair cur p.2 else h_pair p.2 cur)
      (stem_node_hash (key.take 31)
        (subFold ((List.range 8).map (fun lvl => sibs.getD lvl ZERO32))
          (key.getD 31 0) (sha256_32 value)))) == root)) = _
  rw [if_neg h]
  have hfold := rev_enum_fold (key.take 31) path.length path 0
    (stem_node_hash (key.take 31)
      (subFold ((List.range 8).map (fun lvl => sibs.getD lvl ZERO32))
        (key.getD 31 0) (sha256_32 value))) (by omega)
  rw [show path.reverse.enum = List.enumFrom 0 path.reverse from rfl]
  rw [hfold]
  have e1 : path.length - 0 - path.length = 0 := by omega
  rw [e1]

/-- Low bits are unchanged by dropping the high part. -/
theorem div_mod_two_low (n k x : Nat) (hk : k < n) :
    x / 2^k % 2 = (x % 2^n) / 2^k % 2 := by
  have hx := Nat.div_add_mod x (2^n)
  have hsplit : x / 2^k = 2^(n-k) * (x / 2^n) + (x % 2^n) / 2^k := by
    have h1 : 2^n = 2^k * 2^(n-k) := by
      rw [← Nat.pow_add]
      congr 1
      omega
    calc x / 2^k = (2^n * (x / 2^n) + x % 2^n) / 2^k := by rw [hx]
      _ = (2^k * (2^(n-k) * (x / 2^n)) + x % 2^n) / 2^k := by
            rw [h1]; ring_nf
      _ = 2^(n-k) * (x / 2^n) + (x % 2^n) / 2^k := by
            rw [Nat.mul_add_div (Nat.pos_pow_of_pos _ (by omega))]
  rw [hsplit]
  have h2 : 2^(n-k) = 2 * 2^(n-k-1) := by
    rw [← Nat.pow_succ']
    congr 1
    omega
  have h3 : 2^(n-k) * (x / 2^n) = 2 * (2^(n-k-1) * (x / 2^n)) := by
    rw [h2]; ring
  omega

/-- The MSB-first first-differing-bit witness for `n`-bit numbers. -/
theorem msb_first_diff :
    ∀ (n x y : Nat), x < 2^n → y < 2^n → x < y →
      ∃ i, i < n ∧ (∀ j, j < i → x / 2^(n-1-j) % 2 = y / 2^(n-1-j) % 2) ∧
        x / 2^(n-1-i) % 2 = 0 ∧ y / 2^(n-1-i) % 2 = 1 := by
  intro n
  induction n with
  | zero => intro x y hx hy hxy; omega
  | succ n ih =>
    intro x y hx hy hxy
    have hpow : 2^(n+1) = 2 * 2^n := by rw [Nat.pow_succ]; omega
    have hqx : x / 2^n < 2 := by
      apply Nat.div_lt_of_lt_mul
      omega
    have hqy : y / 2^n < 2 := by
      apply Nat.div_lt_of_lt_mul
      omega
    have hxq := Nat.div_add_mod x (2^n)
    have hyq := Nat.div_add_mod y (2^n)
    rcases Nat.lt_or_ge (x / 2^n) (y / 2^n) with hq | hq
    · -- top bits 0 and 1
      refine ⟨0, by omega, by intro j hj; exact absurd hj (Nat.not_lt_zero j), ?_, ?_⟩
      · have h0 : x / 2^n = 0 :=
          Nat.lt_one_iff.mp (Nat.lt_of_lt_of_le hq (Nat.lt_succ_iff.mp hqy))
        have e : n + 1 - 1 - 0 = n := by omega
        rw [e, h0]
      · have h1 : y / 2^n = 1 :=
          Nat.le_antisymm (Nat.lt_succ_iff.mp hqy)
            (Nat.lt_of_le_of_lt (Nat.zero_le _) hq)
        have e : n + 1 - 1 - 0 = n := by omega
        rw [e, h1]
    · have hqe : x / 2^n = y / 2^n := by
        rcases Nat.lt_or_ge (y / 2^n) (x / 2^n) with hq2 | hq2
        · exfalso
          have hyx : y < x := by
            have hb : y % 2^n < 2^n := Nat.mod_lt _ (Nat.pos_pow_of_pos _ (by omega))
            have : 2^n * (y / 2^n) + 2^n ≤ 2^n * (x / 2^n) := by
              have : y / 2^n + 1 ≤ x / 2^n := hq2
              calc 2^n * (y / 2^n) + 2^n = 2^n * (y / 2^n + 1) := by ring
                _ ≤ 2^n * (x / 2^n) := Nat.mul_le_mul_left _ this
            omega
          omega
        · omega
      have hrlt : x % 2^n < y % 2^n := by
        have hcm : 2^n * (x / 2^n) = 2^n * (y / 2^n) := by rw [hqe]
        omega
      obtain ⟨i, hi, hbelow, h0, h1⟩ := ih (x % 2^n) (y % 2^n)
        (Nat.mod_lt _ (Nat.pos_pow_of_pos _ (by omega)))
        (Nat.mod_lt _ (Nat.pos_pow_of_pos _ (by omega))) hrlt
      refine ⟨i + 1, by omega, ?_, ?_, ?_⟩
      · intro j hj
        cases j with
        | zero =>
          have e : n + 1 - 1 - 0 = n := by omega
          rw [e]
          omega
        | succ j' =>
          have hj' : j' < i := by omega
          have e : n + 1 - 1 - (j' + 1) = n - 1 - j' := by omega
          rw [e]
          have hk : n - 1 - j' < n := by omega
          rw [div_mod_two_low n _ x hk, div_mod_two_low n _ y hk]
          exact hbelow j' hj'
      · have e : n + 1 - 1 - (i + 1) = n - 1 - i := by omega
        rw [e, div_mod_two_low n _ x (by omega)]
        exact h0
      · have e : n + 1 - 1 - (i + 1) = n - 1 - i := by omega
        rw [e, div_mod_two_low n _ y (by omega)]
        exact h1


/-- Bit `j` (j < 8) of the head byte of a stem. -/
theorem stem_bit_head (c : Nat) (t : List Nat) (j : Nat) (hj : j < 8) :
    stem_bit (c :: t) j = c / 2 ^ (7 - j) % 2 := by
  unfold stem_bit
  rw [Nat.div_eq_of_lt hj, Nat.mod_eq_of_lt hj, List.getD_cons_zero,
    Nat.shiftRight_eq_div_pow, Nat.and_one_is_mod]

/-- Dropping the head byte shifts bit positions down by eight. -/
theorem stem_bit_cons (c : Nat) (t : List Nat) (i : Nat) :
    stem_bit (c :: t) (i + 8) = stem_bit t i := by
  unfold stem_bit
  have h1 : (i + 8) / 8 = i / 8 + 1 := by omega
  have h2 : (i + 8) % 8 = i % 8 := by omega
  rw [h1, h2, List.getD_cons_succ]

/-- Bits past the end of the byte list are zero. -/
theorem stem_bit_ge (a : List Nat) (n i : Nat) (hlen : a.length ≤ n)
    (hi : 8 * n ≤ i) : stem_bit a i = 0 := by
  unfold stem_bit
  rw [List.getD_eq_default _ _ (show a.length ≤ i / 8 by omega)]
  simp

/-- MSB-first bit comparison of two bytes, from `msb_first_diff` at width 8. -/
theorem byte_msb_diff (x y : Nat) (hx : x < 256) (hy : y < 256) (hxy : x < y) :
    ∃ i, i < 8 ∧ (∀ j, j < i → x / 2 ^ (7 - j) % 2 = y / 2 ^ (7 - j) % 2) ∧
      x / 2 ^ (7 - i) % 2 = 0 ∧ y / 2 ^ (7 - i) % 2 = 1 := by
  obtain ⟨i, hi, hagree, hx0, hy1⟩ := msb_first_diff 8 x y (by omega) (by omega) hxy
  exact ⟨i, hi, hagree, hx0, hy1⟩

/-- Byte-lexicographic order implies MSB-first bit order, with the witness
bit index bounded by the bit length. -/
theorem bytesLt_to_bit : ∀ (a b : List Nat), a.length = b.length →
    (∀ x ∈ a, x < 256) → (∀ x ∈ b, x < 256) → bytesLt a b = true →
    ∃ i, i < 8 * a.length ∧ (∀ j, j < i → stem_bit a j = stem_bit b j) ∧
      stem_bit a i = 0 ∧ stem_bit b i = 1
  | [], [], _, _, _, h => by simp [bytesLt] at h
  | [], _ :: _, hlen, _, _, _ => by simp at hlen
  | _ :: _, [], hlen, _, _, _ => by simp at hlen
  | x :: as, y :: bs, hlen, ha, hb, h => by
    by_cases hxy : x < y
    · obtain ⟨i, hi, hagree, hx0, hy1⟩ :=
        byte_msb_diff x y (ha x (by simp)) (hb y (by simp)) hxy
      refine ⟨i, by simp only [List.length_cons]; omega, ?_, ?_, ?_⟩
      · intro j hj
        rw [stem_bit_head x as j (by omega), stem_bit_head y bs j (by omega)]
        exact hagree j hj
      · rw [stem_bit_head x as i (by omega)]; exact hx0
      · rw [stem_bit_head y bs i (by omega)]; exact hy1
    · by_cases hyx : y < x
      · simp [bytesLt, hxy, hyx] at h
      · have hxy' : x = y := by omega
        subst hxy'
        have h' : bytesLt as bs = true := by
          simpa [bytesLt, hxy] using h
        obtain ⟨i, hi, hagree, h0, h1⟩ := bytesLt_to_bit as bs (by simpa using hlen)
          (fun z hz => ha z (by simp [hz])) (fun z hz => hb z (by simp [hz])) h'
        refine ⟨i + 8, by simp only [List.length_cons]; omega, ?_, ?_, ?_⟩
        · intro j hj
          by_cases hj8 : j < 8
          · rw [stem_bit_head x as j hj8, stem_bit_head x bs j hj8]
          · have he : j = (j - 8) + 8 := by omega
            rw [he, stem_bit_cons, stem_bit_cons]
            exact hagree (j - 8) (by omega)
        · rw [stem_bit_cons]; exact h0
        · rw [stem_bit_cons]; exact h1

/-- Byte-lexicographic order implies MSB-first bit order on equal-length
valid byte lists. -/
theorem bytesLt_bitLt (a b : List Nat) (hlen : a.length = b.length)
    (ha : ∀ x ∈ a, x < 256) (hb : ∀ x ∈ b, x < 256)
    (h : bytesLt a b = true) : bitLt a b := by
  obtain ⟨i, _, h1, h2, h3⟩ := bytesLt_to_bit a b hlen ha hb h
  exact ⟨i, h1, h2, h3⟩

/-- A `bitLt` witness for lists of at most `n` bytes lies below bit `8 * n`. -/
theorem bitLt_witness_lt (a b : List Nat) (n : Nat) (hbn : b.length ≤ n)
    (h : bitLt a b) : ∃ i, i < 8 * n ∧
      (∀ j, j < i → stem_bit a j = stem_bit b j) ∧
      stem_bit a i = 0 ∧ stem_bit b i = 1 := by
  obtain ⟨i, hagree, h0, h1⟩ := h
  refine ⟨i, ?_, hagree, h0, h1⟩
  by_contra hge
  push_neg at hge
  rw [stem_bit_ge b n i hbn hge] at h1
  omega

theorem bitLt_irrefl (a : List Nat) : ¬ bitLt a a := by
  rintro ⟨i, _, h0, h1⟩; omega

theorem bitLt_trans {a b c : List Nat} (h1 : bitLt a b) (h2 : bitLt b c) :
    bitLt a c := by
  obtain ⟨i, ha1, ha2, ha3⟩ := h1
  obtain ⟨k, hb1, hb2, hb3⟩ := h2
  rcases Nat.lt_trichotomy i k with h | h | h
  · exact ⟨i, fun j hj => (ha1 j hj).trans (hb1 j (by omega)), ha2,
      by rw [← hb1 i h]; exact ha3⟩
  · subst h
    exact ⟨i, fun j hj => (ha1 j hj).trans (hb1 j hj), ha2, hb3⟩
  · exact ⟨k, fun j hj => (ha1 j (by omega)).trans (hb1 j hj),
      by rw [ha1 k h]; exact hb2, hb3⟩


/-- A stem bit is 0 or 1. -/
theorem stem_bit_lt_two (a : List Nat) (j : Nat) : stem_bit a j < 2 := by
  unfold stem_bit
  rw [Nat.and_one_is_mod]
  exact Nat.mod_lt _ (by omega)

/-- On a singleton slice both builders return the stem leaf, and the
walk from it is the empty sibling list. -/
theorem walk_singleton (fuel depth : Nat) (x : StemBucket) :
    walk_path_sibs (build_stem_tree fuel [x] depth) x.stem depth = some [] ∧
    pathFold x.stem depth [] x.stem_hash = (build_stem_tree fuel [x] depth).hash := by
  have hb : build_stem_tree fuel [x] depth = .StemLeaf x.stem_hash x.stem := by
    cases fuel <;> rfl
  rw [hb]
  exact ⟨by simp [walk_path_sibs], rfl⟩

/-- A slice of two or more buckets satisfying `SGood depth` forces
`depth < 248`: two distinct 31-byte stems differ at a bit below 248. -/
theorem sgood_two_lt248 {depth : Nat} {a b : StemBucket} {rest : List StemBucket}
    (hS : SGood depth (a :: b :: rest)) : depth < 248 := by
  obtain ⟨hv, hp, hagree⟩ := hS
  rw [List.map_cons, List.map_cons] at hp
  have hab : bitLt a.stem b.stem :=
    (List.pairwise_cons.mp hp).1 b.stem (by simp)
  have hlen : b.stem.length ≤ 31 := by
    have := (hv b (by simp)).1
    omega
  obtain ⟨i, hi, _, h0, h1'⟩ := bitLt_witness_lt a.stem b.stem 31 hlen hab
  by_contra hge
  push_neg at hge
  have := hagree a (by simp) b (by simp) i (by omega)
  omega

/-- Filtering a good slice by a fixed bit value at the current depth
yields a good slice one level deeper. -/
theorem SGood_filter {depth : Nat} {S : List StemBucket} (hS : SGood depth S)
    (p : StemBucket → Bool) (b : Nat)
    (hp : ∀ sb, p sb = true → stem_bit sb.stem depth = b) :
    SGood (depth + 1) (S.filter p) := by
  obtain ⟨hv, hpair, hagree⟩ := hS
  refine ⟨?_, ?_, ?_⟩
  · intro sb hsb
    exact hv sb (List.mem_of_mem_filter hsb)
  · exact List.Pairwise.sublist ((List.filter_sublist S).map (·.stem)) hpair
  · intro sb hsb sb' hsb' j hj
    rcases Nat.lt_or_ge j depth with h | h
    · exact hagree sb (List.mem_of_mem_filter hsb) sb' (List.mem_of_mem_filter hsb') j h
    · have hjd : j = depth := by omega
      subst hjd
      rw [hp sb (List.of_mem_filter hsb), hp sb' (List.of_mem_filter hsb')]

/-- The unfolding of the simple builder on a slice of two or more. -/
theorem build_stem_tree_two (f depth : Nat) (a b : StemBucket) (rest : List StemBucket) :
    build_stem_tree (f+1) (a :: b :: rest) depth =
      .Internal
        (h_pair
          (build_stem_tree f ((a :: b :: rest).filter
            (fun sb => stem_bit sb.stem depth == 0)) (depth+1)).hash
          (build_stem_tree f ((a :: b :: rest).filter
            (fun sb => !(stem_bit sb.stem depth == 0))) (depth+1)).hash)
        (build_stem_tree f ((a :: b :: rest).filter
          (fun sb => stem_bit sb.stem depth == 0)) (depth+1))
        (build_stem_tree f ((a :: b :: rest).filter
          (fun sb => !(stem_bit sb.stem depth == 0))) (depth+1)) := rfl

/-- The walk of `prove_paths_sparse` succeeds on every member of a good
slice; it returns at most `fuel` siblings, and folding the bucket's
stem hash back up through them reproduces the built root's hash. -/
theorem build_walk : ∀ (fuel : Nat), ∀ (depth : Nat) (S : List StemBucket),
    SGood depth S → 248 ≤ fuel + depth → ∀ sb ∈ S, ∃ sibs,
      walk_path_sibs (build_stem_tree fuel S depth) sb.stem depth = some sibs ∧
      sibs.length ≤ fuel ∧
      pathFold sb.stem depth sibs sb.stem_hash = (build_stem_tree fuel S depth).hash := by
  intro fuel
  induction fuel with
  | zero =>
    intro depth S hS h248 sb hsb
    cases S with
    | nil => simp at hsb
    | cons a tail =>
      cases tail with
      | nil =>
        have hx : sb = a := by simpa using hsb
        subst hx
        obtain ⟨h1, h2⟩ := walk_singleton 0 depth sb
        exact ⟨[], h1, by simp, h2⟩
      | cons b rest =>
        have := sgood_two_lt248 hS
        omega
  | succ f ih =>
    intro depth S hS h248 sb hsb
    cases S with
    | nil => simp at hsb
    | cons a tail =>
      cases tail with
      | nil =>
        have hx : sb = a := by simpa using hsb
        subst hx
        obtain ⟨h1, h2⟩ := walk_singleton (f+1) depth sb
        exact ⟨[], h1, by simp, h2⟩
      | cons b rest =>
        rw [build_stem_tree_two f depth a b rest]
        simp only [walk_path_sibs]
        by_cases hbit : stem_bit sb.stem depth = 0
        · have hmem : sb ∈ (a :: b :: rest).filter (fun x => stem_bit x.stem depth == 0) :=
            List.mem_filter.mpr ⟨hsb, by simp [hbit]⟩
          obtain ⟨sibs, hw, hlen, hpf⟩ := ih (depth + 1) _
            (SGood_filter hS _ 0 (fun x h => by simpa using h))
            (by omega) sb hmem
          refine ⟨(build_stem_tree f ((a :: b :: rest).filter
            (fun x => !(stem_bit x.stem depth == 0))) (depth+1)).hash :: sibs, ?_, ?_, ?_⟩
          · rw [if_pos hbit, hw]
            rfl
          · simp only [List.length_cons]
            omega
          · simp only [pathFold, hpf, if_pos hbit, Node.hash]
        · have hmem : sb ∈ (a :: b :: rest).filter (fun x => !(stem_bit x.stem depth == 0)) :=
            List.mem_filter.mpr ⟨hsb, by simp [hbit]⟩
          obtain ⟨sibs, hw, hlen, hpf⟩ := ih (depth + 1) _
            (SGood_filter hS _ 1 (fun x h => by
              have := stem_bit_lt_two x.stem depth
              simp only [Bool.not_eq_true', beq_eq_false_iff_ne, ne_eq] at h
              omega))
            (by omega) sb hmem
          refine ⟨(build_stem_tree f ((a :: b :: rest).filter
            (fun x => stem_bit x.stem depth == 0)) (depth+1)).hash :: sibs, ?_, ?_, ?_⟩
          · rw [if_neg hbit, hw]
            rfl
          · simp only [List.length_cons]
            omega
          · simp only [pathFold, hpf, if_neg hbit, Node.hash]


/-- The spec of the `lcp_bits_from` loop body. -/
theorem lcp_go_spec (a b : List Nat) : ∀ (f i : Nat),
    (∀ j, i ≤ j → j < lcp_bits_from.go a b f i → stem_bit a j = stem_bit b j) ∧
    i ≤ lcp_bits_from.go a b f i ∧ lcp_bits_from.go a b f i ≤ i + f ∧
    (lcp_bits_from.go a b f i < i + f →
      stem_bit a (lcp_bits_from.go a b f i) ≠ stem_bit b (lcp_bits_from.go a b f i)) := by
  intro f
  induction f with
  | zero =>
    intro i
    simp only [lcp_bits_from.go]
    exact ⟨fun j h1 h2 => by omega, Nat.le_refl i, by omega, fun h => by omega⟩
  | succ f ihf =>
    intro i
    simp only [lcp_bits_from.go]
    by_cases hb : stem_bit a i = stem_bit b i
    · rw [if_pos hb]
      obtain ⟨ih1, ih2, ih3, ih4⟩ := ihf (i + 1)
      refine ⟨?_, by omega, by omega, ?_⟩
      · intro j hj1 hj2
        rcases Nat.eq_or_lt_of_le hj1 with he | hlt
        · rw [← he]
          exact hb
        · exact ih1 j hlt hj2
      · intro h
        exact ih4 (by omega)
    · rw [if_neg hb]
      exact ⟨fun j h1 h2 => by omega, Nat.le_refl i, by omega, fun _ => hb⟩

/-- `lcp_bits_from` finds exactly the first differing bit at or after
`depth` when one exists below 248. -/
theorem lcp_bits_from_eq (a b : List Nat) (depth i : Nat)
    (hid : depth ≤ i) (hi : i < 248)
    (hagree : ∀ j, j < i → stem_bit a j = stem_bit b j)
    (hdiff : stem_bit a i ≠ stem_bit b i) :
    lcp_bits_from a b depth = i := by
  unfold lcp_bits_from
  obtain ⟨h1, h2, h3, h4⟩ := lcp_go_spec a b (248 - depth) depth
  rcases Nat.lt_trichotomy (lcp_bits_from.go a b (248 - depth) depth) i with h | h | h
  · exact absurd (hagree _ (by omega)) (h4 (by omega))
  · exact h
  · exact absurd (h1 i hid h) hdiff

/-- Unfolding one step of the wrapping loop, via `wrapAt`. -/
theorem wrap_go_succ (stem : List Nat) (fromD : Nat) (c : Node) (n : Nat) :
    wrap_with_empties_up.go stem fromD c (n+1) =
      wrap_with_empties_up.go stem fromD (wrapAt stem (fromD + n) c) n := by
  simp only [wrap_with_empties_up.go, wrapAt]

/-- Peeling the outermost (lowest-level) wrap off the wrapping loop. -/
theorem wrap_go_peel (stem : List Nat) : ∀ (n fromD : Nat) (c : Node),
    wrap_with_empties_up.go stem fromD c (n+1) =
      wrapAt stem fromD (wrap_with_empties_up.go stem (fromD+1) c n) := by
  intro n
  induction n with
  | zero =>
    intro fromD c
    rw [wrap_go_succ, Nat.add_zero]
    simp only [wrap_with_empties_up.go]
  | succ n ihn =>
    intro fromD c
    rw [wrap_go_succ stem fromD c (n+1)]
    rw [ihn fromD (wrapAt stem (fromD + (n+1)) c)]
    rw [wrap_go_succ stem (fromD+1) c n]
    rw [show fromD + 1 + n = fromD + (n+1) by omega]

/-- Good slices one level deeper: the 0-bit half. -/
theorem SGood_left {depth : Nat} {S : List StemBucket} (hS : SGood depth S) :
    SGood (depth + 1) (S.filter (fun x => stem_bit x.stem depth == 0)) :=
  SGood_filter hS _ 0 (fun x h => by simpa using h)

/-- Good slices one level deeper: the 1-bit half. -/
theorem SGood_right {depth : Nat} {S : List StemBucket} (hS : SGood depth S) :
    SGood (depth + 1) (S.filter (fun x => !(stem_bit x.stem depth == 0))) :=
  SGood_filter hS _ 1 (fun x h => by
    have := stem_bit_lt_two x.stem depth
    simp only [Bool.not_eq_true', beq_eq_false_iff_ne, ne_eq] at h
    omega)

/-- The simple builder has irrelevant fuel above the needed bound. -/
theorem build_fuel_irrel : ∀ (f1 f2 depth : Nat) (S : List StemBucket),
    SGood depth S → 248 ≤ f1 + depth → 248 ≤ f2 + depth →
    build_stem_tree f1 S depth = build_stem_tree f2 S depth := by
  intro f1
  induction f1 with
  | zero =>
    intro f2 depth S hS h1 h2
    cases S with
    | nil => cases f2 <;> rfl
    | cons a tail =>
      cases tail with
      | nil => cases f2 <;> rfl
      | cons b rest => exact absurd (sgood_two_lt248 hS) (by omega)
  | succ f ih =>
    intro f2 depth S hS h1 h2
    cases S with
    | nil => cases f2 <;> rfl
    | cons a tail =>
      cases tail with
      | nil => cases f2 <;> rfl
      | cons b rest =>
        have hd : depth < 248 := sgood_two_lt248 hS
        cases f2 with
        | zero => omega
        | succ f2' =>
          rw [build_stem_tree_two, build_stem_tree_two]
          rw [ih f2' (depth+1) _ (SGood_left hS) (by omega) (by omega)]
          rw [ih f2' (depth+1) _ (SGood_right hS) (by omega) (by omega)]


/-- On a slice of two or more whose stems all agree with `s` on the
bits `[depth, depth+n)`, the simple builder produces `n` empty-sibling
wraps around the build from depth `depth+n`. -/
theorem build_agree (s : List Nat) : ∀ (n f depth : Nat) (a b : StemBucket)
    (rest : List StemBucket),
    (∀ sb ∈ (a :: b :: rest), ∀ j, depth ≤ j → j < depth + n →
      stem_bit sb.stem j = stem_bit s j) →
    build_stem_tree (n + (f+1)) (a :: b :: rest) depth =
      wrap_with_empties_up.go s depth
        (build_stem_tree (f+1) (a :: b :: rest) (depth + n)) n := by
  intro n
  induction n with
  | zero =>
    intro f depth a b rest hagree
    simp only [Nat.zero_add, Nat.add_zero, wrap_with_empties_up.go]
  | succ n ihn =>
    intro f depth a b rest hagree
    have hstep : ∀ sb ∈ (a :: b :: rest), stem_bit sb.stem depth = stem_bit s depth :=
      fun sb hsb => hagree sb hsb depth (Nat.le_refl depth) (by omega)
    rw [show n + 1 + (f + 1) = (n + (f+1)) + 1 by omega, build_stem_tree_two]
    rw [wrap_go_peel]
    have hshift : ∀ sb ∈ (a :: b :: rest), ∀ j, depth + 1 ≤ j → j < (depth + 1) + n →
        stem_bit sb.stem j = stem_bit s j :=
      fun sb hsb j h1 h2 => hagree sb hsb j (by omega) (by omega)
    by_cases hc : stem_bit s depth = 0
    · have hfl : (a :: b :: rest).filter (fun x => stem_bit x.stem depth == 0) =
          a :: b :: rest :=
        List.filter_eq_self.mpr (fun x hx => by simp [hstep x hx, hc])
      have hfr : (a :: b :: rest).filter (fun x => !(stem_bit x.stem depth == 0)) = [] :=
        List.filter_eq_nil_iff.mpr (fun x hx => by simp [hstep x hx, hc])
      rw [hfl, hfr, ihn f (depth + 1) a b rest hshift]
      rw [show depth + 1 + n = depth + (n + 1) by omega]
      simp only [wrapAt, if_pos hc, build_stem_tree, Node.hash]
    · have hfl : (a :: b :: rest).filter (fun x => stem_bit x.stem depth == 0) = [] :=
        List.filter_eq_nil_iff.mpr (fun x hx => by simp [hstep x hx, hc])
      have hfr : (a :: b :: rest).filter (fun x => !(stem_bit x.stem depth == 0)) =
          a :: b :: rest :=
        List.filter_eq_self.mpr (fun x hx => by simp [hstep x hx, hc])
      rw [hfl, hfr, ihn f (depth + 1) a b rest hshift]
      rw [show depth + 1 + n = depth + (n + 1) by omega]
      simp only [wrapAt, if_neg hc, build_stem_tree, Node.hash]


/-- Monotonicity of a bit under `bitLt` given agreement below. -/
theorem bitLt_mono {a b : List Nat} (h : bitLt a b) (j : Nat)
    (hagree : ∀ m, m < j → stem_bit a m = stem_bit b m) :
    stem_bit a j ≤ stem_bit b j := by
  obtain ⟨i, hlow, h0, h1⟩ := h
  rcases Nat.lt_trichotomy i j with hij | hij | hij
  · have := hagree i hij
    omega
  · subst hij
    omega
  · exact Nat.le_of_eq (hlow j hij)

/-- An element between `a` and `z` in bit order agrees with them on
every bit on which they agree from the start. -/
theorem bit_between {a m z : List Nat} (h1 : bitLt a m) (h2 : bitLt m z) (K : Nat)
    (haz : ∀ j, j < K → stem_bit a j = stem_bit z j) :
    ∀ j, j < K → stem_bit m j = stem_bit a j := by
  intro j
  induction j using Nat.strong_induction_on with
  | _ j ihj =>
    intro hjK
    have hbelow : ∀ p, p < j → stem_bit m p = stem_bit a p :=
      fun p hp => ihj p hp (by omega)
    have hle1 : stem_bit a j ≤ stem_bit m j :=
      bitLt_mono h1 j (fun p hp => (hbelow p hp).symm)
    have hle2 : stem_bit m j ≤ stem_bit z j :=
      bitLt_mono h2 j (fun p hp => by rw [hbelow p hp, haz p (by omega)])
    have := haz j hjK
    omega

/-- The default-carrying last element of a nonempty list is a member. -/
theorem getLastD_mem {α : Type} : ∀ (l : List α) (d : α), l ≠ [] → l.getLastD d ∈ l
  | [a], _, _ => by simp
  | a :: b :: rest, d, _ => by
    have ih := getLastD_mem (b :: rest) d (by simp)
    simp only [List.getLastD_cons] at ih ⊢
    exact List.mem_cons_of_mem a ih

/-- In a pairwise-related list, every member relates to the last
element (or is it). -/
theorem pairwise_getLastD {α : Type} {R : α → α → Prop} :
    ∀ (l : List α) (d : α), l.Pairwise R →
      ∀ x ∈ l, x = l.getLastD d ∨ R x (l.getLastD d)
  | [], _, _, x, hx => by simp at hx
  | [a], d, _, x, hx => by
    left
    simp at hx
    simp [hx]
  | a :: b :: rest, d, hp, x, hx => by
    have hz : (b :: rest).getLastD a ∈ b :: rest := getLastD_mem _ _ (by simp)
    have hrec := pairwise_getLastD (b :: rest) a (List.pairwise_cons.mp hp).2
    simp only [List.getLastD_cons] at hz hrec ⊢
    rcases List.mem_cons.mp hx with hxa | hxt
    · right
      rw [hxa]
      exact (List.pairwise_cons.mp hp).1 _ hz
    · exact hrec x hxt

/-- Under a "false propagates rightward" pairwise condition, the
`takeWhile` prefix is the whole filter and the `dropWhile` suffix is
the complementary filter. -/
theorem takeWhile_eq_filter {α : Type} (p : α → Bool) :
    ∀ (l : List α), l.Pairwise (fun x y => p x = false → p y = false) →
      l.takeWhile p = l.filter p ∧ l.dropWhile p = l.filter (fun x => !(p x))
  | [], _ => by simp
  | a :: t, hp => by
    obtain ⟨ha, ht⟩ := List.pairwise_cons.mp hp
    obtain ⟨ih1, ih2⟩ := takeWhile_eq_filter p t ht
    by_cases hpa : p a = true
    · constructor
      · rw [List.takeWhile_cons, if_pos hpa, List.filter_cons_of_pos hpa, ih1]
      · rw [List.dropWhile_cons, if_pos hpa, List.filter_cons_of_neg (by simp [hpa]), ih2]
    · have hpa' : p a = false := by
        cases hpb : p a
        · rfl
        · exact absurd hpb hpa
      have hall : ∀ y ∈ t, p y = false := fun y hy => ha y hy hpa'
      constructor
      · rw [List.takeWhile_cons, if_neg hpa, List.filter_cons_of_neg (by simp [hpa'])]
        rw [List.filter_eq_nil_iff.mpr (fun y hy => by simp [hall y hy])]
      · rw [List.dropWhile_cons, if_neg hpa, List.filter_cons_of_pos (by simp [hpa'])]
        rw [List.filter_eq_self.mpr (fun y hy => by simp [hall y hy])]

/-- Splitting a list known to be an append. -/
theorem take_of_append {α : Type} {l l1 l2 : List α} (h : l = l1 ++ l2) :
    l.take l1.length = l1 ∧ l.drop l1.length = l2 := by
  subst h
  exact ⟨List.take_left _ _, List.drop_left _ _⟩

/-- `wrap_with_empties_up` in terms of its loop. -/
theorem wrap_unfold (c : Node) (stem : List Nat) (fromD toD : Nat) :
    wrap_with_empties_up c stem fromD toD =
      wrap_with_empties_up.go stem fromD c (toD - fromD) := rfl

/-- The parallel LCP builder agrees with the simple builder on every
good slice with enough fuel. -/
theorem parallel_eq_simple : ∀ (fuel depth : Nat) (S : List StemBucket),
    SGood depth S → 248 ≤ fuel + depth →
    build_stem_tree_sorted_parallel fuel S depth = build_stem_tree fuel S depth := by
  intro fuel
  induction fuel with
  | zero =>
    intro depth S hS h248
    cases S with
    | nil => rfl
    | cons a tail =>
      cases tail with
      | nil => rfl
      | cons b rest => exact absurd (sgood_two_lt248 hS) (by omega)
  | succ f ih =>
    intro depth S hS h248
    cases S with
    | nil => rfl
    | cons a tail =>
      cases tail with
      | nil => rfl
      | cons b rest =>
        have hpS : (a :: b :: rest).Pairwise (fun x y => bitLt x.stem y.stem) :=
          List.pairwise_map.mp hS.2.1
        have hzmem : (a :: b :: rest).getLastD default ∈ a :: b :: rest :=
          getLastD_mem _ _ (by simp)
        have hzc : (a :: b :: rest).getLastD default ∈ b :: rest := by
          have h := getLastD_mem (b :: rest) a (by simp)
          simp only [List.getLastD_cons] at h ⊢
          exact h
        have haz : bitLt a.stem ((a :: b :: rest).getLastD default).stem :=
          (List.pairwise_cons.mp hpS).1 _ hzc
        obtain ⟨i, hlow, h0, h1⟩ := haz
        have hdge : depth ≤ i := by
          by_contra hlt
          push_neg at hlt
          have := hS.2.2 a (by simp) ((a :: b :: rest).getLastD default) hzmem i hlt
          omega
        have hi248 : i < 248 := by
          by_contra hge
          push_neg at hge
          have hlen : ((a :: b :: rest).getLastD default).stem.length ≤ 31 := by
            have := (hS.1 _ hzmem).1
            omega
          rw [stem_bit_ge _ 31 i hlen (by omega)] at h1
          omega
        have hd : lcp_bits_from a.stem ((a :: b :: rest).getLastD default).stem depth = i :=
          lcp_bits_from_eq _ _ depth i hdge hi248 hlow (by omega)
        have hmemrel : ∀ sb ∈ a :: b :: rest, ∀ j, j < i →
            stem_bit sb.stem j = stem_bit a.stem j := by
          intro sb hsb j hj
          rcases List.mem_cons.mp hsb with hsba | hsbt
          · rw [hsba]
          · have hR1 : bitLt a.stem sb.stem := (List.pairwise_cons.mp hpS).1 sb hsbt
            rcases pairwise_getLastD (a :: b :: rest) default hpS sb hsb with he | hR2
            · rw [he]
              exact (hlow j hj).symm
            · exact bit_between hR1 hR2 i hlow j hj
        have hSi : SGood i (a :: b :: rest) := by
          refine ⟨hS.1, hS.2.1, ?_⟩
          intro sb hsb sb' hsb' j hj
          rw [hmemrel sb hsb j hj, hmemrel sb' hsb' j hj]
        have hmono : (a :: b :: rest).Pairwise (fun x y =>
            (stem_bit x.stem i == 0) = false → (stem_bit y.stem i == 0) = false) := by
          refine List.Pairwise.imp_of_mem ?_ hpS
          intro x y hx hy hR hfx
          have hle := bitLt_mono hR i
            (fun p hp => by rw [hmemrel x hx p hp, hmemrel y hy p hp])
          have hx2 := stem_bit_lt_two x.stem i
          have hy2 := stem_bit_lt_two y.stem i
          simp only [beq_eq_false_iff_ne, ne_eq] at hfx ⊢
          omega
        have htwf := takeWhile_eq_filter (fun sb => stem_bit sb.stem i == 0)
          (a :: b :: rest) hmono
        have happ' : a :: b :: rest =
            (a :: b :: rest).filter (fun sb => stem_bit sb.stem i == 0) ++
            (a :: b :: rest).filter (fun sb => !(stem_bit sb.stem i == 0)) := by
          rw [← htwf.1, ← htwf.2]
          exact (List.takeWhile_append_dropWhile _ _).symm
        obtain ⟨htk, hdr⟩ := take_of_append happ'
        have hSL := SGood_left hSi
        have hSR := SGood_right hSi
        have hRHS : build_stem_tree (f+1) (a :: b :: rest) depth =
            wrap_with_empties_up.go a.stem depth
              (Node.Internal
                (h_pair
                  (build_stem_tree f ((a :: b :: rest).filter
                    (fun sb => stem_bit sb.stem i == 0)) (i+1)).hash
                  (build_stem_tree f ((a :: b :: rest).filter
                    (fun sb => !(stem_bit sb.stem i == 0))) (i+1)).hash)
                (build_stem_tree f ((a :: b :: rest).filter
                  (fun sb => stem_bit sb.stem i == 0)) (i+1))
                (build_stem_tree f ((a :: b :: rest).filter
                  (fun sb => !(stem_bit sb.stem i == 0))) (i+1)))
              (i - depth) := by
          rw [show f + 1 = (i - depth) + ((f - (i - depth)) + 1) by omega]
          rw [build_agree a.stem (i - depth) (f - (i - depth)) depth a b rest
            (fun sb hsb j hj1 hj2 => hmemrel sb hsb j (by omega))]
          rw [show depth + (i - depth) = i by omega]
          rw [build_stem_tree_two (f - (i - depth)) i a b rest]
          rw [build_fuel_irrel (f - (i - depth)) f (i+1) _ hSL (by omega) (by omega)]
          rw [build_fuel_irrel (f - (i - depth)) f (i+1) _ hSR (by omega) (by omega)]
        simp only [build_stem_tree_sorted_parallel, List.headD_cons]
        simp only [hd, htwf.1, htwf.2, htk, hdr]
        rw [wrap_unfold]
        rw [ih (i+1) _ hSL (by omega), ih (i+1) _ hSR (by omega)]
        rw [hRHS]


/-- `from_entries` on a nonempty input, in terms of the factored
stages. -/
theorem from_entries_eq (e : List (List Nat × List Nat)) (hne : e ≠ []) :
    from_entries e =
      ⟨bucketsOf e, build_stem_tree_sorted_parallel 248 (bucketsOf e) 0⟩ := by
  unfold from_entries
  rw [if_neg hne]
  rfl

/-- `flatLe` is total. -/
theorem flatLe_total (a b : Flat) : flatLe a b ∨ flatLe b a := by
  by_cases hs : a.stem = b.stem
  · rcases Nat.lt_trichotomy a.sub b.sub with h | h | h
    · exact Or.inl (Or.inr ⟨hs, Or.inl h⟩)
    · rcases Nat.le_total a.seq b.seq with hq | hq
      · exact Or.inl (Or.inr ⟨hs, Or.inr ⟨h, hq⟩⟩)
      · exact Or.inr (Or.inr ⟨hs.symm, Or.inr ⟨h.symm, hq⟩⟩)
    · exact Or.inr (Or.inr ⟨hs.symm, Or.inl h⟩)
  · rcases bytesLt_connex hs with h | h
    · exact Or.inl (Or.inl h)
    · exact Or.inr (Or.inl h)

/-- `flatLe` is transitive. -/
theorem flatLe_trans {a b c : Flat} (h1 : flatLe a b) (h2 : flatLe b c) : flatLe a c := by
  rcases h1 with h1 | ⟨hs1, h1⟩
  · rcases h2 with h2 | ⟨hs2, h2⟩
    · exact Or.inl (bytesLt_trans h1 h2)
    · exact Or.inl (by rw [← hs2]; exact h1)
  · rcases h2 with h2 | ⟨hs2, h2⟩
    · exact Or.inl (by rw [hs1]; exact h2)
    · refine Or.inr ⟨hs1.trans hs2, ?_⟩
      rcases h1 with h1 | ⟨he1, hq1⟩
      · rcases h2 with h2 | ⟨he2, hq2⟩
        · exact Or.inl (by omega)
        · exact Or.inl (by omega)
      · rcases h2 with h2 | ⟨he2, hq2⟩
        · exact Or.inl (by omega)
        · exact Or.inr ⟨by omega, by omega⟩

/-- A 32-byte key splits into its 31-byte stem and its sub-index byte. -/
theorem key_split {k : List Nat} (h : k.length = 32) :
    k = k.take 31 ++ [k.getD 31 0] := by
  have hlen : (k.drop 31).length = 1 := by
    rw [List.length_drop, h]
  obtain ⟨x, hx⟩ : ∃ x, k.drop 31 = [x] := by
    cases hd : k.drop 31 with
    | nil => rw [hd] at hlen; simp at hlen
    | cons y t =>
      cases t with
      | nil => exact ⟨y, rfl⟩
      | cons z t2 => rw [hd] at hlen; simp at hlen
  have hk : k = k.take 31 ++ [x] := by
    rw [← hx, List.take_append_drop]
  have hlt : (k.take 31).length = 31 := by
    rw [List.length_take]
    omega
  have hgd : k.getD 31 0 = x := by
    rw [hk, List.getD_append_right _ _ _ _ (by omega), hlt]
    rfl
  rw [← hgd] at hk
  exact hk


/-- The projected sorted entries are a permutation of the projected
input. -/
theorem projsOf_perm (e : List (List Nat × List Nat)) :
    List.Perm (projsOf e) (e.map (fun kv => (kv.1.take 31, kv.1.getD 31 0, kv.2))) := by
  unfold projsOf
  refine List.Perm.trans (List.Perm.map _ (List.perm_insertionSort flatLe _)) ?_
  rw [List.map_map]
  conv_rhs => rw [← List.enum_map_snd e, List.map_map]
  have he : ((fun f : Flat => (f.stem, f.sub, f.val)) ∘ fun p : Nat × (List Nat × List Nat) =>
      Flat.mk (p.2.1.take 31) (p.2.1.getD 31 0) p.2.2 p.1) =
      ((fun kv : List Nat × List Nat => (kv.1.take 31, kv.1.getD 31 0, kv.2)) ∘ Prod.snd) := rfl
  rw [he]

/-- On well-formed duplicate-free entries the projected sorted list is
strictly sorted in `(stem, sub)`. -/
theorem projsOf_pairwise (e : List (List Nat × List Nat)) (hwf : entriesWF e)
    (hnd : (e.map (·.1)).Nodup) : (projsOf e).Pairwise tripLt := by
  have hkeys : e.Pairwise (fun a b => a.1 ≠ b.1) := List.pairwise_map.mp hnd
  have henum : e.enum.Pairwise (fun p q => p.2.1 ≠ q.2.1) := by
    have h2 : (e.enum.map Prod.snd).Pairwise (fun a b => a.1 ≠ b.1) := by
      rw [List.enum_map_snd]
      exact hkeys
    have h3 := List.pairwise_map.mp h2
    exact h3
  have hmem32 : ∀ p ∈ e.enum, p.2.1.length = 32 := by
    intro p hp
    have hm : p.2 ∈ e := by
      have := List.mem_map_of_mem Prod.snd hp
      rwa [List.enum_map_snd] at this
    exact ((hwf p.2 hm).1).1
  have hflats : (e.enum.map (fun p => Flat.mk (p.2.1.take 31) (p.2.1.getD 31 0) p.2.2 p.1)).Pairwise
      (fun f g => ¬ (f.stem = g.stem ∧ f.sub = g.sub)) := by
    rw [List.pairwise_map]
    refine List.Pairwise.imp_of_mem ?_ henum
    intro p q hp hq hne h
    apply hne
    calc p.2.1 = p.2.1.take 31 ++ [p.2.1.getD 31 0] := key_split (hmem32 p hp)
    _ = q.2.1.take 31 ++ [q.2.1.getD 31 0] := by
        rw [show p.2.1.take 31 = q.2.1.take 31 from h.1,
          show p.2.1.getD 31 0 = q.2.1.getD 31 0 from h.2]
    _ = q.2.1 := (key_split (hmem32 q hq)).symm
  haveI : IsTotal Flat flatLe := ⟨flatLe_total⟩
  haveI : IsTrans Flat flatLe := ⟨fun a b c => flatLe_trans⟩
  have hsorted : (List.insertionSort flatLe (e.enum.map
      (fun p => Flat.mk (p.2.1.take 31) (p.2.1.getD 31 0) p.2.2 p.1))).Pairwise flatLe :=
    List.sorted_insertionSort flatLe _
  have hsne : (List.insertionSort flatLe (e.enum.map
      (fun p => Flat.mk (p.2.1.take 31) (p.2.1.getD 31 0) p.2.2 p.1))).Pairwise
      (fun f g => ¬ (f.stem = g.stem ∧ f.sub = g.sub)) := by
    refine (List.Perm.pairwise_iff ?_ (List.perm_insertionSort flatLe _)).mpr hflats
    intro x y hxy h
    exact hxy ⟨h.1.symm, h.2.symm⟩
  unfold projsOf
  rw [List.pairwise_map]
  refine List.Pairwise.imp ?_ (hsorted.and hsne)
  intro f g h
  obtain ⟨hle, hne⟩ := h
  rcases hle with h | ⟨hs, h⟩
  · exact Or.inl h
  · rcases h with h | ⟨he, _⟩
    · exact Or.inr ⟨hs, h⟩
    · exact absurd ⟨hs, he⟩ hne

/-- Permuting well-formed duplicate-free entries does not change the
projected sorted list. -/
theorem projsOf_perm_eq (e1 e2 : List (List Nat × List Nat)) (hperm : List.Perm e1 e2)
    (hwf : entriesWF e1) (hnd : (e1.map (·.1)).Nodup) : projsOf e1 = projsOf e2 := by
  have hwf2 : entriesWF e2 := fun kv hkv => hwf kv (hperm.mem_iff.mpr hkv)
  have hnd2 : (e2.map (·.1)).Nodup := ((hperm.map (·.1)).nodup_iff).mp hnd
  have hanti : ∀ (p q : List Nat × Nat × List Nat), tripLt p q → tripLt q p → p = q := by
    intro p q h1 h2
    exfalso
    rcases h1 with h1 | ⟨he1, hl1⟩ <;> rcases h2 with h2 | ⟨he2, hl2⟩
    · rw [bytesLt_asymm h1] at h2
      simp at h2
    · rw [he2, bytesLt_irrefl] at h1
      simp at h1
    · rw [he1, bytesLt_irrefl] at h2
      simp at h2
    · omega
  haveI : IsAntisymm (List Nat × Nat × List Nat) tripLt := ⟨hanti⟩
  have hp' : List.Perm (projsOf e1) (projsOf e2) :=
    (projsOf_perm e1).trans ((hperm.map _).trans (projsOf_perm e2).symm)
  have hs1 : List.Sorted tripLt (projsOf e1) := projsOf_pairwise e1 hwf hnd
  have hs2 : List.Sorted tripLt (projsOf e2) := projsOf_pairwise e2 hwf2 hnd2
  exact List.eq_of_perm_of_sorted hp' hs1 hs2

/-- Permuting well-formed duplicate-free entries does not change the
built tree at all. -/
theorem from_entries_perm_eq (e1 e2 : List (List Nat × List Nat))
    (hperm : List.Perm e1 e2) (hwf : entriesWF e1) (hnd : (e1.map (·.1)).Nodup) :
    from_entries e1 = from_entries e2 := by
  by_cases h1 : e1 = []
  · subst h1
    have h2 : e2 = [] := List.eq_nil_of_length_eq_zero hperm.length_eq.symm
    rw [h2]
  · have h2 : e2 ≠ [] := by
      intro he
      exact h1 (List.eq_nil_of_length_eq_zero (hperm.length_eq.trans (by rw [he]; rfl)))
    have hprojs := projsOf_perm_eq e1 e2 hperm hwf hnd
    have hbuckets : bucketsOf e1 = bucketsOf e2 := by
      unfold bucketsOf
      rw [hprojs]
    rw [from_entries_eq e1 h1, from_entries_eq e2 h2, hbuckets]


/-- C6: for a duplicate-free well-formed entry set, building the
pointer-variant tree from any permutation of the input yields the same
state root. -/
theorem C6_build_order_independent (e1 e2 : List (List Nat × List Nat))
    (hperm : List.Perm e1 e2) (hwf : entriesWF e1) (hnd : (e1.map (·.1)).Nodup) :
    (from_entries e1).state_root = (from_entries e2).state_root := by
  rw [from_entries_perm_eq e1 e2 hperm hwf hnd]

/-- Witness for C6 on two concrete two-entry inputs that permute each
other. -/
theorem C6_witness :
    (from_entries [(List.replicate 32 0, List.replicate 32 1),
      (List.replicate 31 0 ++ [1], List.replicate 32 2)]).state_root =
    (from_entries [(List.replicate 31 0 ++ [1], List.replicate 32 2),
      (List.replicate 32 0, List.replicate 32 1)]).state_root :=
  C6_build_order_independent _ _ (by decide) (by decide) (by decide)


/-- The projected sorted entries are sorted by stem (weakly). -/
theorem projsOf_stem_sorted (e : List (List Nat × List Nat)) :
    (projsOf e).Pairwise (fun p q => bytesLt p.1 q.1 = true ∨ p.1 = q.1) := by
  haveI : IsTotal Flat flatLe := ⟨flatLe_total⟩
  haveI : IsTrans Flat flatLe := ⟨fun a b c => flatLe_trans⟩
  have hsorted : (List.insertionSort flatLe (e.enum.map
      (fun p => Flat.mk (p.2.1.take 31) (p.2.1.getD 31 0) p.2.2 p.1))).Pairwise flatLe :=
    List.sorted_insertionSort flatLe _
  unfold projsOf
  rw [List.pairwise_map]
  refine List.Pairwise.imp ?_ hsorted
  intro f g h
  rcases h with h | ⟨hs, _⟩
  · exact Or.inl h
  · exact Or.inr hs

/-- The specification of `groupStems` on a stem-sorted list: each group
is nonempty and is the filter of the input at its head's stem, the
groups' head stems are strictly sorted, and every stem present in the
input heads some group. -/
theorem groupStems_spec : ∀ (fuel : Nat) (l : List (List Nat × Nat × List Nat)),
    l.length ≤ fuel →
    l.Pairwise (fun p q => bytesLt p.1 q.1 = true ∨ p.1 = q.1) →
    (∀ g ∈ groupStems fuel l, g ≠ [] ∧ g.headD ([], 0, []) ∈ l ∧
      g = l.filter (fun q => q.1 == (g.headD ([], 0, [])).1)) ∧
    ((groupStems fuel l).map (fun g => (g.headD ([], 0, [])).1)).Pairwise
      (fun a b => bytesLt a b = true) ∧
    (∀ s, (∃ q ∈ l, q.1 = s) →
      s ∈ (groupStems fuel l).map (fun g => (g.headD ([], 0, [])).1)) := by
  intro fuel
  induction fuel with
  | zero =>
    intro l hlen hsort
    have hl : l = [] := List.eq_nil_of_length_eq_zero (by omega)
    subst hl
    refine ⟨?_, ?_, ?_⟩
    · intro g hg
      simp [groupStems] at hg
    · simp [groupStems]
    · intro s hs
      obtain ⟨q, hq, _⟩ := hs
      simp at hq
  | succ f ih =>
    intro l hlen hsort
    cases l with
    | nil =>
      refine ⟨?_, ?_, ?_⟩
      · intro g hg
        simp [groupStems] at hg
      · simp [groupStems]
      · intro s hs
        obtain ⟨q, hq, _⟩ := hs
        simp at hq
    | cons p rest =>
      obtain ⟨hhead, htail⟩ := List.pairwise_cons.mp hsort
      have hmono : rest.Pairwise
          (fun x y => ((x.1 == p.1) = false → (y.1 == p.1) = false)) := by
        refine List.Pairwise.imp_of_mem ?_ htail
        intro x y hx hy hxy hfx
        simp only [beq_eq_false_iff_ne, ne_eq] at hfx ⊢
        intro hyp
        rcases hhead x hx with hpx | hpx
        · rcases hxy with hxy | hxy
          · rw [hyp] at hxy
            rw [bytesLt_asymm hxy] at hpx
            simp at hpx
          · exact hfx (hxy.trans hyp)
        · exact hfx hpx.symm
      obtain ⟨htw, hdw⟩ := takeWhile_eq_filter (fun q => q.1 == p.1) rest hmono
      have hdlen : (rest.dropWhile (fun q => q.1 == p.1)).length ≤ f := by
        rw [hdw]
        have := List.length_filter_le (fun q => !(q.1 == p.1)) rest
        simp only [List.length_cons] at hlen
        omega
      have hdsort : (rest.dropWhile (fun q => q.1 == p.1)).Pairwise
          (fun p q => bytesLt p.1 q.1 = true ∨ p.1 = q.1) := by
        rw [hdw]
        exact List.Pairwise.sublist (List.filter_sublist rest) htail
      obtain ⟨ih1, ih2, ih3⟩ := ih (rest.dropWhile (fun q => q.1 == p.1)) hdlen hdsort
      have hdropne : ∀ q ∈ rest.dropWhile (fun q => q.1 == p.1), q.1 ≠ p.1 := by
        intro q hq
        rw [hdw] at hq
        have := List.of_mem_filter hq
        simpa using this
      have hgroup1 : (p :: rest.takeWhile (fun q => q.1 == p.1)) =
          (p :: rest).filter (fun q => q.1 == p.1) := by
        rw [List.filter_cons_of_pos (by simp), htw]
      have hlift : ∀ g ∈ groupStems f (rest.dropWhile (fun q => q.1 == p.1)),
          g ≠ [] ∧ g.headD ([], 0, []) ∈ p :: rest ∧
          g = (p :: rest).filter (fun q => q.1 == (g.headD ([], 0, [])).1) := by
        intro g hg
        obtain ⟨hne, hmem, heq⟩ := ih1 g hg
        have hmemr : g.headD ([], 0, []) ∈ rest := by
          have h1 := hmem
          rw [hdw] at h1
          exact List.mem_of_mem_filter h1
        have hhne : (g.headD ([], 0, [])).1 ≠ p.1 := hdropne _ hmem
        refine ⟨hne, List.mem_cons_of_mem p hmemr, ?_⟩
        generalize hhd : (g.headD ([], 0, [])).1 = hd at heq hhne ⊢
        rw [List.filter_cons_of_neg (by rw [beq_iff_eq]; exact Ne.symm hhne)]
        rw [heq, hdw, List.filter_filter]
        refine List.filter_congr ?_
        intro q hq
        by_cases h : q.1 = hd
        · have h2 : (q.1 == p.1) = false := beq_eq_false_iff_ne.mpr (by rw [h]; exact hhne)
          have h3 : (q.1 == hd) = true := beq_iff_eq.mpr h
          rw [h2, h3]
          rfl
        · have h3 : (q.1 == hd) = false := beq_eq_false_iff_ne.mpr h
          rw [h3]
          rfl
      have hheads : ∀ s ∈ (groupStems f (rest.dropWhile (fun q => q.1 == p.1))).map
          (fun g => (g.headD ([], 0, [])).1), bytesLt p.1 s = true := by
        intro s hs
        obtain ⟨g, hg, hgs⟩ := List.mem_map.mp hs
        obtain ⟨hne, hmem, _⟩ := ih1 g hg
        have hmemr : g.headD ([], 0, []) ∈ rest := by
          have h1 := hmem
          rw [hdw] at h1
          exact List.mem_of_mem_filter h1
        have hhne : (g.headD ([], 0, [])).1 ≠ p.1 := hdropne _ hmem
        rcases hhead _ hmemr with h | h
        · rw [← hgs]
          exact h
        · exact absurd h.symm hhne
      have hunfold : groupStems (f+1) (p :: rest) =
          (p :: rest.takeWhile (fun q => q.1 == p.1)) ::
            groupStems f (rest.dropWhile (fun q => q.1 == p.1)) := rfl
      refine ⟨?_, ?_, ?_⟩
      · intro g hg
        rw [hunfold] at hg
        rcases List.mem_cons.mp hg with hg1 | hg2
        · subst hg1
          refine ⟨by simp, by simp, ?_⟩
          simp only [List.headD_cons]
          exact hgroup1
        · exact hlift g hg2
      · rw [hunfold, List.map_cons]
        refine List.pairwise_cons.mpr ⟨?_, ih2⟩
        intro s hs
        simp only [List.headD_cons] at hs ⊢
        exact hheads s hs
      · intro s hs
        obtain ⟨q, hq, hqs⟩ := hs
        rw [hunfold, List.map_cons]
        simp only [List.headD_cons]
        by_cases hsp : s = p.1
        · rw [hsp]
          exact List.mem_cons_self _ _
        · refine List.mem_cons_of_mem _ ?_
          rcases List.mem_cons.mp hq with hq1 | hq2
          · exact absurd (hq1 ▸ hqs).symm hsp
          · have hq3 : q ∈ rest.takeWhile (fun q => q.1 == p.1) ++
                rest.dropWhile (fun q => q.1 == p.1) := by
              rw [List.takeWhile_append_dropWhile]
              exact hq2
            rcases List.mem_append.mp hq3 with hq4 | hq4
            · rw [htw] at hq4
              have := List.of_mem_filter hq4
              rw [hqs] at this
              simp at this
              exact absurd this hsp
            · exact ih3 s ⟨q, hq4, hqs⟩


/-- Deduplicated elements come from the input. -/
theorem dedupFirstBy_sub {α β : Type} [BEq β] (key : α → β) :
    ∀ (seen : List β) (l : List α), ∀ x ∈ dedupFirstBy key seen l, x ∈ l := by
  intro seen l
  induction l generalizing seen with
  | nil => intro x hx; simp [dedupFirstBy] at hx
  | cons a rest ih =>
    intro x hx
    simp only [dedupFirstBy] at hx
    by_cases hc : seen.contains (key a)
    · rw [if_pos hc] at hx
      exact List.mem_cons_of_mem a (ih seen x hx)
    · rw [if_neg hc] at hx
      rcases List.mem_cons.mp hx with h | h
      · rw [h]; exact List.mem_cons_self a rest
      · exact List.mem_cons_of_mem a (ih (key a :: seen) x h)

/-- The keys of the deduplicated list are distinct and avoid `seen`. -/
theorem dedupFirstBy_nodup {α β : Type} [BEq β] [LawfulBEq β] (key : α → β) :
    ∀ (seen : List β) (l : List α),
      ((dedupFirstBy key seen l).map key).Nodup ∧
      (∀ x ∈ dedupFirstBy key seen l, seen.contains (key x) = false) := by
  intro seen l
  induction l generalizing seen with
  | nil => exact ⟨by simp [dedupFirstBy], by intro x hx; simp [dedupFirstBy] at hx⟩
  | cons a rest ih =>
    by_cases hc : seen.contains (key a)
    · have h1 : dedupFirstBy key seen (a :: rest) = dedupFirstBy key seen rest := by
        simp only [dedupFirstBy, if_pos hc]
      rw [h1]
      exact ih seen
    · have h1 : dedupFirstBy key seen (a :: rest) =
          a :: dedupFirstBy key (key a :: seen) rest := by
        simp only [dedupFirstBy, if_neg hc]
      rw [h1]
      obtain ⟨ihn, ihs⟩ := ih (key a :: seen)
      constructor
      · rw [List.map_cons]
        refine List.nodup_cons.mpr ⟨?_, ihn⟩
        intro hmem
        obtain ⟨x, hx, hkx⟩ := List.mem_map.mp hmem
        have := ihs x hx
        rw [List.contains_cons] at this
        simp only [Bool.or_eq_false_iff] at this
        rw [hkx] at this
        simp at this
      · intro x hx
        rcases List.mem_cons.mp hx with h | h
        · rw [h]
          cases hcc : seen.contains (key a)
          · rfl
          · exact absurd hcc hc
        · have := ihs x h
          rw [List.contains_cons] at this
          simp only [Bool.or_eq_false_iff] at this
          exact this.2

/-- Looking a fresh key up in the deduplicated list is looking it up in
the input. -/
theorem mapLookup_dedupFirstBy :
    ∀ (seen : List Nat) (m : List (Nat × List Nat)) (u : Nat),
      seen.contains u = false →
      mapLookup (dedupFirstBy (fun p => p.1) seen m) u = mapLookup m u := by
  intro seen m
  induction m generalizing seen with
  | nil => intro u hu; rfl
  | cons a m' ih =>
    intro u hu
    by_cases hc : seen.contains a.1
    · have h1 : dedupFirstBy (fun p : Nat × List Nat => p.1) seen (a :: m') =
          dedupFirstBy (fun p => p.1) seen m' := by
        simp only [dedupFirstBy, if_pos hc]
      have hau : (a.1 == u) = false := by
        rw [beq_eq_false_iff_ne]
        intro he
        rw [he] at hc
        rw [hc] at hu
        exact Bool.noConfusion hu
      rw [h1, ih seen u hu]
      unfold mapLookup
      rw [List.find?_cons_of_neg _ (by rw [hau]; exact Bool.noConfusion)]
    · have h1 : dedupFirstBy (fun p : Nat × List Nat => p.1) seen (a :: m') =
          a :: dedupFirstBy (fun p => p.1) (a.1 :: seen) m' := by
        simp only [dedupFirstBy, if_neg hc]
      rw [h1]
      by_cases hau : a.1 = u
      · unfold mapLookup
        rw [List.find?_cons_of_pos _ (by simp [hau]), List.find?_cons_of_pos _ (by simp [hau])]
      · have hne : (a.1 == u) = false := beq_eq_false_iff_ne.mpr hau
        have hu' : (a.1 :: seen).contains u = false := by
          rw [List.contains_cons]
          simp only [Bool.or_eq_false_iff]
          refine ⟨?_, hu⟩
          rw [beq_eq_false_iff_ne]
          exact fun h => hau h.symm
        unfold mapLookup
        rw [List.find?_cons_of_neg _ (by rw [hne]; exact Bool.noConfusion),
          List.find?_cons_of_neg _ (by rw [hne]; exact Bool.noConfusion)]
        exact ih (a.1 :: seen) u hu'


/-- Every projected sorted entry has a valid 31-byte stem and a byte
sub-index. -/
theorem projsOf_mem (e : List (List Nat × List Nat)) (hwf : entriesWF e) :
    ∀ t ∈ projsOf e, isBytes 31 t.1 ∧ t.2.1 < 256 := by
  intro t ht
  have ht2 : t ∈ e.map (fun kv => (kv.1.take 31, kv.1.getD 31 0, kv.2)) :=
    (projsOf_perm e).mem_iff.mp ht
  obtain ⟨kv, hkv, hteq⟩ := List.mem_map.mp ht2
  obtain ⟨⟨hklen, hkbytes⟩, _⟩ := hwf kv hkv
  subst hteq
  refine ⟨⟨?_, ?_⟩, ?_⟩
  · rw [List.length_take, hklen]
    omega
  · intro b hb
    exact hkbytes b (List.take_subset 31 kv.1 hb)
  · have h31 : 31 < kv.1.length := by omega
    rw [List.getD_eq_getElem?_getD, List.getElem?_eq_getElem h31]
    exact hkbytes _ (List.getElem_mem h31)

/-- `mkBucket` of a nonempty well-formed group is a well-formed
bucket. -/
theorem mkBucket_wfbucket (g : List (List Nat × Nat × List Nat))
    (hstem : isBytes 31 (g.headD ([], 0, [])).1)
    (hsubs : ∀ q ∈ g, q.2.1 < 256) :
    WFbucket (mkBucket g) := by
  have hnodup := (dedupFirstBy_nodup (fun p : Nat × List Nat => p.1) []
    (g.reverse.map (fun p => (p.2.1, p.2.2)))).1
  have hsub256 : ∀ j ∈ (dedupFirstBy (fun p : Nat × List Nat => p.1) []
      (g.reverse.map (fun p => (p.2.1, p.2.2)))).map (·.1), j < 256 := by
    intro j hj
    obtain ⟨x, hx, hxj⟩ := List.mem_map.mp hj
    have hx2 := dedupFirstBy_sub _ _ _ x hx
    obtain ⟨q, hq, hqx⟩ := List.mem_map.mp hx2
    rw [← hxj, ← hqx]
    exact hsubs q (List.mem_reverse.mp hq)
  refine ⟨hstem, hnodup, hsub256, ?_, rfl⟩
  exact subtree_root_pairs_eq_sparse _ hnodup hsub256

/-- Valid byte-sorted bucket lists are good slices at depth 0. -/
theorem SGood_zero {S : List StemBucket}
    (hv : ∀ sb ∈ S, isBytes 31 sb.stem)
    (hp : S.Pairwise (fun a b => bytesLt a.stem b.stem = true)) : SGood 0 S := by
  refine ⟨hv, ?_, ?_⟩
  · rw [List.pairwise_map]
    refine List.Pairwise.imp_of_mem ?_ hp
    intro a b ha hb hab
    have h1 := hv a ha
    have h2 := hv b hb
    exact bytesLt_bitLt a.stem b.stem (by rw [h1.1, h2.1]) h1.2 h2.2 hab
  · intro sb _ sb' _ j hj
    omega

/-- The buckets of the bulk build are well-formed and stem-sorted. -/
theorem bucketsOf_wf (e : List (List Nat × List Nat)) (hwf : entriesWF e) :
    (∀ sb ∈ bucketsOf e, WFbucket sb) ∧
    (bucketsOf e).Pairwise (fun a b => bytesLt a.stem b.stem = true) := by
  obtain ⟨hs1, hs2, _⟩ := groupStems_spec (projsOf e).length (projsOf e)
    (Nat.le_refl _) (projsOf_stem_sorted e)
  constructor
  · intro sb hsb
    obtain ⟨g, hg, hgsb⟩ := List.mem_map.mp hsb
    obtain ⟨hne, hmem, hfil⟩ := hs1 g hg
    rw [← hgsb]
    refine mkBucket_wfbucket g ?_ ?_
    · exact (projsOf_mem e hwf _ hmem).1
    · intro q hq
      have : q ∈ projsOf e := by
        rw [hfil] at hq
        exact List.mem_of_mem_filter hq
      exact (projsOf_mem e hwf q this).2
  · unfold bucketsOf
    rw [List.pairwise_map]
    have := List.pairwise_map.mp hs2
    exact List.Pairwise.imp (fun h => h) this

/-- The bulk build produces a well-formed tree. -/
theorem WF_from_entries (e : List (List Nat × List Nat)) (hwf : entriesWF e) :
    WF (from_entries e) := by
  by_cases hne : e = []
  · subst hne
    refine ⟨?_, ?_, ?_⟩
    · intro sb hsb
      simp [from_entries, BinaryStateTree.new] at hsb
    · simp [from_entries, BinaryStateTree.new]
    · rfl
  · rw [from_entries_eq e hne]
    obtain ⟨h1, h2⟩ := bucketsOf_wf e hwf
    have hg : SGood 0 (bucketsOf e) :=
      SGood_zero (fun sb hsb => (h1 sb hsb).1) h2
    exact ⟨h1, h2, parallel_eq_simple 248 0 (bucketsOf e) hg (by omega)⟩


/-- The flattened entries carry strictly increasing sequence numbers. -/
theorem flats_seq_lt (e : List (List Nat × List Nat)) :
    (e.enum.map (fun p => Flat.mk (p.2.1.take 31) (p.2.1.getD 31 0) p.2.2 p.1)).Pairwise
      (fun f g => f.seq < g.seq) := by
  have h0 : (e.enum.map Prod.fst).Pairwise (· < ·) := by
    rw [List.enum_map_fst]
    exact List.pairwise_lt_range _
  have h1 := List.pairwise_map.mp h0
  rw [List.pairwise_map]
  exact List.Pairwise.imp (fun h => h) h1

/-- The flattened entries carry distinct sequence numbers (as a
permutation-stable fact, via the sorted list). -/
theorem sortedFlats_seq_ne (e : List (List Nat × List Nat)) :
    (List.insertionSort flatLe (e.enum.map
      (fun p => Flat.mk (p.2.1.take 31) (p.2.1.getD 31 0) p.2.2 p.1))).Pairwise
      (fun f g => f.seq ≠ g.seq) := by
  have hnd : ((e.enum.map (fun p => Flat.mk (p.2.1.take 31) (p.2.1.getD 31 0) p.2.2 p.1)).map
      (fun f => f.seq)).Nodup := by
    rw [List.map_map]
    have he : ((fun f : Flat => f.seq) ∘ fun p : Nat × (List Nat × List Nat) =>
        Flat.mk (p.2.1.take 31) (p.2.1.getD 31 0) p.2.2 p.1) = Prod.fst := rfl
    rw [he, List.enum_map_fst]
    exact List.nodup_range _
  have hnd2 : ((List.insertionSort flatLe (e.enum.map
      (fun p => Flat.mk (p.2.1.take 31) (p.2.1.getD 31 0) p.2.2 p.1))).map
      (fun f => f.seq)).Nodup :=
    (((List.perm_insertionSort flatLe _).map (fun f : Flat => f.seq)).nodup_iff).mpr hnd
  exact List.pairwise_map.mp hnd2

/-- Filtering the sorted flats by one `(stem, sub)` pair gives the same
list as filtering the unsorted flats: both are the same multiset and
both are strictly sorted by sequence number. -/
theorem sorted_filter_eq (e : List (List Nat × List Nat)) (s : List Nat) (u : Nat)
    (Fsel : Flat → Bool) (hFsel : ∀ f, Fsel f = true → f.stem = s ∧ f.sub = u) :
    (List.insertionSort flatLe (e.enum.map
      (fun p => Flat.mk (p.2.1.take 31) (p.2.1.getD 31 0) p.2.2 p.1))).filter Fsel =
    (e.enum.map (fun p => Flat.mk (p.2.1.take 31) (p.2.1.getD 31 0) p.2.2 p.1)).filter
      Fsel := by
  haveI : IsTotal Flat flatLe := ⟨flatLe_total⟩
  haveI : IsTrans Flat flatLe := ⟨fun a b c => flatLe_trans⟩
  haveI : IsAntisymm Flat (fun f g : Flat => f.seq < g.seq) := ⟨fun a b h1 h2 => by omega⟩
  have hsorted : (List.insertionSort flatLe (e.enum.map
      (fun p => Flat.mk (p.2.1.take 31) (p.2.1.getD 31 0) p.2.2 p.1))).Pairwise flatLe :=
    List.sorted_insertionSort flatLe _
  have hperm : List.Perm
      ((List.insertionSort flatLe (e.enum.map
        (fun p => Flat.mk (p.2.1.take 31) (p.2.1.getD 31 0) p.2.2 p.1))).filter Fsel)
      ((e.enum.map (fun p => Flat.mk (p.2.1.take 31) (p.2.1.getD 31 0) p.2.2 p.1)).filter
        Fsel) :=
    (List.perm_insertionSort flatLe _).filter Fsel
  have hs1 : List.Sorted (fun f g : Flat => f.seq < g.seq)
      ((List.insertionSort flatLe (e.enum.map
        (fun p => Flat.mk (p.2.1.take 31) (p.2.1.getD 31 0) p.2.2 p.1))).filter Fsel) := by
    have hA : List.Pairwise flatLe ((List.insertionSort flatLe (e.enum.map
        (fun p => Flat.mk (p.2.1.take 31) (p.2.1.getD 31 0) p.2.2 p.1))).filter Fsel) :=
      List.Pairwise.sublist (List.filter_sublist _) hsorted
    have hB : List.Pairwise (fun f g : Flat => f.seq ≠ g.seq)
        ((List.insertionSort flatLe (e.enum.map
        (fun p => Flat.mk (p.2.1.take 31) (p.2.1.getD 31 0) p.2.2 p.1))).filter Fsel) :=
      List.Pairwise.sublist (List.filter_sublist _) (sortedFlats_seq_ne e)
    refine List.Pairwise.imp_of_mem ?_ (hA.and hB)
    intro f g hf hg h
    obtain ⟨hle, hne⟩ := h
    obtain ⟨hfs, hfu⟩ := hFsel f (List.of_mem_filter hf)
    obtain ⟨hgs, hgu⟩ := hFsel g (List.of_mem_filter hg)
    rcases hle with h | ⟨_, h⟩
    · rw [hfs, hgs, bytesLt_irrefl] at h
      exact Bool.noConfusion h
    · rcases h with h | ⟨_, h⟩
      · rw [hfu, hgu] at h
        omega
      · omega
  have hs2 : List.Sorted (fun f g : Flat => f.seq < g.seq)
      ((e.enum.map (fun p => Flat.mk (p.2.1.take 31) (p.2.1.getD 31 0) p.2.2 p.1)).filter
        Fsel) :=
    List.Pairwise.sublist (List.filter_sublist _) (flats_seq_lt e)
  exact List.eq_of_perm_of_sorted hperm hs1 hs2


/-- `find?` is the head of the filter. -/
theorem find?_eq_head?_filter {α : Type} (p : α → Bool) :
    ∀ (l : List α), l.find? p = (l.filter p).head?
  | [] => rfl
  | a :: t => by
    cases hp : p a
    · rw [List.find?_cons_of_neg _ (by rw [hp]; exact Bool.noConfusion),
        List.filter_cons_of_neg (by rw [hp]; exact Bool.noConfusion)]
      exact find?_eq_head?_filter p t
    · rw [List.find?_cons_of_pos _ hp, List.filter_cons_of_pos hp]
      rfl

/-- `find?` with a unique satisfying member. -/
theorem find?_unique {α : Type} (p : α → Bool) :
    ∀ (l : List α) (x : α), x ∈ l → p x = true →
      (∀ y ∈ l, p y = true → y = x) → l.find? p = some x
  | [], x, hx, _, _ => absurd hx (List.not_mem_nil x)
  | a :: t, x, hx, hpx, huniq => by
    cases hp : p a
    · rw [List.find?_cons_of_neg _ (by rw [hp]; exact Bool.noConfusion)]
      rcases List.mem_cons.mp hx with h | h
      · rw [← h] at hp
        rw [hpx] at hp
        exact Bool.noConfusion hp
      · exact find?_unique p t x h hpx (fun y hy hpy => huniq y (List.mem_cons_of_mem a hy) hpy)
    · rw [List.find?_cons_of_pos _ hp]
      rw [huniq a (List.mem_cons_self a t) hp]

/-- The head of a nonempty stem filter carries that stem. -/
theorem filter_headD_stem {l : List (List Nat × Nat × List Nat)} {s : List Nat}
    (hne : l.filter (fun q => q.1 == s) ≠ []) :
    ((l.filter (fun q => q.1 == s)).headD ([], 0, [])).1 = s := by
  cases hG : l.filter (fun q => q.1 == s) with
  | nil => exact absurd hG hne
  | cons a t =>
    have ha : a ∈ l.filter (fun q => q.1 == s) := by
      rw [hG]
      exact List.mem_cons_self a t
    have := List.of_mem_filter ha
    rw [List.headD_cons]
    exact beq_iff_eq.mp this

/-- The value component of a successful proof is the bound value. -/
theorem prove_for_key_value (t : BinaryStateTree) (key : List Nat) (v : List Nat)
    (sibs path : List (List Nat))
    (h : t.prove_for_key key = some (v, sibs, path)) :
    t.boundValue key = some v := by
  have h' : (match t.stems.find? (fun sb => sb.stem == key.take 31) with
      | none => none
      | some sb =>
        match mapLookup sb.leaves (key.getD 31 0) with
        | none => none
        | some value =>
          (prove_paths_sparse t.root (key.take 31) (key.getD 31 0) sb.leaves).map
            (fun pr => (value, pr.1, pr.2))) = some (v, sibs, path) := h
  unfold BinaryStateTree.boundValue
  cases hf : t.stems.find? (fun sb => sb.stem == key.take 31) with
  | none =>
    rw [hf] at h'
    exact Option.noConfusion h'
  | some sb =>
    rw [hf] at h'
    have h2 : (match mapLookup sb.leaves (key.getD 31 0) with
        | none => none
        | some value =>
          (prove_paths_sparse t.root (key.take 31) (key.getD 31 0) sb.leaves).map
            (fun pr => (value, pr.1, pr.2))) = some (v, sibs, path) := h'
    cases hl : mapLookup sb.leaves (key.getD 31 0) with
    | none =>
      rw [hl] at h2
      exact Option.noConfusion h2
    | some value =>
      rw [hl] at h2
      cases hp : prove_paths_sparse t.root (key.take 31) (key.getD 31 0) sb.leaves with
      | none =>
        rw [hp] at h2
        exact Option.noConfusion h2
      | some pr =>
        rw [hp] at h2
        have hv : value = v := congrArg Prod.fst (Option.some.inj h2)
        show (some sb).bind (fun sb => mapLookup sb.leaves (key.getD 31 0)) = some v
        rw [show (some sb).bind (fun sb => mapLookup sb.leaves (key.getD 31 0)) =
          mapLookup sb.leaves (key.getD 31 0) from rfl, hl, hv]


/-- The per-key run of the projected sorted entries equals the
projections of the input entries with that key, in input order. -/
theorem run_eq (e : List (List Nat × List Nat)) (hwf : entriesWF e)
    (key : List Nat) (hkey : isBytes 32 key) :
    ((projsOf e).filter (fun t => t.1 == key.take 31)).filter
      (fun q => q.2.1 == key.getD 31 0) =
    (e.enum.filter (fun p => p.2.1 == key)).map
      (fun p => ((p.2.1.take 31 : List Nat), (p.2.1.getD 31 0, p.2.2))) := by
  rw [List.filter_filter]
  unfold projsOf
  rw [List.filter_map]
  have hsel := sorted_filter_eq e (key.take 31) (key.getD 31 0)
    ((fun a : List Nat × Nat × List Nat => (a.2.1 == key.getD 31 0) && (a.1 == key.take 31)) ∘
      (fun f : Flat => (f.stem, f.sub, f.val)))
    (by
      intro f hf
      have hf' : ((f.sub == key.getD 31 0) && (f.stem == key.take 31)) = true := hf
      rw [Bool.and_eq_true] at hf'
      exact ⟨beq_iff_eq.mp hf'.2, beq_iff_eq.mp hf'.1⟩)
  rw [hsel, List.filter_map, List.map_map]
  have hfc : (e.enum.filter
      (((fun a : List Nat × Nat × List Nat =>
          (a.2.1 == key.getD 31 0) && (a.1 == key.take 31)) ∘
        (fun f : Flat => (f.stem, f.sub, f.val))) ∘
        (fun p : Nat × (List Nat × List Nat) =>
          Flat.mk (p.2.1.take 31) (p.2.1.getD 31 0) p.2.2 p.1))) =
      e.enum.filter (fun p => p.2.1 == key) := by
    refine List.filter_congr ?_
    intro p hp
    have hm : p.2 ∈ e := by
      have := List.mem_map_of_mem Prod.snd hp
      rwa [List.enum_map_snd] at this
    have h32 : p.2.1.length = 32 := ((hwf p.2 hm).1).1
    show ((p.2.1.getD 31 0 == key.getD 31 0) && (p.2.1.take 31 == key.take 31)) =
      (p.2.1 == key)
    by_cases hk : p.2.1 = key
    · have hb : (p.2.1 == key) = true := beq_iff_eq.mpr hk
      rw [hb, hk]
      simp
    · have hb : (p.2.1 == key) = false := beq_eq_false_iff_ne.mpr hk
      rw [hb]
      by_cases h1 : p.2.1.take 31 = key.take 31
      · by_cases h2 : p.2.1.getD 31 0 = key.getD 31 0
        · exfalso
          apply hk
          calc p.2.1 = p.2.1.take 31 ++ [p.2.1.getD 31 0] := key_split h32
          _ = key.take 31 ++ [key.getD 31 0] := by rw [h1, h2]
          _ = key := (key_split hkey.1).symm
        · show ((p.2.1.getD 31 0 == key.getD 31 0) && (p.2.1.take 31 == key.take 31)) = false
          rw [beq_eq_false_iff_ne.mpr h2]
          rfl
      · show ((p.2.1.getD 31 0 == key.getD 31 0) && (p.2.1.take 31 == key.take 31)) = false
        rw [beq_eq_false_iff_ne.mpr h1, Bool.and_false]
  rw [hfc]
  exact List.map_congr_left (fun a ha => rfl)

/-- `lastValueOf` through the enumerated input. -/
theorem lastValueOf_eq (e : List (List Nat × List Nat)) (key : List Nat) :
    lastValueOf e key =
      ((e.enum.filter (fun p => p.2.1 == key)).reverse.head?).map (fun p => p.2.2) := by
  unfold lastValueOf
  rw [find?_eq_head?_filter, List.filter_reverse]
  have hf : e.filter (fun kv => kv.1 == key) =
      (e.enum.filter (fun p => p.2.1 == key)).map Prod.snd := by
    conv_lhs => rw [← List.enum_map_snd e]
    rw [List.filter_map]
    refine congrArg (List.map Prod.snd) (List.filter_congr ?_)
    intro p hp
    rfl
  rw [hf, ← List.map_reverse, List.head?_map, Option.map_map]
  rfl


/-- Looking up a sub-index in a built bucket reads the last matching
entry of its group. -/
theorem mkBucket_lookup (G : List (List Nat × Nat × List Nat)) (u : Nat) :
    mapLookup (mkBucket G).leaves u =
      ((G.filter (fun q => q.2.1 == u)).reverse.head?).map (fun q => q.2.2) := by
  have h1 : mapLookup (mkBucket G).leaves u =
      mapLookup (G.reverse.map (fun p => (p.2.1, p.2.2))) u :=
    mapLookup_dedupFirstBy [] _ u rfl
  rw [h1]
  show ((G.reverse.map (fun p => (p.2.1, p.2.2))).find? (fun p => p.1 == u)).map (·.2) = _
  rw [List.find?_map, Option.map_map, find?_eq_head?_filter, List.filter_reverse]
  rfl

/-- The bulk build binds under every 32-byte key exactly the value of
the key's last occurrence in the input. -/
theorem boundValue_from_entries (e : List (List Nat × List Nat)) (key : List Nat)
    (hwf : entriesWF e) (hkey : isBytes 32 key) :
    (from_entries e).boundValue key = lastValueOf e key := by
  by_cases hne : e = []
  · subst hne
    rfl
  · obtain ⟨hs1, hs2, hs3⟩ := groupStems_spec (projsOf e).length (projsOf e)
      (Nat.le_refl _) (projsOf_stem_sorted e)
    have hb : (from_entries e).boundValue key =
        ((bucketsOf e).find? (fun sb => sb.stem == key.take 31)).bind
          (fun sb => mapLookup sb.leaves (key.getD 31 0)) := by
      unfold BinaryStateTree.boundValue
      rw [from_entries_eq e hne]
    by_cases hpres : ∃ q ∈ projsOf e, q.1 = key.take 31
    · obtain ⟨q0, hq0, hq0s⟩ := hpres
      have hGne : (projsOf e).filter (fun t => t.1 == key.take 31) ≠ [] := by
        have hq0m : q0 ∈ (projsOf e).filter (fun t => t.1 == key.take 31) :=
          List.mem_filter.mpr ⟨hq0, beq_iff_eq.mpr hq0s⟩
        exact List.ne_nil_of_mem hq0m
      have hsmem : key.take 31 ∈ (groupStems (projsOf e).length (projsOf e)).map
          (fun g => (g.headD ([], 0, [])).1) := hs3 _ ⟨q0, hq0, hq0s⟩
      obtain ⟨g, hg, hghead⟩ := List.mem_map.mp hsmem
      have hgG : g = (projsOf e).filter (fun t => t.1 == key.take 31) := by
        obtain ⟨hgne, hgmem, hgfil⟩ := hs1 g hg
        rw [hgfil, hghead]
      have hfind : (bucketsOf e).find? (fun sb => sb.stem == key.take 31) =
          some (mkBucket ((projsOf e).filter (fun t => t.1 == key.take 31))) := by
        refine find?_unique _ _ _ ?_ ?_ ?_
        · rw [← hgG]
          exact List.mem_map_of_mem mkBucket hg
        · exact beq_iff_eq.mpr (filter_headD_stem hGne)
        · intro y hy hpy
          obtain ⟨g', hg', hg'y⟩ := List.mem_map.mp hy
          obtain ⟨hg'ne, hg'mem, hg'fil⟩ := hs1 g' hg'
          rw [← hg'y] at hpy
          have hstem : (g'.headD ([], 0, [])).1 = key.take 31 := beq_iff_eq.mp hpy
          rw [← hg'y, hg'fil, hstem]
      rw [hb, hfind]
      show mapLookup (mkBucket ((projsOf e).filter (fun t => t.1 == key.take 31))).leaves
        (key.getD 31 0) = lastValueOf e key
      rw [mkBucket_lookup, run_eq e hwf key hkey, lastValueOf_eq]
      rw [← List.map_reverse, List.head?_map, Option.map_map]
      rfl
    · push_neg at hpres
      have hfind : (bucketsOf e).find? (fun sb => sb.stem == key.take 31) = none := by
        rw [List.find?_eq_none]
        intro sb hsb
        obtain ⟨g, hg, hgsb⟩ := List.mem_map.mp hsb
        obtain ⟨hgne, hgmem, _⟩ := hs1 g hg
        rw [← hgsb]
        intro hcc
        exact hpres _ hgmem (beq_iff_eq.mp hcc)
      have hnone : e.reverse.find? (fun kv => kv.1 == key) = none := by
        rw [List.find?_eq_none]
        intro kv hkv hbeq
        have hkv2 : kv ∈ e := List.mem_reverse.mp hkv
        have hkeq : kv.1 = key := beq_iff_eq.mp hbeq
        have hmemp : ((kv.1.take 31 : List Nat), (kv.1.getD 31 0, kv.2)) ∈ projsOf e := by
          refine (projsOf_perm e).mem_iff.mpr ?_
          exact List.mem_map_of_mem _ hkv2
        exact hpres _ hmemp (by rw [hkeq])
      have hlast : lastValueOf e key = none := by
        unfold lastValueOf
        rw [hnone]
        rfl
      rw [hb, hfind, hlast]
      rfl


/-- C5: with duplicate keys in a bulk build the value bound under a key
(and echoed by any successful proof for it) is the value of the key's
last occurrence in input order. -/
theorem C5_last_write_wins (entries : List (List Nat × List Nat)) (key : List Nat)
    (hwf : entriesWF entries) (hkey : isBytes 32 key) :
    (from_entries entries).boundValue key = lastValueOf entries key ∧
    ∀ v sibs path, (from_entries entries).prove_for_key key = some (v, sibs, path) →
      lastValueOf entries key = some v := by
  refine ⟨boundValue_from_entries entries key hwf hkey, ?_⟩
  intro v sibs path h
  rw [← boundValue_from_entries entries key hwf hkey]
  exact prove_for_key_value _ _ _ _ _ h

/-- Witness for C5 on a concrete two-entry input with a duplicated
key. -/
theorem C5_witness :
    (from_entries [(List.replicate 32 0, List.replicate 32 1),
      (List.replicate 32 0, List.replicate 32 2)]).boundValue (List.replicate 32 0) =
      lastValueOf [(List.replicate 32 0, List.replicate 32 1),
        (List.replicate 32 0, List.replicate 32 2)] (List.replicate 32 0) ∧
    ∀ v sibs path, (from_entries [(List.replicate 32 0, List.replicate 32 1),
        (List.replicate 32 0, List.replicate 32 2)]).prove_for_key
        (List.replicate 32 0) = some (v, sibs, path) →
      lastValueOf [(List.replicate 32 0, List.replicate 32 1),
        (List.replicate 32 0, List.replicate 32 2)] (List.replicate 32 0) = some v :=
  C5_last_write_wins _ _ (by decide) (by decide)


/-- The builder only reads each bucket's stem and stem hash; a
permutation of that projection gives the same tree. -/
theorem build_proj_perm : ∀ (fuel depth : Nat) (S1 S2 : List StemBucket),
    List.Perm (S1.map (fun sb => (sb.stem, sb.stem_hash)))
      (S2.map (fun sb => (sb.stem, sb.stem_hash))) →
    build_stem_tree fuel S1 depth = build_stem_tree fuel S2 depth := by
  intro fuel
  induction fuel with
  | zero =>
    intro depth S1 S2 hp
    have hlen : S1.length = S2.length := by
      have := hp.length_eq
      simpa using this
    cases S1 with
    | nil =>
      cases S2 with
      | nil => rfl
      | cons b t2 => simp at hlen
    | cons a t1 =>
      cases t1 with
      | nil =>
        cases S2 with
        | nil => simp at hlen
        | cons b t2 =>
          cases t2 with
          | nil =>
            have he : a.stem = b.stem ∧ a.stem_hash = b.stem_hash := by simpa using hp
            show Node.StemLeaf a.stem_hash a.stem = Node.StemLeaf b.stem_hash b.stem
            rw [he.1, he.2]
          | cons c t3 => simp at hlen
      | cons a2 t1' =>
        cases S2 with
        | nil => simp at hlen
        | cons b t2 =>
          cases t2 with
          | nil => simp at hlen
          | cons b2 t2' => rfl
  | succ f ih =>
    intro depth S1 S2 hp
    have hlen : S1.length = S2.length := by
      have := hp.length_eq
      simpa using this
    cases S1 with
    | nil =>
      cases S2 with
      | nil => rfl
      | cons b t2 => simp at hlen
    | cons a t1 =>
      cases t1 with
      | nil =>
        cases S2 with
        | nil => simp at hlen
        | cons b t2 =>
          cases t2 with
          | nil =>
            have he : a.stem = b.stem ∧ a.stem_hash = b.stem_hash := by simpa using hp
            show Node.StemLeaf a.stem_hash a.stem = Node.StemLeaf b.stem_hash b.stem
            rw [he.1, he.2]
          | cons c t3 => simp at hlen
      | cons a2 t1' =>
        cases S2 with
        | nil => simp at hlen
        | cons b t2 =>
          cases t2 with
          | nil => simp at hlen
          | cons b2 t2' =>
            rw [build_stem_tree_two, build_stem_tree_two]
            have hfl : ∀ (S : List StemBucket),
                (S.filter (fun sb => stem_bit sb.stem depth == 0)).map
                  (fun sb => (sb.stem, sb.stem_hash)) =
                (S.map (fun sb => (sb.stem, sb.stem_hash))).filter
                  (fun pr => stem_bit pr.1 depth == 0) := by
              intro S
              rw [List.filter_map]
              exact congrArg _ (List.filter_congr (fun sb hsb => rfl))
            have hfr : ∀ (S : List StemBucket),
                (S.filter (fun sb => !(stem_bit sb.stem depth == 0))).map
                  (fun sb => (sb.stem, sb.stem_hash)) =
                (S.map (fun sb => (sb.stem, sb.stem_hash))).filter
                  (fun pr => !(stem_bit pr.1 depth == 0)) := by
              intro S
              rw [List.filter_map]
              exact congrArg _ (List.filter_congr (fun sb hsb => rfl))
            have hL := ih (depth+1)
              ((a :: a2 :: t1').filter (fun sb => stem_bit sb.stem depth == 0))
              ((b :: b2 :: t2').filter (fun sb => stem_bit sb.stem depth == 0))
              (by rw [hfl, hfl]; exact hp.filter _)
            have hR := ih (depth+1)
              ((a :: a2 :: t1').filter (fun sb => !(stem_bit sb.stem depth == 0)))
              ((b :: b2 :: t2').filter (fun sb => !(stem_bit sb.stem depth == 0)))
              (by rw [hfr, hfr]; exact hp.filter _)
            rw [hL, hR]

/-- Two distinct valid stems agreeing on all bits below `depth` force
`depth < 248`. -/
theorem distinct_two_lt248 {depth : Nat} {a b : List Nat}
    (ha : isBytes 31 a) (hb : isBytes 31 b) (hne : a ≠ b)
    (hagree : ∀ j, j < depth → stem_bit a j = stem_bit b j) : depth < 248 := by
  rcases bytesLt_connex hne with h | h
  · obtain ⟨i, hi, _, h0, h1⟩ := bytesLt_to_bit a b (by rw [ha.1, hb.1]) ha.2 hb.2 h
    by_contra hge
    push_neg at hge
    have := hagree i (by rw [ha.1] at hi; omega)
    omega
  · obtain ⟨i, hi, _, h0, h1⟩ := bytesLt_to_bit b a (by rw [ha.1, hb.1]) hb.2 ha.2 h
    by_contra hge
    push_neg at hge
    have := hagree i (by rw [hb.1] at hi; omega)
    omega


/-- A singleton slice builds to its stem leaf whatever the fuel. -/
theorem build_singleton (fuel depth : Nat) (x : StemBucket) :
    build_stem_tree fuel [x] depth = .StemLeaf x.stem_hash x.stem := by
  cases fuel <;> rfl

/-- The empty slice builds to `Empty` whatever the fuel. -/
theorem build_nil (fuel depth : Nat) :
    build_stem_tree fuel [] depth = .Empty := by
  cases fuel <;> rfl

/-- The two-stem merge equals the simple build of the two dummy
buckets. -/
theorem merge_two_go_eq (a_stem a_hash b_stem b_hash : List Nat)
    (ha : isBytes 31 a_stem) (hb : isBytes 31 b_stem) (hne : a_stem ≠ b_stem) :
    ∀ (f d : Nat), f = 248 - d →
      (∀ j, j < d → stem_bit a_stem j = stem_bit b_stem j) →
      ∀ (fuel : Nat), 248 ≤ fuel + d →
      merge_two_to_subtree.go a_stem a_hash b_stem b_hash f d =
        build_stem_tree fuel
          [⟨a_stem, [], ZERO32, a_hash⟩, ⟨b_stem, [], ZERO32, b_hash⟩] d := by
  intro f
  induction f with
  | zero =>
    intro d hfd hagree fuel hfuel
    have := distinct_two_lt248 ha hb hne (fun j hj => hagree j hj)
    omega
  | succ f ihf =>
    intro d hfd hagree fuel hfuel
    have hd : d < 248 := by omega
    cases fuel with
    | zero => omega
    | succ fu =>
      have hlt2a := stem_bit_lt_two a_stem d
      have hlt2b := stem_bit_lt_two b_stem d
      simp only [merge_two_to_subtree.go]
      rw [build_stem_tree_two]
      by_cases hbit : stem_bit a_stem d = stem_bit b_stem d
      · rw [if_neg (not_not_intro hbit)]
        have hih := ihf (d+1) (by omega)
          (fun j hj => by
            rcases Nat.lt_or_ge j d with h | h
            · exact hagree j h
            · have : j = d := by omega
              rw [this]
              exact hbit)
          fu (by omega)
        by_cases ha0 : stem_bit a_stem d = 0
        · have hb0 : stem_bit b_stem d = 0 := by omega
          have hfl : ([(⟨a_stem, [], ZERO32, a_hash⟩ : StemBucket),
              ⟨b_stem, [], ZERO32, b_hash⟩].filter
                (fun sb => stem_bit sb.stem d == 0)) =
              [⟨a_stem, [], ZERO32, a_hash⟩, ⟨b_stem, [], ZERO32, b_hash⟩] := by
            rw [List.filter_cons_of_pos (by simp [ha0]),
              List.filter_cons_of_pos (by simp [hb0]), List.filter_nil]
          have hfr : ([(⟨a_stem, [], ZERO32, a_hash⟩ : StemBucket),
              ⟨b_stem, [], ZERO32, b_hash⟩].filter
                (fun sb => !(stem_bit sb.stem d == 0))) = [] := by
            rw [List.filter_cons_of_neg (by simp [ha0]),
              List.filter_cons_of_neg (by simp [hb0]), List.filter_nil]
          rw [hfl, hfr, if_pos ha0, hih, build_nil]
          rfl
        · have hb1 : ¬ stem_bit b_stem d = 0 := by omega
          have hfl : ([(⟨a_stem, [], ZERO32, a_hash⟩ : StemBucket),
              ⟨b_stem, [], ZERO32, b_hash⟩].filter
                (fun sb => stem_bit sb.stem d == 0)) = [] := by
            rw [List.filter_cons_of_neg (by simp [ha0]),
              List.filter_cons_of_neg (by simp [hb1]), List.filter_nil]
          have hfr : ([(⟨a_stem, [], ZERO32, a_hash⟩ : StemBucket),
              ⟨b_stem, [], ZERO32, b_hash⟩].filter
                (fun sb => !(stem_bit sb.stem d == 0))) =
              [⟨a_stem, [], ZERO32, a_hash⟩, ⟨b_stem, [], ZERO32, b_hash⟩] := by
            rw [List.filter_cons_of_pos (by simp [ha0]),
              List.filter_cons_of_pos (by simp [hb1]), List.filter_nil]
          rw [hfl, hfr, if_neg ha0, hih, build_nil]
          rfl
      · rw [if_pos hbit]
        by_cases ha0 : stem_bit a_stem d = 0
        · have hb1 : stem_bit b_stem d = 1 := by omega
          have hfl : ([(⟨a_stem, [], ZERO32, a_hash⟩ : StemBucket),
              ⟨b_stem, [], ZERO32, b_hash⟩].filter
                (fun sb => stem_bit sb.stem d == 0)) =
              [⟨a_stem, [], ZERO32, a_hash⟩] := by
            rw [List.filter_cons_of_pos (by simp [ha0]),
              List.filter_cons_of_neg (by simp [hb1]), List.filter_nil]
          have hfr : ([(⟨a_stem, [], ZERO32, a_hash⟩ : StemBucket),
              ⟨b_stem, [], ZERO32, b_hash⟩].filter
                (fun sb => !(stem_bit sb.stem d == 0))) =
              [⟨b_stem, [], ZERO32, b_hash⟩] := by
            rw [List.filter_cons_of_neg (by simp [ha0]),
              List.filter_cons_of_pos (by simp [hb1]), List.filter_nil]
          rw [hfl, hfr, if_pos ha0, build_singleton, build_singleton]
          rfl
        · have hb0 : stem_bit b_stem d = 0 := by omega
          have hfl : ([(⟨a_stem, [], ZERO32, a_hash⟩ : StemBucket),
              ⟨b_stem, [], ZERO32, b_hash⟩].filter
                (fun sb => stem_bit sb.stem d == 0)) =
              [⟨b_stem, [], ZERO32, b_hash⟩] := by
            rw [List.filter_cons_of_neg (by simp [ha0]),
              List.filter_cons_of_pos (by simp [hb0]), List.filter_nil]
          have hfr : ([(⟨a_stem, [], ZERO32, a_hash⟩ : StemBucket),
              ⟨b_stem, [], ZERO32, b_hash⟩].filter
                (fun sb => !(stem_bit sb.stem d == 0))) =
              [⟨a_stem, [], ZERO32, a_hash⟩] := by
            rw [List.filter_cons_of_pos (by simp [ha0]),
              List.filter_cons_of_neg (by simp [hb0]), List.filter_nil]
          rw [hfl, hfr, if_neg ha0, build_singleton, build_singleton]
          rfl

/-- `merge_two_to_subtree` at its call sites. -/
theorem merge_two_eq (a_stem a_hash b_stem b_hash : List Nat)
    (ha : isBytes 31 a_stem) (hb : isBytes 31 b_stem) (hne : a_stem ≠ b_stem)
    (depth fuel : Nat)
    (hagree : ∀ j, j < depth → stem_bit a_stem j = stem_bit b_stem j)
    (hfuel : 248 ≤ fuel + depth) :
    merge_two_to_subtree a_stem a_hash b_stem b_hash depth =
      build_stem_tree fuel
        [⟨a_stem, [], ZERO32, a_hash⟩, ⟨b_stem, [], ZERO32, b_hash⟩] depth :=
  merge_two_go_eq a_stem a_hash b_stem b_hash ha hb hne (248 - depth) depth rfl
    hagree fuel hfuel


/-- Unfolding `upsert_stem` on each constructor. -/
theorem upsert_internal (hh : List Nat) (L R : Node) (stem h : List Nat) (depth : Nat) :
    upsert_stem (.Internal hh L R) stem h depth =
      if stem_bit stem depth = 0 then
        .Internal (h_pair (upsert_stem L stem h (depth+1)).hash R.hash)
          (upsert_stem L stem h (depth+1)) R
      else
        .Internal (h_pair L.hash (upsert_stem R stem h (depth+1)).hash)
          L (upsert_stem R stem h (depth+1)) := rfl

theorem upsert_leaf (hx s stem h : List Nat) (depth : Nat) :
    upsert_stem (.StemLeaf hx s) stem h depth =
      if s = stem then .StemLeaf h s else merge_two_to_subtree s hx stem h depth := rfl

/-- The two-or-more unfolding of the builder, by length. -/
theorem build_stem_tree_ge2 (f depth : Nat) (S : List StemBucket) (hS : 2 ≤ S.length) :
    build_stem_tree (f+1) S depth =
      .Internal
        (h_pair
          (build_stem_tree f (S.filter (fun sb => stem_bit sb.stem depth == 0)) (depth+1)).hash
          (build_stem_tree f (S.filter (fun sb => !(stem_bit sb.stem depth == 0))) (depth+1)).hash)
        (build_stem_tree f (S.filter (fun sb => stem_bit sb.stem depth == 0)) (depth+1))
        (build_stem_tree f (S.filter (fun sb => !(stem_bit sb.stem depth == 0))) (depth+1)) := by
  cases S with
  | nil => simp at hS
  | cons a tail =>
    cases tail with
    | nil => simp at hS
    | cons b rest => exact build_stem_tree_two f depth a b rest

/-- Upserting into a single-leaf tree. -/
theorem upsert_small (fuel depth : Nat) (x : StemBucket) (stem h : List Nat)
    (hx : isBytes 31 x.stem) (hs : isBytes 31 stem)
    (hagree : ∀ j, j < depth → stem_bit x.stem j = stem_bit stem j)
    (hfuel : 248 ≤ fuel + depth) :
    upsert_stem (build_stem_tree fuel [x] depth) stem h depth =
      build_stem_tree fuel
        (if [x].any (fun sb => sb.stem == stem) then
          [x].map (fun sb => if sb.stem == stem then { sb with stem_hash := h } else sb)
        else ⟨stem, [], ZERO32, h⟩ :: [x]) depth := by
  rw [build_singleton, upsert_leaf]
  by_cases hxs : x.stem = stem
  · rw [if_pos hxs]
    rw [if_pos (by simp [hxs] : ([x].any (fun sb => sb.stem == stem)) = true)]
    have hmap : [x].map (fun sb => if sb.stem == stem then { sb with stem_hash := h } else sb) =
        [{ x with stem_hash := h }] := by
      simp [hxs]
    rw [hmap, build_singleton]
  · rw [if_neg hxs]
    rw [if_neg (by simp [hxs] : ¬ ([x].any (fun sb => sb.stem == stem)) = true)]
    rw [merge_two_eq x.stem x.stem_hash stem h hx hs hxs depth fuel hagree hfuel]
    refine build_proj_perm fuel depth _ _ ?_
    simp only [List.map_cons, List.map_nil]
    exact List.Perm.swap _ _ _


/-- Upserting a stem hash into a built tree rebuilds the tree over the
updated bucket list: the matching bucket's hash is replaced, or a fresh
bucket is added. -/
theorem upsert_eq_build : ∀ (fuel depth : Nat) (S : List StemBucket) (stem h : List Nat),
    (∀ sb ∈ S, isBytes 31 sb.stem) → (S.map (·.stem)).Nodup →
    isBytes 31 stem →
    (∀ sb ∈ S, ∀ j, j < depth → stem_bit sb.stem j = stem_bit stem j) →
    248 ≤ fuel + depth →
    upsert_stem (build_stem_tree fuel S depth) stem h depth =
      build_stem_tree fuel
        (if S.any (fun sb => sb.stem == stem) then
          S.map (fun sb => if sb.stem == stem then { sb with stem_hash := h } else sb)
        else ⟨stem, [], ZERO32, h⟩ :: S) depth := by
  intro fuel
  induction fuel with
  | zero =>
    intro depth S stem h hv hnd hvs hagree hfuel
    cases S with
    | nil =>
      rw [build_nil]
      rw [if_neg (by simp : ¬ (([] : List StemBucket).any (fun sb => sb.stem == stem)) = true)]
      rw [build_singleton]
      rfl
    | cons a tail =>
      cases tail with
      | nil =>
        exact upsert_small 0 depth a stem h (hv a (by simp)) hvs
          (fun j hj => hagree a (by simp) j hj) hfuel
      | cons b rest =>
        exfalso
        have hne : a.stem ≠ b.stem := by
          simp only [List.map_cons, List.nodup_cons, List.mem_cons] at hnd
          intro he
          exact hnd.1 (Or.inl he)
        have hagg : ∀ j, j < depth → stem_bit a.stem j = stem_bit b.stem j := by
          intro j hj
          rw [hagree a (by simp) j hj, hagree b (by simp) j hj]
        have := distinct_two_lt248 (hv a (by simp)) (hv b (by simp)) hne hagg
        omega
  | succ f ih =>
    intro depth S stem h hv hnd hvs hagree hfuel
    cases S with
    | nil =>
      rw [build_nil]
      rw [if_neg (by simp : ¬ (([] : List StemBucket).any (fun sb => sb.stem == stem)) = true)]
      rw [build_singleton]
      rfl
    | cons a tail =>
      cases tail with
      | nil =>
        exact upsert_small (f+1) depth a stem h (hv a (by simp)) hvs
          (fun j hj => hagree a (by simp) j hj) hfuel
      | cons b rest =>
        have hrepl_stem : ∀ sb : StemBucket,
            (if sb.stem == stem then { sb with stem_hash := h } else sb).stem = sb.stem := by
          intro sb
          by_cases hc : (sb.stem == stem) = true
          · rw [if_pos hc]
          · rw [if_neg hc]
        have hfmL : (((a :: b :: rest).map (fun sb => if sb.stem == stem then
            { sb with stem_hash := h } else sb)).filter
              (fun x => stem_bit x.stem depth == 0)) =
            (((a :: b :: rest).filter (fun x => stem_bit x.stem depth == 0)).map
              (fun sb => if sb.stem == stem then { sb with stem_hash := h } else sb)) := by
          rw [List.filter_map]
          refine congrArg _ (List.filter_congr ?_)
          intro sb hsb
          show (stem_bit (if sb.stem == stem then
            { sb with stem_hash := h } else sb).stem depth == 0) =
            (stem_bit sb.stem depth == 0)
          rw [hrepl_stem]
        have hfmR : (((a :: b :: rest).map (fun sb => if sb.stem == stem then
            { sb with stem_hash := h } else sb)).filter
              (fun x => !(stem_bit x.stem depth == 0))) =
            (((a :: b :: rest).filter (fun x => !(stem_bit x.stem depth == 0))).map
              (fun sb => if sb.stem == stem then { sb with stem_hash := h } else sb)) := by
          rw [List.filter_map]
          refine congrArg _ (List.filter_congr ?_)
          intro sb hsb
          show (!(stem_bit (if sb.stem == stem then
            { sb with stem_hash := h } else sb).stem depth == 0)) =
            (!(stem_bit sb.stem depth == 0))
          rw [hrepl_stem]
        have hvL : ∀ sb ∈ (a :: b :: rest).filter (fun x => stem_bit x.stem depth == 0),
            isBytes 31 sb.stem := fun sb hsb => hv sb (List.mem_of_mem_filter hsb)
        have hvR : ∀ sb ∈ (a :: b :: rest).filter (fun x => !(stem_bit x.stem depth == 0)),
            isBytes 31 sb.stem := fun sb hsb => hv sb (List.mem_of_mem_filter hsb)
        have hndL : (((a :: b :: rest).filter
            (fun x => stem_bit x.stem depth == 0)).map (·.stem)).Nodup :=
          List.Nodup.sublist ((List.filter_sublist _).map _) hnd
        have hndR : (((a :: b :: rest).filter
            (fun x => !(stem_bit x.stem depth == 0))).map (·.stem)).Nodup :=
          List.Nodup.sublist ((List.filter_sublist _).map _) hnd
        rw [build_stem_tree_two f depth a b rest, upsert_internal]
        by_cases hbit : stem_bit stem depth = 0
        · rw [if_pos hbit]
          have hagreeL : ∀ sb ∈ (a :: b :: rest).filter
              (fun x => stem_bit x.stem depth == 0),
              ∀ j, j < depth + 1 → stem_bit sb.stem j = stem_bit stem j := by
            intro sb hsb j hj
            rcases Nat.lt_or_ge j depth with hlt | hge
            · exact hagree sb (List.mem_of_mem_filter hsb) j hlt
            · have hjd : j = depth := by omega
              subst hjd
              have := List.of_mem_filter hsb
              rw [beq_iff_eq.mp this, hbit]
          have hihL := ih (depth+1) ((a :: b :: rest).filter
            (fun x => stem_bit x.stem depth == 0)) stem h hvL hndL hvs hagreeL (by omega)
          by_cases hany : ((a :: b :: rest).any (fun sb => sb.stem == stem)) = true
          · obtain ⟨sb0, hsb0, hsb0s⟩ := List.any_eq_true.mp hany
            have hanyL : (((a :: b :: rest).filter
                (fun x => stem_bit x.stem depth == 0)).any
                  (fun sb => sb.stem == stem)) = true := by
              refine List.any_eq_true.mpr ⟨sb0, ?_, hsb0s⟩
              refine List.mem_filter.mpr ⟨hsb0, ?_⟩
              rw [beq_iff_eq.mp hsb0s]
              simp [hbit]
            rw [if_pos hanyL] at hihL
            rw [hihL, if_pos hany]
            rw [build_stem_tree_ge2 f depth
              ((a :: b :: rest).map (fun sb => if sb.stem == stem then
                { sb with stem_hash := h } else sb))
              (by rw [List.length_map]; simp)]
            rw [hfmL, hfmR]
            have hrid : (((a :: b :: rest).filter
                (fun x => !(stem_bit x.stem depth == 0))).map
                  (fun sb => if sb.stem == stem then { sb with stem_hash := h } else sb)) =
                ((a :: b :: rest).filter (fun x => !(stem_bit x.stem depth == 0))) := by
              have hpt : ∀ sb ∈ (a :: b :: rest).filter
                  (fun x => !(stem_bit x.stem depth == 0)),
                  (if sb.stem == stem then { sb with stem_hash := h } else sb) = id sb := by
                intro sb hsb
                have hbitne := List.of_mem_filter hsb
                simp only [Bool.not_eq_true', beq_eq_false_iff_ne, ne_eq] at hbitne
                refine if_neg ?_
                intro hc
                apply hbitne
                rw [beq_iff_eq.mp hc, hbit]
              rw [List.map_congr_left hpt, List.map_id]
            rw [hrid]
          · have hanyL : (((a :: b :: rest).filter
                (fun x => stem_bit x.stem depth == 0)).any
                  (fun sb => sb.stem == stem)) = false := by
              rw [List.any_eq_false]
              intro sb hsb
              have hSf : ((a :: b :: rest).any (fun sb => sb.stem == stem)) = false :=
                Bool.eq_false_iff.mpr hany
              exact List.any_eq_false.mp hSf sb (List.mem_of_mem_filter hsb)
            rw [if_neg (fun hc => by rw [hanyL] at hc; exact Bool.noConfusion hc)] at hihL
            rw [hihL, if_neg hany]
            rw [build_stem_tree_ge2 f depth
              ((⟨stem, [], ZERO32, h⟩ : StemBucket) :: a :: b :: rest) (by simp)]
            have hdl : ((⟨stem, [], ZERO32, h⟩ : StemBucket) :: a :: b :: rest).filter
                (fun x => stem_bit x.stem depth == 0) =
                (⟨stem, [], ZERO32, h⟩ : StemBucket) ::
                  ((a :: b :: rest).filter (fun x => stem_bit x.stem depth == 0)) :=
              List.filter_cons_of_pos (by simp [hbit])
            have hdr : ((⟨stem, [], ZERO32, h⟩ : StemBucket) :: a :: b :: rest).filter
                (fun x => !(stem_bit x.stem depth == 0)) =
                ((a :: b :: rest).filter (fun x => !(stem_bit x.stem depth == 0))) :=
              List.filter_cons_of_neg (by simp [hbit])
            rw [hdl, hdr]
        · rw [if_neg hbit]
          have hagreeR : ∀ sb ∈ (a :: b :: rest).filter
              (fun x => !(stem_bit x.stem depth == 0)),
              ∀ j, j < depth + 1 → stem_bit sb.stem j = stem_bit stem j := by
            intro sb hsb j hj
            rcases Nat.lt_or_ge j depth with hlt | hge
            · exact hagree sb (List.mem_of_mem_filter hsb) j hlt
            · have hjd : j = depth := by omega
              rw [hjd]
              have hbitne := List.of_mem_filter hsb
              simp only [Bool.not_eq_true', beq_eq_false_iff_ne, ne_eq] at hbitne
              have h1 := stem_bit_lt_two sb.stem depth
              have h2 := stem_bit_lt_two stem depth
              omega
          have hihR := ih (depth+1) ((a :: b :: rest).filter
            (fun x => !(stem_bit x.stem depth == 0))) stem h hvR hndR hvs hagreeR (by omega)
          by_cases hany : ((a :: b :: rest).any (fun sb => sb.stem == stem)) = true
          · obtain ⟨sb0, hsb0, hsb0s⟩ := List.any_eq_true.mp hany
            have hanyR : (((a :: b :: rest).filter
                (fun x => !(stem_bit x.stem depth == 0))).any
                  (fun sb => sb.stem == stem)) = true := by
              refine List.any_eq_true.mpr ⟨sb0, ?_, hsb0s⟩
              refine List.mem_filter.mpr ⟨hsb0, ?_⟩
              rw [beq_iff_eq.mp hsb0s]
              simp [hbit]
            rw [if_pos hanyR] at hihR
            rw [hihR, if_pos hany]
            rw [build_stem_tree_ge2 f depth
              ((a :: b :: rest).map (fun sb => if sb.stem == stem then
                { sb with stem_hash := h } else sb))
              (by rw [List.length_map]; simp)]
            rw [hfmL, hfmR]
            have hlid : (((a :: b :: rest).filter
                (fun x => stem_bit x.stem depth == 0)).map
                  (fun sb => if sb.stem == stem then { sb with stem_hash := h } else sb)) =
                ((a :: b :: rest).filter (fun x => stem_bit x.stem depth == 0)) := by
              have hpt : ∀ sb ∈ (a :: b :: rest).filter
                  (fun x => stem_bit x.stem depth == 0),
                  (if sb.stem == stem then { sb with stem_hash := h } else sb) = id sb := by
                intro sb hsb
                have hb0 := List.of_mem_filter hsb
                have hbit0 : stem_bit sb.stem depth = 0 := beq_iff_eq.mp hb0
                refine if_neg ?_
                intro hc
                apply hbit
                rw [← beq_iff_eq.mp hc]
                exact hbit0
              rw [List.map_congr_left hpt, List.map_id]
            rw [hlid]
          · have hanyR : (((a :: b :: rest).filter
                (fun x => !(stem_bit x.stem depth == 0))).any
                  (fun sb => sb.stem == stem)) = false := by
              rw [List.any_eq_false]
              intro sb hsb
              have hSf : ((a :: b :: rest).any (fun sb => sb.stem == stem)) = false :=
                Bool.eq_false_iff.mpr hany
              exact List.any_eq_false.mp hSf sb (List.mem_of_mem_filter hsb)
            rw [if_neg (fun hc => by rw [hanyR] at hc; exact Bool.noConfusion hc)] at hihR
            rw [hihR, if_neg hany]
            rw [build_stem_tree_ge2 f depth
              ((⟨stem, [], ZERO32, h⟩ : StemBucket) :: a :: b :: rest) (by simp)]
            have hdl : ((⟨stem, [], ZERO32, h⟩ : StemBucket) :: a :: b :: rest).filter
                (fun x => stem_bit x.stem depth == 0) =
                ((a :: b :: rest).filter (fun x => stem_bit x.stem depth == 0)) :=
              List.filter_cons_of_neg (by simp [hbit])
            have hdr : ((⟨stem, [], ZERO32, h⟩ : StemBucket) :: a :: b :: rest).filter
                (fun x => !(stem_bit x.stem depth == 0)) =
                (⟨stem, [], ZERO32, h⟩ : StemBucket) ::
                  ((a :: b :: rest).filter (fun x => !(stem_bit x.stem depth == 0))) :=
              List.filter_cons_of_pos (by simp [hbit])
            rw [hdl, hdr]


/-- A 32-byte key yields a valid stem and byte sub-index. -/
theorem key_stem_sub {k : List Nat} (hk : isBytes 32 k) :
    isBytes 31 (k.take 31) ∧ k.getD 31 0 < 256 := by
  obtain ⟨hklen, hkb⟩ := hk
  refine ⟨⟨?_, ?_⟩, ?_⟩
  · rw [List.length_take, hklen]
    omega
  · intro b hb
    exact hkb b (List.take_subset 31 k hb)
  · have h31 : 31 < k.length := by omega
    rw [List.getD_eq_getElem?_getD, List.getElem?_eq_getElem h31]
    exact hkb _ (List.getElem_mem h31)

/-- `mapInsert` keeps the key list distinct and in range. -/
theorem mapInsert_keys (m : List (Nat × List Nat)) (k : Nat) (v : List Nat)
    (hnd : (m.map (·.1)).Nodup) (hlt : ∀ j ∈ m.map (·.1), j < 256) (hk : k < 256) :
    ((mapInsert m k v).map (·.1)).Nodup ∧
    (∀ j ∈ (mapInsert m k v).map (·.1), j < 256) := by
  unfold mapInsert
  by_cases hany : (m.any (fun p => p.1 == k)) = true
  · rw [if_pos hany]
    have hkeys : (m.map (fun p => if p.1 == k then (k, v) else p)).map (·.1) =
        m.map (·.1) := by
      rw [List.map_map]
      refine List.map_congr_left ?_
      intro p hp
      show (if p.1 == k then (k, v) else p).1 = p.1
      by_cases hc : (p.1 == k) = true
      · rw [if_pos hc]
        exact (beq_iff_eq.mp hc).symm
      · rw [if_neg hc]
    rw [hkeys]
    exact ⟨hnd, hlt⟩
  · rw [if_neg hany]
    have hperm : List.Perm ((m ++ [(k, v)]).map (·.1)) (k :: m.map (·.1)) := by
      rw [List.map_append]
      exact List.perm_append_singleton _ _
    constructor
    · refine (hperm.nodup_iff).mpr ?_
      refine List.nodup_cons.mpr ⟨?_, hnd⟩
      intro hmem
      obtain ⟨p, hp, hpk⟩ := List.mem_map.mp hmem
      have := List.any_eq_false.mp (Bool.eq_false_iff.mpr hany) p hp
      exact this (beq_iff_eq.mpr hpk)
    · intro j hj
      have := hperm.mem_iff.mp hj
      rcases List.mem_cons.mp this with h | h
      · rw [h]; exact hk
      · exact hlt j h


/-- Sorted insertion is a permutation of consing. -/
theorem insertBucketSorted_perm (sb : StemBucket) :
    ∀ (S : List StemBucket), List.Perm (insertBucketSorted sb S) (sb :: S)
  | [] => List.Perm.refl _
  | x :: rest => by
    unfold insertBucketSorted
    by_cases hc : bytesLt sb.stem x.stem = true
    · rw [if_pos hc]
    · rw [if_neg hc]
      exact ((insertBucketSorted_perm sb rest).cons x).trans (List.Perm.swap _ _ _)

/-- Sorted insertion of a fresh stem keeps the list sorted. -/
theorem insertBucketSorted_pairwise (sb : StemBucket) :
    ∀ (S : List StemBucket),
      S.Pairwise (fun a b => bytesLt a.stem b.stem = true) →
      (∀ x ∈ S, x.stem ≠ sb.stem) →
      (insertBucketSorted sb S).Pairwise (fun a b => bytesLt a.stem b.stem = true)
  | [], _, _ => List.pairwise_singleton _ _
  | x :: rest, hsort, hne => by
    obtain ⟨hx, hrest⟩ := List.pairwise_cons.mp hsort
    unfold insertBucketSorted
    by_cases hc : bytesLt sb.stem x.stem = true
    · rw [if_pos hc]
      refine List.pairwise_cons.mpr ⟨?_, hsort⟩
      intro y hy
      rcases List.mem_cons.mp hy with h | h
      · rw [h]
        exact hc
      · exact bytesLt_trans hc (hx y h)
    · rw [if_neg hc]
      refine List.pairwise_cons.mpr ⟨?_, ?_⟩
      · intro y hy
        have hy2 := (insertBucketSorted_perm sb rest).mem_iff.mp hy
        rcases List.mem_cons.mp hy2 with h | h
        · rw [h]
          rcases bytesLt_connex (Ne.symm (hne x (by simp))) with hcc | hcc
          · exact absurd hcc hc
          · exact hcc
        · exact hx y h
      · exact insertBucketSorted_pairwise sb rest hrest
          (fun y hy => hne y (List.mem_cons_of_mem x hy))

/-- One leaf upsert preserves the structural bucket-list invariants. -/
theorem bucketUpsertLeaf_props (st : List StemBucket) (stem : List Nat) (sub : Nat)
    (v : List Nat) (mk : StemBucket)
    (hmkstem : mk.stem = stem) (hmkleaves : mk.leaves = [])
    (hstem : isBytes 31 stem) (hsub : sub < 256)
    (hv : ∀ sb ∈ st, isBytes 31 sb.stem ∧ (sb.leaves.map (·.1)).Nodup ∧
      ∀ j ∈ sb.leaves.map (·.1), j < 256)
    (hnd : (st.map (·.stem)).Nodup)
    (hsort : st.Pairwise (fun a b => bytesLt a.stem b.stem = true)) :
    (∀ sb ∈ bucketUpsertLeaf st stem sub v mk, isBytes 31 sb.stem ∧
      (sb.leaves.map (·.1)).Nodup ∧ ∀ j ∈ sb.leaves.map (·.1), j < 256) ∧
    ((bucketUpsertLeaf st stem sub v mk).map (·.stem)).Nodup ∧
    (bucketUpsertLeaf st stem sub v mk).Pairwise
      (fun a b => bytesLt a.stem b.stem = true) ∧
    (∀ sb ∈ bucketUpsertLeaf st stem sub v mk, sb ∈ st ∨ sb.stem = stem) ∧
    (∀ s, (∃ sb ∈ st, sb.stem = s) →
      ∃ sb ∈ bucketUpsertLeaf st stem sub v mk, sb.stem = s) ∧
    (∃ sb ∈ bucketUpsertLeaf st stem sub v mk, sb.stem = stem) := by
  unfold bucketUpsertLeaf
  by_cases hany : (st.any (fun sb => sb.stem == stem)) = true
  · rw [if_pos hany]
    have hrp : ∀ sb : StemBucket,
        (if sb.stem == stem then { sb with leaves := mapInsert sb.leaves sub v }
          else sb).stem = sb.stem := by
      intro sb
      by_cases hc : (sb.stem == stem) = true
      · rw [if_pos hc]
      · rw [if_neg hc]
    have hstems : ((st.map (fun sb => if sb.stem == stem then
        { sb with leaves := mapInsert sb.leaves sub v } else sb)).map (·.stem)) =
        st.map (·.stem) := by
      rw [List.map_map]
      exact List.map_congr_left (fun sb _ => hrp sb)
    refine ⟨?_, ?_, ?_, ?_, ?_, ?_⟩
    · intro sb hsb
      obtain ⟨x, hx, hxe⟩ := List.mem_map.mp hsb
      obtain ⟨hx1, hx2, hx3⟩ := hv x hx
      by_cases hc : (x.stem == stem) = true
      · rw [if_pos hc] at hxe
        obtain ⟨hm1, hm2⟩ := mapInsert_keys x.leaves sub v hx2 hx3 hsub
        rw [← hxe]
        exact ⟨hx1, hm1, hm2⟩
      · rw [if_neg hc] at hxe
        rw [← hxe]
        exact ⟨hx1, hx2, hx3⟩
    · rw [hstems]
      exact hnd
    · rw [List.pairwise_map]
      refine List.Pairwise.imp_of_mem ?_ hsort
      intro x y hx hy hxy
      rw [hrp x, hrp y]
      exact hxy
    · intro sb hsb
      obtain ⟨x, hx, hxe⟩ := List.mem_map.mp hsb
      by_cases hc : (x.stem == stem) = true
      · right
        rw [← hxe, hrp x]
        exact beq_iff_eq.mp hc
      · left
        rw [if_neg hc] at hxe
        rw [← hxe]
        exact hx
    · intro s hs
      obtain ⟨sb, hsb, hsbs⟩ := hs
      refine ⟨(if sb.stem == stem then { sb with leaves := mapInsert sb.leaves sub v }
        else sb), List.mem_map_of_mem _ hsb, ?_⟩
      rw [hrp sb]
      exact hsbs
    · obtain ⟨sb0, hsb0, hsb0s⟩ := List.any_eq_true.mp hany
      refine ⟨(if sb0.stem == stem then { sb0 with leaves := mapInsert sb0.leaves sub v }
        else sb0), List.mem_map_of_mem _ hsb0, ?_⟩
      rw [hrp sb0]
      exact beq_iff_eq.mp hsb0s
  · rw [if_neg hany]
    have hne : ∀ x ∈ st, x.stem ≠ ({ mk with leaves := mapInsert mk.leaves sub v }).stem := by
      intro x hx he
      have := List.any_eq_false.mp (Bool.eq_false_iff.mpr hany) x hx
      apply this
      rw [beq_iff_eq]
      rw [he]
      exact hmkstem
    have hperm := insertBucketSorted_perm { mk with leaves := mapInsert mk.leaves sub v } st
    have hmkcore : isBytes 31 ({ mk with leaves := mapInsert mk.leaves sub v } : StemBucket).stem ∧
        ((({ mk with leaves := mapInsert mk.leaves sub v } : StemBucket).leaves.map (·.1)).Nodup) ∧
        (∀ j ∈ ({ mk with leaves := mapInsert mk.leaves sub v } : StemBucket).leaves.map (·.1),
          j < 256) := by
      refine ⟨by show isBytes 31 mk.stem; rw [hmkstem]; exact hstem, ?_, ?_⟩
      · show ((mapInsert mk.leaves sub v).map (·.1)).Nodup
        rw [hmkleaves]
        simp [mapInsert]
      · show ∀ j ∈ (mapInsert mk.leaves sub v).map (·.1), j < 256
        rw [hmkleaves]
        intro j hj
        simp [mapInsert] at hj
        rw [hj]
        exact hsub
    refine ⟨?_, ?_, ?_, ?_, ?_, ?_⟩
    · intro sb hsb
      rcases List.mem_cons.mp (hperm.mem_iff.mp hsb) with h | h
      · rw [h]
        exact hmkcore
      · exact hv sb h
    · refine ((hperm.map (·.stem)).nodup_iff).mpr ?_
      rw [List.map_cons]
      refine List.nodup_cons.mpr ⟨?_, hnd⟩
      intro hmem
      obtain ⟨x, hx, hxe⟩ := List.mem_map.mp hmem
      exact hne x hx hxe
    · exact insertBucketSorted_pairwise _ st hsort hne
    · intro sb hsb
      rcases List.mem_cons.mp (hperm.mem_iff.mp hsb) with h | h
      · right
        rw [h]
        exact hmkstem
      · left
        exact h
    · intro s hs
      obtain ⟨sb, hsb, hsbs⟩ := hs
      exact ⟨sb, hperm.mem_iff.mpr (List.mem_cons_of_mem _ hsb), hsbs⟩
    · refine ⟨{ mk with leaves := mapInsert mk.leaves sub v },
        hperm.mem_iff.mpr (List.mem_cons_self _ _), ?_⟩
      exact hmkstem


/-- The leaf-upsert fold of both insert paths preserves the structural
bucket-list invariants, only touches entry stems, and ends with every
entry stem present. -/
theorem phase1_props : ∀ (es : List (List Nat × List Nat)) (st : List StemBucket)
    (mkf : List Nat → StemBucket),
    entriesWF es →
    (∀ s, (mkf s).stem = s ∧ (mkf s).leaves = []) →
    (∀ sb ∈ st, isBytes 31 sb.stem ∧ (sb.leaves.map (·.1)).Nodup ∧
      ∀ j ∈ sb.leaves.map (·.1), j < 256) →
    (st.map (·.stem)).Nodup →
    st.Pairwise (fun a b => bytesLt a.stem b.stem = true) →
    (∀ sb ∈ es.foldl (fun st kv =>
        bucketUpsertLeaf st (kv.1.take 31) (kv.1.getD 31 0) kv.2 (mkf (kv.1.take 31))) st,
      isBytes 31 sb.stem ∧ (sb.leaves.map (·.1)).Nodup ∧
        ∀ j ∈ sb.leaves.map (·.1), j < 256) ∧
    ((es.foldl (fun st kv =>
        bucketUpsertLeaf st (kv.1.take 31) (kv.1.getD 31 0) kv.2 (mkf (kv.1.take 31))) st).map
      (·.stem)).Nodup ∧
    (es.foldl (fun st kv =>
        bucketUpsertLeaf st (kv.1.take 31) (kv.1.getD 31 0) kv.2 (mkf (kv.1.take 31))) st).Pairwise
      (fun a b => bytesLt a.stem b.stem = true) ∧
    (∀ sb ∈ es.foldl (fun st kv =>
        bucketUpsertLeaf st (kv.1.take 31) (kv.1.getD 31 0) kv.2 (mkf (kv.1.take 31))) st,
      sb ∈ st ∨ sb.stem ∈ es.map (·.1.take 31)) ∧
    (∀ s, (∃ sb ∈ st, sb.stem = s) → ∃ sb ∈ es.foldl (fun st kv =>
        bucketUpsertLeaf st (kv.1.take 31) (kv.1.getD 31 0) kv.2 (mkf (kv.1.take 31))) st,
      sb.stem = s) ∧
    (∀ kv ∈ es, ∃ sb ∈ es.foldl (fun st kv =>
        bucketUpsertLeaf st (kv.1.take 31) (kv.1.getD 31 0) kv.2 (mkf (kv.1.take 31))) st,
      sb.stem = kv.1.take 31) := by
  intro es
  induction es with
  | nil =>
    intro st mkf hwf hmk hcore hnd hsort
    refine ⟨hcore, hnd, hsort, ?_, ?_, ?_⟩
    · intro sb hsb
      exact Or.inl hsb
    · intro s hs
      exact hs
    · intro kv hkv
      simp at hkv
  | cons kv rest ih =>
    intro st mkf hwf hmk hcore hnd hsort
    obtain ⟨hk32, _⟩ := hwf kv (by simp)
    obtain ⟨hstem31, hsub256⟩ := key_stem_sub hk32
    obtain ⟨h1, h2, h3, h4, h5, h6⟩ := bucketUpsertLeaf_props st (kv.1.take 31)
      (kv.1.getD 31 0) kv.2 (mkf (kv.1.take 31)) (hmk _).1 (hmk _).2 hstem31 hsub256
      hcore hnd hsort
    obtain ⟨ih1, ih2, ih3, ih4, ih5, ih6⟩ := ih
      (bucketUpsertLeaf st (kv.1.take 31) (kv.1.getD 31 0) kv.2 (mkf (kv.1.take 31)))
      mkf (fun kv2 hkv2 => hwf kv2 (List.mem_cons_of_mem kv hkv2)) hmk h1 h2 h3
    refine ⟨ih1, ih2, ih3, ?_, ?_, ?_⟩
    · intro sb hsb
      rcases ih4 sb hsb with h | h
      · rcases h4 sb h with h' | h'
        · exact Or.inl h'
        · right
          rw [List.map_cons, h']
          exact List.mem_cons_self _ _
      · right
        rw [List.map_cons]
        exact List.mem_cons_of_mem _ h
    · intro s hs
      exact ih5 s (h5 s hs)
    · intro kv2 hkv2
      rcases List.mem_cons.mp hkv2 with h | h
      · rw [h]
        exact ih5 _ h6
      · exact ih6 kv2 h


/-- Recomputing a structurally sound bucket makes it well-formed. -/
theorem recompute_wf (sb : StemBucket) (h1 : isBytes 31 sb.stem)
    (h2 : (sb.leaves.map (·.1)).Nodup) (h3 : ∀ j ∈ sb.leaves.map (·.1), j < 256) :
    WFbucket sb.recompute :=
  ⟨h1, h2, h3, rfl, rfl⟩

/-- Sorted bucket lists have distinct stems. -/
theorem sorted_stems_nodup {st : List StemBucket}
    (hsort : st.Pairwise (fun a b => bytesLt a.stem b.stem = true)) :
    (st.map (·.stem)).Nodup := by
  show List.Pairwise (fun a b : List Nat => a ≠ b) (st.map (·.stem))
  rw [List.pairwise_map]
  refine List.Pairwise.imp ?_ hsort
  intro a b h he
  rw [he, bytesLt_irrefl] at h
  exact Bool.noConfusion h

/-- `insert_many` preserves well-formedness. -/
theorem insert_many_WF (t : BinaryStateTree) (es : List (List Nat × List Nat))
    (hWF : WF t) (hes : entriesWF es) : WF (t.insert_many es) := by
  obtain ⟨hb, hsort, hroot⟩ := hWF
  have hcore : ∀ sb ∈ t.stems, isBytes 31 sb.stem ∧ (sb.leaves.map (·.1)).Nodup ∧
      ∀ j ∈ sb.leaves.map (·.1), j < 256 :=
    fun sb hsb => ⟨(hb sb hsb).1, (hb sb hsb).2.1, (hb sb hsb).2.2.1⟩
  obtain ⟨p1, p2, p3, p4, p5, p6⟩ := phase1_props es t.stems StemBucket.new hes
    (fun s => ⟨rfl, rfl⟩) hcore (sorted_stems_nodup hsort) hsort
  have hgstem : ∀ sb : StemBucket,
      ((if (es.map (fun kv => kv.1.take 31)).contains sb.stem then sb.recompute
        else sb) : StemBucket).stem = sb.stem := by
    intro sb
    by_cases hc : ((es.map (fun kv => kv.1.take 31)).contains sb.stem) = true
    · rw [if_pos hc]
      rfl
    · rw [if_neg hc]
  refine ⟨?_, ?_, rfl⟩
  · intro sb' hsb'
    obtain ⟨sb, hsb, hsbe⟩ := List.mem_map.mp hsb'
    by_cases hc : ((es.map (fun kv => kv.1.take 31)).contains sb.stem) = true
    · rw [if_pos hc] at hsbe
      rw [← hsbe]
      obtain ⟨c1, c2, c3⟩ := p1 sb hsb
      exact recompute_wf sb c1 c2 c3
    · rw [if_neg hc] at hsbe
      rw [← hsbe]
      rcases p4 sb hsb with h | h
      · exact hb sb h
      · exact absurd (List.elem_iff.mpr h) hc
  · have hP : ∀ (F : List StemBucket),
        F.Pairwise (fun a b => bytesLt a.stem b.stem = true) →
        (F.map (fun sb => if (es.map (fun kv => kv.1.take 31)).contains sb.stem then
          sb.recompute else sb)).Pairwise (fun a b => bytesLt a.stem b.stem = true) := by
      intro F hF
      rw [List.pairwise_map]
      refine List.Pairwise.imp ?_ hF
      intro a b h
      rw [hgstem a, hgstem b]
      exact h
    exact hP _ p3


/-- Splitting a disjunction filter into two filters, up to permutation. -/
theorem filter_or_perm {α : Type} (p q : α → Bool) :
    ∀ (l : List α), (∀ x ∈ l, p x = true → q x = false) →
      List.Perm (l.filter (fun x => p x || q x)) (l.filter p ++ l.filter q)
  | [], _ => List.Perm.refl _
  | a :: t, hdisj => by
    have iht := filter_or_perm p q t (fun x hx => hdisj x (List.mem_cons_of_mem a hx))
    cases hp : p a
    · cases hq : q a
      · rw [List.filter_cons_of_neg (by rw [hp, hq]; exact Bool.noConfusion),
          List.filter_cons_of_neg (by rw [hp]; exact Bool.noConfusion),
          List.filter_cons_of_neg (by rw [hq]; exact Bool.noConfusion)]
        exact iht
      · rw [List.filter_cons_of_pos (by rw [hp, hq]; rfl),
          List.filter_cons_of_neg (by rw [hp]; exact Bool.noConfusion),
          List.filter_cons_of_pos (by rw [hq])]
        exact (iht.cons a).trans List.perm_middle.symm
    · have hq : q a = false := hdisj a (by simp) hp
      rw [List.filter_cons_of_pos (by rw [hp]; rfl),
        List.filter_cons_of_pos (by rw [hp]),
        List.filter_cons_of_neg (by rw [hq]; exact Bool.noConfusion)]
      exact (iht.cons a)

/-- Splitting any filter along a second predicate, up to permutation. -/
theorem filter_split_perm {α : Type} (p q : α → Bool) (l : List α) :
    List.Perm (l.filter q)
      ((l.filter (fun x => p x && q x)) ++ (l.filter (fun x => !p x && q x))) := by
  have h := List.filter_append_perm p (l.filter q)
  rw [List.filter_filter, List.filter_filter] at h
  exact h.symm

/-- In a distinct-stem list the filter at a present stem is exactly its
bucket. -/
theorem filter_stem_unique : ∀ {O : List StemBucket},
    (O.map (·.stem)).Nodup → ∀ {b₀ : StemBucket}, b₀ ∈ O → ∀ {s : List Nat},
    b₀.stem = s → O.filter (fun x => x.stem == s) = [b₀] := by
  intro O
  induction O with
  | nil =>
    intro _ b₀ hb
    simp at hb
  | cons a t ih =>
    intro hnd b₀ hb s hs
    rw [List.map_cons, List.nodup_cons] at hnd
    rcases List.mem_cons.mp hb with hba | hbt
    · subst hba
      rw [List.filter_cons_of_pos (by exact beq_iff_eq.mpr hs)]
      have ht : t.filter (fun x => x.stem == s) = [] := by
        refine List.filter_eq_nil_iff.mpr ?_
        intro x hx hxs
        apply hnd.1
        rw [hs, ← beq_iff_eq.mp hxs]
        exact List.mem_map_of_mem _ hx
      rw [ht]
    · have hane : (a.stem == s) = false := by
        rw [beq_eq_false_iff_ne]
        intro he
        apply hnd.1
        rw [he, ← hs]
        exact List.mem_map_of_mem _ hbt
      rw [List.filter_cons_of_neg (by rw [hane]; exact Bool.noConfusion)]
      exact ih hnd.2 hbt hs


/-- A filter rejecting the inserted bucket ignores sorted insertion. -/
theorem filter_insertBucketSorted (p : StemBucket → Bool) (sb : StemBucket)
    (hp : p sb = false) :
    ∀ (S : List StemBucket), (insertBucketSorted sb S).filter p = S.filter p
  | [] => by
    unfold insertBucketSorted
    rw [List.filter_cons_of_neg (by rw [hp]; exact Bool.noConfusion), List.filter_nil]
  | x :: rest => by
    unfold insertBucketSorted
    by_cases hc : bytesLt sb.stem x.stem = true
    · rw [if_pos hc, List.filter_cons_of_neg (by rw [hp]; exact Bool.noConfusion)]
    · rw [if_neg hc]
      by_cases hx : p x = true
      · rw [List.filter_cons_of_pos hx, List.filter_cons_of_pos hx,
          filter_insertBucketSorted p sb hp rest]
      · rw [List.filter_cons_of_neg hx, List.filter_cons_of_neg hx,
          filter_insertBucketSorted p sb hp rest]

/-- A stem-only filter rejecting the upserted stem ignores the leaf
upsert. -/
theorem bucketUpsertLeaf_filter (st : List StemBucket) (stem : List Nat) (sub : Nat)
    (v : List Nat) (mk : StemBucket) (hmk : mk.stem = stem)
    (Q : List Nat → Bool) (hQ : Q stem = false) :
    (bucketUpsertLeaf st stem sub v mk).filter (fun sb => Q sb.stem) =
      st.filter (fun sb => Q sb.stem) := by
  unfold bucketUpsertLeaf
  by_cases hany : (st.any (fun sb => sb.stem == stem)) = true
  · rw [if_pos hany]
    rw [List.filter_map]
    have : (st.filter ((fun sb => Q sb.stem) ∘ fun sb =>
        if sb.stem == stem then { sb with leaves := mapInsert sb.leaves sub v } else sb)) =
        st.filter (fun sb => Q sb.stem) := by
      refine List.filter_congr ?_
      intro sb hsb
      show Q (if sb.stem == stem then { sb with leaves := mapInsert sb.leaves sub v }
        else sb).stem = Q sb.stem
      by_cases hc : (sb.stem == stem) = true
      · rw [if_pos hc]
      · rw [if_neg hc]
    rw [this]
    refine (List.map_congr_left ?_).trans (List.map_id _)
    intro sb hsb
    have hQs := List.of_mem_filter hsb
    show (if sb.stem == stem then { sb with leaves := mapInsert sb.leaves sub v }
      else sb) = id sb
    refine if_neg ?_
    intro hc
    rw [beq_iff_eq.mp hc, hQ] at hQs
    exact Bool.noConfusion hQs
  · rw [if_neg hany]
    refine filter_insertBucketSorted _ _ ?_ st
    show Q ({ mk with leaves := mapInsert mk.leaves sub v } : StemBucket).stem = false
    rw [show ({ mk with leaves := mapInsert mk.leaves sub v } : StemBucket).stem = mk.stem
      from rfl, hmk]
    exact hQ

/-- The phase-one fold leaves untouched-stem buckets untouched. -/
theorem phase1_filter : ∀ (es : List (List Nat × List Nat)) (st : List StemBucket)
    (mkf : List Nat → StemBucket) (Q : List Nat → Bool),
    (∀ s, (mkf s).stem = s) →
    (∀ kv ∈ es, Q (kv.1.take 31) = false) →
    (es.foldl (fun st kv =>
        bucketUpsertLeaf st (kv.1.take 31) (kv.1.getD 31 0) kv.2 (mkf (kv.1.take 31))) st).filter
      (fun sb => Q sb.stem) = st.filter (fun sb => Q sb.stem)
  | [], st, mkf, Q, _, _ => rfl
  | kv :: rest, st, mkf, Q, hmk, hQ => by
    show (rest.foldl _ (bucketUpsertLeaf st (kv.1.take 31) (kv.1.getD 31 0) kv.2
      (mkf (kv.1.take 31)))).filter (fun sb => Q sb.stem) = _
    rw [phase1_filter rest _ mkf Q hmk (fun kv2 h => hQ kv2 (List.mem_cons_of_mem kv h))]
    exact bucketUpsertLeaf_filter st _ _ _ _ (hmk _) Q (hQ kv (by simp))

/-- Two buckets of a distinct-stem list sharing a stem are equal. -/
theorem mem_nodup_stem_eq : ∀ {st : List StemBucket},
    (st.map (·.stem)).Nodup → ∀ {x y : StemBucket}, x ∈ st → y ∈ st →
    x.stem = y.stem → x = y := by
  intro st
  induction st with
  | nil =>
    intro _ x y hx
    simp at hx
  | cons a t ih =>
    intro hnd x y hx hy he
    rw [List.map_cons, List.nodup_cons] at hnd
    rcases List.mem_cons.mp hx with hxa | hxt
    · rcases List.mem_cons.mp hy with hya | hyt
      · rw [hxa, hya]
      · exfalso
        apply hnd.1
        rw [hxa] at he
        rw [he]
        exact List.mem_map_of_mem _ hyt
    · rcases List.mem_cons.mp hy with hya | hyt
      · exfalso
        apply hnd.1
        rw [hya] at he
        rw [← he]
        exact List.mem_map_of_mem _ hxt
      · exact ih hnd.2 hxt hyt he


/-- A boolean that is not true is false. -/
theorem bool_eq_false {b : Bool} (h : ¬ b = true) : b = false := by
  cases hq : b
  · rfl
  · exact absurd hq h

/-- Byte-string equality tests are symmetric. -/
theorem beq_comm_bytes (a b : List Nat) : (a == b) = (b == a) := by
  by_cases h : a = b
  · rw [h]
  · rw [beq_eq_false_iff_ne.mpr h, beq_eq_false_iff_ne.mpr (Ne.symm h)]

/-- First-occurrence dedup keeps a representative of every unseen key. -/
theorem dedupFirstBy_mem {α β : Type} [BEq β] [LawfulBEq β] (key : α → β) :
    ∀ (seen : List β) (l : List α) (x : α), x ∈ l → seen.contains (key x) = false →
      ∃ y ∈ dedupFirstBy key seen l, key y = key x := by
  intro seen l
  induction l generalizing seen with
  | nil =>
    intro x hx
    exact absurd hx (List.not_mem_nil x)
  | cons a rest ih =>
    intro x hx hseen
    unfold dedupFirstBy
    by_cases hc : (seen.contains (key a)) = true
    · rw [if_pos hc]
      rcases List.mem_cons.mp hx with hxa | hxr
      · exfalso
        rw [hxa] at hseen
        rw [hseen] at hc
        exact Bool.noConfusion hc
      · exact ih seen x hxr hseen
    · rw [if_neg hc]
      rcases List.mem_cons.mp hx with hxa | hxr
      · exact ⟨a, List.mem_cons_self _ _, by rw [hxa]⟩
      · by_cases hc2 : ((key a :: seen).contains (key x)) = true
        · refine ⟨a, List.mem_cons_self _ _, ?_⟩
          rw [List.contains_cons, hseen, Bool.or_false] at hc2
          exact (beq_iff_eq.mp hc2).symm
        · obtain ⟨y, hy, hye⟩ := ih (key a :: seen) x hxr (bool_eq_false hc2)
          exact ⟨y, List.mem_cons_of_mem a hy, hye⟩


/-- The phase-two fold of `insert_many_incremental`: folding the distinct
touched stems through `upsert_stem` keeps the tree well formed and the
bucket contents unchanged, provided the untouched buckets are well formed
and the root is the build of the original buckets at touched stems joined
with the current buckets at untouched stems. -/
theorem inc_fold : ∀ (ts : List (List Nat)) (st : List StemBucket) (root : Node)
    (O : List StemBucket),
    ts.Nodup →
    (∀ s ∈ ts, ∃ sb ∈ st, sb.stem = s) →
    (∀ sb ∈ st, isBytes 31 sb.stem ∧ (sb.leaves.map (·.1)).Nodup ∧
      ∀ j ∈ sb.leaves.map (·.1), j < 256) →
    st.Pairwise (fun a b => bytesLt a.stem b.stem = true) →
    (∀ sb ∈ st, stemTouched ts sb.stem = false → WFbucket sb) →
    (∀ sb ∈ O, isBytes 31 sb.stem) →
    (O.map (·.stem)).Nodup →
    root = build_stem_tree 248
      ((O.filter (fun sb => stemTouched ts sb.stem)) ++
       (st.filter (fun sb => !(stemTouched ts sb.stem)))) 0 →
    WF (ts.foldl
      (fun (acc : BinaryStateTree) (stem : List Nat) =>
        match acc.stems.find? (fun sb => sb.stem == stem) with
        | none => acc
        | some sb =>
          let sb' := sb.recompute
          { stems := acc.stems.map (fun x => if x.stem == stem then sb' else x),
            root := upsert_stem acc.root stem sb'.stem_hash 0 })
      ⟨st, root⟩) ∧
    ((ts.foldl
      (fun (acc : BinaryStateTree) (stem : List Nat) =>
        match acc.stems.find? (fun sb => sb.stem == stem) with
        | none => acc
        | some sb =>
          let sb' := sb.recompute
          { stems := acc.stems.map (fun x => if x.stem == stem then sb' else x),
            root := upsert_stem acc.root stem sb'.stem_hash 0 })
      ⟨st, root⟩).stems).map (fun sb => (sb.stem, sb.leaves)) =
      st.map (fun sb => (sb.stem, sb.leaves)) := by
  intro ts
  induction ts with
  | nil =>
    intro st root O _ _ _ hsort hwfc _ _ hroot
    have h0 : O.filter (fun sb => stemTouched ([] : List (List Nat)) sb.stem) = [] :=
      List.filter_eq_nil_iff.mpr (fun sb _ h => Bool.noConfusion h)
    have h1 : st.filter (fun sb => !(stemTouched ([] : List (List Nat)) sb.stem)) = st :=
      List.filter_eq_self.mpr (fun sb _ => rfl)
    rw [h0, h1, List.nil_append] at hroot
    exact ⟨⟨fun sb hsb => hwfc sb hsb rfl, hsort, hroot⟩, rfl⟩
  | cons s rest ih =>
    intro st root O hnd hpres hcore hsort hwfc hOv hOnd hroot
    have hnd_st : (st.map (fun sb => sb.stem)).Nodup := sorted_stems_nodup hsort
    obtain ⟨sb, hsbmem, hsbstem⟩ := hpres s (List.mem_cons_self s rest)
    have hfind : st.find? (fun x => x.stem == s) = some sb :=
      find?_unique _ st sb hsbmem (beq_iff_eq.mpr hsbstem)
        (fun y hy hpy => mem_nodup_stem_eq hnd_st hy hsbmem
          (by rw [beq_iff_eq.mp hpy, hsbstem]))
    have hsnr : s ∉ rest := (List.nodup_cons.mp hnd).1
    have hs_rest : stemTouched rest s = false := by
      cases hb : stemTouched rest s
      · rfl
      · exfalso
        obtain ⟨y, hy, hye⟩ := List.any_eq_true.mp hb
        exact hsnr (by rw [← beq_iff_eq.mp hye]; exact hy)
    have hs_touch : stemTouched (s :: rest) s = true := by
      show ((s == s) || stemTouched rest s) = true
      rw [beq_self_eq_true]
      rfl
    rw [List.foldl_cons]
    simp only [hfind]
    have hg : ∀ b : StemBucket,
        (if b.stem == s then sb.recompute else b).stem = b.stem := by
      intro b
      by_cases hc : (b.stem == s) = true
      · rw [if_pos hc]
        exact (rfl : sb.recompute.stem = sb.stem).trans
          (hsbstem.trans (beq_iff_eq.mp hc).symm)
      · rw [if_neg hc]
    have hrp2_core : ∀ b' ∈ st.map (fun x => if x.stem == s then sb.recompute else x),
        isBytes 31 b'.stem ∧ (b'.leaves.map (·.1)).Nodup ∧
          ∀ j ∈ b'.leaves.map (·.1), j < 256 := by
      intro b' hb'
      obtain ⟨b, hb, hbe⟩ := List.mem_map.mp hb'
      by_cases hc : (b.stem == s) = true
      · rw [if_pos hc] at hbe
        rw [← hbe]
        obtain ⟨c1, c2, c3⟩ := hcore sb hsbmem
        exact ⟨c1, c2, c3⟩
      · rw [if_neg hc] at hbe
        rw [← hbe]
        exact hcore b hb
    have hsort' : (st.map (fun x => if x.stem == s then sb.recompute else x)).Pairwise
        (fun a b => bytesLt a.stem b.stem = true) := by
      refine List.pairwise_map.mpr (List.Pairwise.imp ?_ hsort)
      intro a b hab
      show bytesLt (if a.stem == s then sb.recompute else a).stem
        (if b.stem == s then sb.recompute else b).stem = true
      rw [hg a, hg b]
      exact hab
    have hwfc' : ∀ b' ∈ st.map (fun x => if x.stem == s then sb.recompute else x),
        stemTouched rest b'.stem = false → WFbucket b' := by
      intro b' hb' htf
      obtain ⟨b, hb, hbe⟩ := List.mem_map.mp hb'
      by_cases hc : (b.stem == s) = true
      · rw [if_pos hc] at hbe
        rw [← hbe]
        obtain ⟨c1, c2, c3⟩ := hcore sb hsbmem
        exact recompute_wf sb c1 c2 c3
      · rw [if_neg hc] at hbe
        rw [← hbe] at htf ⊢
        refine hwfc b hb ?_
        show ((s == b.stem) || stemTouched rest b.stem) = false
        rw [htf, Bool.or_false, beq_eq_false_iff_ne]
        intro he
        exact hc (beq_iff_eq.mpr he.symm)
    have hpres' : ∀ s' ∈ rest,
        ∃ b ∈ st.map (fun x => if x.stem == s then sb.recompute else x), b.stem = s' := by
      intro s' hs'
      obtain ⟨b, hb, hbs⟩ := hpres s' (List.mem_cons_of_mem s hs')
      refine ⟨(if b.stem == s then sb.recompute else b), List.mem_map_of_mem _ hb, ?_⟩
      rw [hg b]
      exact hbs
    have hGv : ∀ b ∈ (O.filter (fun x => stemTouched (s :: rest) x.stem)) ++
        (st.filter (fun x => !(stemTouched (s :: rest) x.stem))), isBytes 31 b.stem := by
      intro b hb
      rcases List.mem_append.mp hb with h | h
      · exact hOv b (List.mem_of_mem_filter h)
      · exact (hcore b (List.mem_of_mem_filter h)).1
    have hGnd : (((O.filter (fun x => stemTouched (s :: rest) x.stem)) ++
        (st.filter (fun x => !(stemTouched (s :: rest) x.stem)))).map
        (fun b => b.stem)).Nodup := by
      rw [List.map_append]
      refine List.Nodup.append ?_ ?_ ?_
      · exact hOnd.sublist ((List.filter_sublist O).map _)
      · exact hnd_st.sublist ((List.filter_sublist st).map _)
      · intro z hz1 hz2
        obtain ⟨a, ha, hae⟩ := List.mem_map.mp hz1
        obtain ⟨u, hu, hue⟩ := List.mem_map.mp hz2
        have hpa := List.of_mem_filter ha
        have hpu := List.of_mem_filter hu
        have hau : a.stem = u.stem := by rw [hae, hue]
        rw [hau] at hpa
        rw [hpa] at hpu
        exact Bool.noConfusion hpu
    have hsstem31 : isBytes 31 s := by
      rw [← hsbstem]
      exact (hcore sb hsbmem).1
    have hub : upsert_stem root s sb.recompute.stem_hash 0 =
        build_stem_tree 248
          (if ((O.filter (fun x => stemTouched (s :: rest) x.stem)) ++
              (st.filter (fun x => !(stemTouched (s :: rest) x.stem)))).any
              (fun b => b.stem == s) then
            ((O.filter (fun x => stemTouched (s :: rest) x.stem)) ++
              (st.filter (fun x => !(stemTouched (s :: rest) x.stem)))).map
              (fun b => if b.stem == s then { b with stem_hash := sb.recompute.stem_hash }
                else b)
          else ⟨s, [], ZERO32, sb.recompute.stem_hash⟩ ::
            ((O.filter (fun x => stemTouched (s :: rest) x.stem)) ++
              (st.filter (fun x => !(stemTouched (s :: rest) x.stem))))) 0 := by
      rw [hroot]
      exact upsert_eq_build 248 0 _ s sb.recompute.stem_hash hGv hGnd hsstem31
        (fun b _ j hj => absurd hj (Nat.not_lt_zero j)) (by omega)
    have hU'eq : (st.map (fun x => if x.stem == s then sb.recompute else x)).filter
        (fun x => !(stemTouched rest x.stem)) =
        (st.filter (fun x => !(stemTouched rest x.stem))).map
          (fun x => if x.stem == s then sb.recompute else x) := by
      rw [List.filter_map]
      refine congrArg _ (List.filter_congr ?_)
      intro b _
      show (!(stemTouched rest (if b.stem == s then sb.recompute else b).stem)) =
        (!(stemTouched rest b.stem))
      rw [hg b]
    have hsplitU : List.Perm (st.filter (fun x => !(stemTouched rest x.stem)))
        (sb :: st.filter (fun x => !(stemTouched (s :: rest) x.stem))) := by
      have h1 := filter_split_perm (fun x : StemBucket => x.stem == s)
        (fun x => !(stemTouched rest x.stem)) st
      have h2 : st.filter (fun x => (x.stem == s) && !(stemTouched rest x.stem)) =
          st.filter (fun x => x.stem == s) := by
        refine List.filter_congr ?_
        intro b _
        by_cases hc : (b.stem == s) = true
        · rw [hc, Bool.true_and, beq_iff_eq.mp hc, hs_rest]
          rfl
        · rw [bool_eq_false hc, Bool.false_and]
      have h3 : st.filter (fun x => x.stem == s) = [sb] :=
        filter_stem_unique hnd_st hsbmem hsbstem
      have h4 : st.filter (fun x => !(x.stem == s) && !(stemTouched rest x.stem)) =
          st.filter (fun x => !(stemTouched (s :: rest) x.stem)) := by
        refine List.filter_congr ?_
        intro b _
        show (!(b.stem == s) && !(stemTouched rest b.stem)) =
          (!((s == b.stem) || stemTouched rest b.stem))
        rw [Bool.not_or, beq_comm_bytes]
      rw [h2, h3, h4] at h1
      exact h1
    have hUid : ∀ b ∈ st.filter (fun x => !(stemTouched (s :: rest) x.stem)),
        (if b.stem == s then sb.recompute else b) = b := by
      intro b hb
      have hpb := List.of_mem_filter hb
      by_cases hc : (b.stem == s) = true
      · exfalso
        rw [beq_iff_eq.mp hc, hs_touch] at hpb
        exact Bool.noConfusion hpb
      · rw [if_neg hc]
    have hR : List.Perm
        (((O.filter (fun x => stemTouched rest x.stem)) ++
          ((st.map (fun x => if x.stem == s then sb.recompute else x)).filter
            (fun x => !(stemTouched rest x.stem)))).map
          (fun b : StemBucket => (b.stem, b.stem_hash)))
        ((s, sb.recompute.stem_hash) ::
          ((O.filter (fun x => stemTouched rest x.stem)).map
            (fun b : StemBucket => (b.stem, b.stem_hash)) ++
           (st.filter (fun x => !(stemTouched (s :: rest) x.stem))).map
            (fun b : StemBucket => (b.stem, b.stem_hash)))) := by
      rw [List.map_append]
      have hMU : List.Perm
          (((st.map (fun x => if x.stem == s then sb.recompute else x)).filter
            (fun x => !(stemTouched rest x.stem))).map
            (fun b : StemBucket => (b.stem, b.stem_hash)))
          ((s, sb.recompute.stem_hash) ::
            (st.filter (fun x => !(stemTouched (s :: rest) x.stem))).map
              (fun b : StemBucket => (b.stem, b.stem_hash))) := by
        rw [hU'eq]
        refine ((hsplitU.map (fun x : StemBucket => if x.stem == s then sb.recompute else x)).map
          (fun b : StemBucket => (b.stem, b.stem_hash))).trans ?_
        have hrs : sb.recompute.stem = s := hsbstem
        rw [List.map_cons, List.map_cons, if_pos (beq_iff_eq.mpr hsbstem), hrs]
        refine List.Perm.cons _ ?_
        rw [(List.map_congr_left (fun b hb => hUid b hb)).trans (List.map_id _)]
      refine (List.Perm.append_left _ hMU).trans ?_
      exact List.perm_middle
    have hroot' : upsert_stem root s sb.recompute.stem_hash 0 =
        build_stem_tree 248
          ((O.filter (fun x => stemTouched rest x.stem)) ++
           ((st.map (fun x => if x.stem == s then sb.recompute else x)).filter
             (fun x => !(stemTouched rest x.stem)))) 0 := by
      by_cases hOs : ∃ b₀ ∈ O, b₀.stem = s
      · obtain ⟨b₀, hb₀, hb₀s⟩ := hOs
        have hany : ((O.filter (fun x => stemTouched (s :: rest) x.stem)) ++
            (st.filter (fun x => !(stemTouched (s :: rest) x.stem)))).any
            (fun b => b.stem == s) = true := by
          refine List.any_eq_true.mpr ⟨b₀, ?_, beq_iff_eq.mpr hb₀s⟩
          refine List.mem_append_left _ (List.mem_filter.mpr ⟨hb₀, ?_⟩)
          rw [hb₀s]
          exact hs_touch
        rw [if_pos hany] at hub
        have hUid_rp : ∀ b ∈ st.filter (fun x => !(stemTouched (s :: rest) x.stem)),
            (if b.stem == s then { b with stem_hash := sb.recompute.stem_hash } else b) = b := by
          intro b hb
          have hpb := List.of_mem_filter hb
          by_cases hc : (b.stem == s) = true
          · exfalso
            rw [beq_iff_eq.mp hc, hs_touch] at hpb
            exact Bool.noConfusion hpb
          · rw [if_neg hc]
        have hUrp : (st.filter (fun x => !(stemTouched (s :: rest) x.stem))).map
            (fun b => if b.stem == s then { b with stem_hash := sb.recompute.stem_hash }
              else b) =
            st.filter (fun x => !(stemTouched (s :: rest) x.stem)) :=
          (List.map_congr_left (fun b hb => hUid_rp b hb)).trans (List.map_id _)
        have hAsplit : List.Perm (O.filter (fun x => stemTouched (s :: rest) x.stem))
            (b₀ :: O.filter (fun x => stemTouched rest x.stem)) := by
          have h1 : O.filter (fun x => stemTouched (s :: rest) x.stem) =
              O.filter (fun x => (s == x.stem) || stemTouched rest x.stem) :=
            List.filter_congr (fun b _ => rfl)
          have hdisj : ∀ x ∈ O, (s == x.stem) = true → stemTouched rest x.stem = false := by
            intro x _ hp
            rw [← beq_iff_eq.mp hp]
            exact hs_rest
          have h2 := filter_or_perm (fun x : StemBucket => s == x.stem)
            (fun x => stemTouched rest x.stem) O hdisj
          have h3 : O.filter (fun x => s == x.stem) = [b₀] := by
            have hcg : O.filter (fun x => s == x.stem) = O.filter (fun x => x.stem == s) :=
              List.filter_congr (fun b _ => beq_comm_bytes s b.stem)
            rw [hcg]
            exact filter_stem_unique hOnd hb₀ hb₀s
          rw [h3] at h2
          rw [h1]
          exact h2
        have hA'id : ∀ b ∈ O.filter (fun x => stemTouched rest x.stem),
            (if b.stem == s then { b with stem_hash := sb.recompute.stem_hash } else b) = b := by
          intro b hb
          have hpb := List.of_mem_filter hb
          by_cases hc : (b.stem == s) = true
          · exfalso
            rw [beq_iff_eq.mp hc, hs_rest] at hpb
            exact Bool.noConfusion hpb
          · rw [if_neg hc]
        have hL : List.Perm
            ((((O.filter (fun x => stemTouched (s :: rest) x.stem)) ++
               (st.filter (fun x => !(stemTouched (s :: rest) x.stem)))).map
              (fun b => if b.stem == s then { b with stem_hash := sb.recompute.stem_hash }
                else b)).map
              (fun b : StemBucket => (b.stem, b.stem_hash)))
            ((s, sb.recompute.stem_hash) ::
              ((O.filter (fun x => stemTouched rest x.stem)).map
                (fun b : StemBucket => (b.stem, b.stem_hash)) ++
               (st.filter (fun x => !(stemTouched (s :: rest) x.stem))).map
                (fun b : StemBucket => (b.stem, b.stem_hash)))) := by
          rw [List.map_append, List.map_append, hUrp]
          have hMA : List.Perm
              (((O.filter (fun x => stemTouched (s :: rest) x.stem)).map
                (fun b => if b.stem == s then { b with stem_hash := sb.recompute.stem_hash }
                  else b)).map
                (fun b : StemBucket => (b.stem, b.stem_hash)))
              ((s, sb.recompute.stem_hash) ::
                (O.filter (fun x => stemTouched rest x.stem)).map
                  (fun b : StemBucket => (b.stem, b.stem_hash))) := by
            refine ((hAsplit.map (fun b : StemBucket =>
              if b.stem == s then { b with stem_hash := sb.recompute.stem_hash } else b)).map
              (fun b : StemBucket => (b.stem, b.stem_hash))).trans ?_
            rw [List.map_cons, List.map_cons, if_pos (beq_iff_eq.mpr hb₀s), hb₀s]
            refine List.Perm.cons _ ?_
            rw [(List.map_congr_left (fun b hb => hA'id b hb)).trans (List.map_id _)]
          refine (hMA.append_right _).trans ?_
          rw [List.cons_append]
        rw [hub]
        exact build_proj_perm 248 0 _ _ (hL.trans hR.symm)
      · have hany_f : ((O.filter (fun x => stemTouched (s :: rest) x.stem)) ++
            (st.filter (fun x => !(stemTouched (s :: rest) x.stem)))).any
            (fun b => b.stem == s) = false := by
          cases hq : ((O.filter (fun x => stemTouched (s :: rest) x.stem)) ++
              (st.filter (fun x => !(stemTouched (s :: rest) x.stem)))).any
              (fun b => b.stem == s)
          · rfl
          · exfalso
            obtain ⟨x, hx, hxe⟩ := List.any_eq_true.mp hq
            have hxs : x.stem = s := beq_iff_eq.mp hxe
            rcases List.mem_append.mp hx with hA | hU
            · exact hOs ⟨x, List.mem_of_mem_filter hA, hxs⟩
            · have hpx := List.of_mem_filter hU
              rw [hxs, hs_touch] at hpx
              exact Bool.noConfusion hpx
        rw [if_neg (by rw [hany_f]; exact fun h => Bool.noConfusion h)] at hub
        have hA_eq : O.filter (fun x => stemTouched (s :: rest) x.stem) =
            O.filter (fun x => stemTouched rest x.stem) := by
          refine List.filter_congr ?_
          intro b hbO
          show ((s == b.stem) || stemTouched rest b.stem) = stemTouched rest b.stem
          have hne : (s == b.stem) = false := by
            rw [beq_eq_false_iff_ne]
            intro he
            exact hOs ⟨b, hbO, he.symm⟩
          rw [hne, Bool.false_or]
        rw [hub]
        refine build_proj_perm 248 0 _ _ ?_
        rw [List.map_cons]
        refine List.Perm.trans ?_ hR.symm
        show List.Perm ((s, sb.recompute.stem_hash) ::
            (((O.filter (fun x => stemTouched (s :: rest) x.stem)) ++
              (st.filter (fun x => !(stemTouched (s :: rest) x.stem)))).map
              (fun b : StemBucket => (b.stem, b.stem_hash))))
          ((s, sb.recompute.stem_hash) ::
            ((O.filter (fun x => stemTouched rest x.stem)).map
              (fun b : StemBucket => (b.stem, b.stem_hash)) ++
             (st.filter (fun x => !(stemTouched (s :: rest) x.stem))).map
              (fun b : StemBucket => (b.stem, b.stem_hash))))
        refine List.Perm.cons _ ?_
        rw [List.map_append, hA_eq]
    obtain ⟨w1, w4⟩ := ih (st.map (fun x => if x.stem == s then sb.recompute else x))
      (upsert_stem root s sb.recompute.stem_hash 0) O (List.nodup_cons.mp hnd).2
      hpres' hrp2_core hsort' hwfc' hOv hOnd hroot'
    refine ⟨w1, ?_⟩
    rw [w4, List.map_map]
    refine List.map_congr_left ?_
    intro b hb
    show ((if b.stem == s then sb.recompute else b).stem,
      (if b.stem == s then sb.recompute else b).leaves) = (b.stem, b.leaves)
    by_cases hc : (b.stem == s) = true
    · rw [if_pos hc]
      have hbsb : b = sb := mem_nodup_stem_eq hnd_st hb hsbmem
        (by rw [beq_iff_eq.mp hc, hsbstem])
      rw [hbsb]
      rfl
    · rw [if_neg hc]


/-- `insert_many_incremental` preserves well-formedness. -/
theorem insert_many_incremental_WF (t : BinaryStateTree) (es : List (List Nat × List Nat))
    (hWF : WF t) (hes : entriesWF es) : WF (t.insert_many_incremental es) := by
  obtain ⟨hb, hsort, hroot⟩ := hWF
  have hcore0 : ∀ sb ∈ t.stems, isBytes 31 sb.stem ∧ (sb.leaves.map (·.1)).Nodup ∧
      ∀ j ∈ sb.leaves.map (·.1), j < 256 :=
    fun sb hsb => ⟨(hb sb hsb).1, (hb sb hsb).2.1, (hb sb hsb).2.2.1⟩
  obtain ⟨p1, p2, p3, p4, p5, p6⟩ := phase1_props es t.stems
    (fun s => (⟨s, [], ZERO32, ZERO32⟩ : StemBucket)) hes (fun s => ⟨rfl, rfl⟩)
    hcore0 (sorted_stems_nodup hsort) hsort
  have hts_nodup : (dedupFirstBy id [] (es.map (fun kv => kv.1.take 31))).Nodup := by
    have h := (dedupFirstBy_nodup id [] (es.map (fun kv => kv.1.take 31))).1
    rw [List.map_id] at h
    exact h
  have htouch_of_mem : ∀ kv ∈ es,
      stemTouched (dedupFirstBy id [] (es.map (fun kv => kv.1.take 31)))
        (kv.1.take 31) = true := by
    intro kv hkv
    obtain ⟨y, hy, hye⟩ := dedupFirstBy_mem id [] (es.map (fun kv => kv.1.take 31))
      (kv.1.take 31) (List.mem_map_of_mem _ hkv) rfl
    exact List.any_eq_true.mpr ⟨y, hy, beq_iff_eq.mpr hye⟩
  have hts_mem_stem : ∀ s' ∈ dedupFirstBy id [] (es.map (fun kv => kv.1.take 31)),
      ∃ kv ∈ es, kv.1.take 31 = s' := by
    intro s' hs'
    obtain ⟨kv, hkv, hkve⟩ :=
      List.mem_map.mp (dedupFirstBy_sub id [] (es.map (fun kv => kv.1.take 31)) s' hs')
    exact ⟨kv, hkv, hkve⟩
  have hpres : ∀ s' ∈ dedupFirstBy id [] (es.map (fun kv => kv.1.take 31)),
      ∃ sb ∈ es.foldl (fun st kv =>
        bucketUpsertLeaf st (kv.1.take 31) (kv.1.getD 31 0) kv.2
          ⟨kv.1.take 31, [], ZERO32, ZERO32⟩) t.stems, sb.stem = s' := by
    intro s' hs'
    obtain ⟨kv, hkv, hkve⟩ := hts_mem_stem s' hs'
    obtain ⟨sb, hsb, hsbe⟩ := p6 kv hkv
    exact ⟨sb, hsb, hsbe.trans hkve⟩
  have hwfc : ∀ sb ∈ es.foldl (fun st kv =>
      bucketUpsertLeaf st (kv.1.take 31) (kv.1.getD 31 0) kv.2
        ⟨kv.1.take 31, [], ZERO32, ZERO32⟩) t.stems,
      stemTouched (dedupFirstBy id [] (es.map (fun kv => kv.1.take 31))) sb.stem = false →
        WFbucket sb := by
    intro sb hsb htf
    rcases p4 sb hsb with hmem | hstem
    · exact hb sb hmem
    · exfalso
      obtain ⟨kv, hkv, hkve⟩ := List.mem_map.mp hstem
      have hkve' : kv.1.take 31 = sb.stem := hkve
      have ht := htouch_of_mem kv hkv
      rw [hkve', htf] at ht
      exact Bool.noConfusion ht
  have hU' : (es.foldl (fun st kv =>
      bucketUpsertLeaf st (kv.1.take 31) (kv.1.getD 31 0) kv.2
        ⟨kv.1.take 31, [], ZERO32, ZERO32⟩) t.stems).filter
      (fun sb => !(stemTouched (dedupFirstBy id [] (es.map (fun kv => kv.1.take 31)))
        sb.stem)) =
      t.stems.filter
        (fun sb => !(stemTouched (dedupFirstBy id [] (es.map (fun kv => kv.1.take 31)))
          sb.stem)) := by
    have h := phase1_filter es t.stems (fun s => (⟨s, [], ZERO32, ZERO32⟩ : StemBucket))
      (fun x => !(stemTouched (dedupFirstBy id [] (es.map (fun kv => kv.1.take 31))) x))
      (fun s => rfl)
      (fun kv hkv => by
        show (!(stemTouched (dedupFirstBy id [] (es.map (fun kv => kv.1.take 31)))
          (kv.1.take 31))) = false
        rw [htouch_of_mem kv hkv]
        rfl)
    exact h
  have hroot' : t.root = build_stem_tree 248
      ((t.stems.filter (fun sb =>
        stemTouched (dedupFirstBy id [] (es.map (fun kv => kv.1.take 31))) sb.stem)) ++
       ((es.foldl (fun st kv =>
          bucketUpsertLeaf st (kv.1.take 31) (kv.1.getD 31 0) kv.2
            ⟨kv.1.take 31, [], ZERO32, ZERO32⟩) t.stems).filter
        (fun sb => !(stemTouched (dedupFirstBy id [] (es.map (fun kv => kv.1.take 31)))
          sb.stem)))) 0 := by
    rw [hU', hroot]
    refine build_proj_perm 248 0 _ _ ?_
    exact ((List.filter_append_perm
      (fun sb => stemTouched (dedupFirstBy id [] (es.map (fun kv => kv.1.take 31))) sb.stem)
      t.stems).symm).map (fun b => (b.stem, b.stem_hash))
  exact (inc_fold (dedupFirstBy id [] (es.map (fun kv => kv.1.take 31)))
    (es.foldl (fun st kv =>
      bucketUpsertLeaf st (kv.1.take 31) (kv.1.getD 31 0) kv.2
        ⟨kv.1.take 31, [], ZERO32, ZERO32⟩) t.stems)
    t.root t.stems hts_nodup hpres p1 p3 hwfc
    (fun sb hsb => (hb sb hsb).1) (sorted_stems_nodup hsort) hroot').1

/-- Every reachable tree is well formed. -/
theorem Built_WF : ∀ t, Built t → WF t := by
  intro t h
  induction h with
  | base entries hwf => exact WF_from_entries entries hwf
  | many t entries hwf _ ih => exact insert_many_WF t entries ih hwf
  | inc t entries hwf _ ih => exact insert_many_incremental_WF t entries ih hwf


/-- Stems absent from the bucket list never appear as leaves. -/
theorem count_zero : ∀ (fuel depth : Nat) (S : List StemBucket) (stem h : List Nat),
    (∀ sb ∈ S, sb.stem ≠ stem) →
    countStemLeaf (build_stem_tree fuel S depth) stem h = 0 := by
  intro fuel
  induction fuel with
  | zero =>
    intro depth S stem h habs
    cases S with
    | nil => rfl
    | cons a tail =>
      cases tail with
      | nil =>
        show (if a.stem = stem ∧ a.stem_hash = h then 1 else 0) = 0
        rw [if_neg (fun hh => habs a (List.mem_cons_self a []) hh.1)]
      | cons b rest => rfl
  | succ f ih =>
    intro depth S stem h habs
    cases S with
    | nil => rfl
    | cons a tail =>
      cases tail with
      | nil =>
        show (if a.stem = stem ∧ a.stem_hash = h then 1 else 0) = 0
        rw [if_neg (fun hh => habs a (List.mem_cons_self a []) hh.1)]
      | cons b rest =>
        rw [build_stem_tree_two f depth a b rest]
        show countStemLeaf (build_stem_tree f ((a :: b :: rest).filter
            (fun x => stem_bit x.stem depth == 0)) (depth+1)) stem h +
          countStemLeaf (build_stem_tree f ((a :: b :: rest).filter
            (fun x => !(stem_bit x.stem depth == 0))) (depth+1)) stem h = 0
        rw [ih (depth+1) _ stem h (fun y hy => habs y (List.mem_of_mem_filter hy)),
          ih (depth+1) _ stem h (fun y hy => habs y (List.mem_of_mem_filter hy))]

/-- Every bucket of a good slice appears as exactly one leaf of the
simple build, carrying its cached stem hash. -/
theorem build_count : ∀ (fuel : Nat), ∀ (depth : Nat) (S : List StemBucket),
    SGood depth S → 248 ≤ fuel + depth → ∀ sb ∈ S,
      countStemLeaf (build_stem_tree fuel S depth) sb.stem sb.stem_hash = 1 := by
  intro fuel
  induction fuel with
  | zero =>
    intro depth S hS h248 sb hsb
    cases S with
    | nil => simp at hsb
    | cons a tail =>
      cases tail with
      | nil =>
        have hx : sb = a := by simpa using hsb
        subst hx
        show (if sb.stem = sb.stem ∧ sb.stem_hash = sb.stem_hash then 1 else 0) = 1
        rw [if_pos ⟨rfl, rfl⟩]
      | cons b rest =>
        have := sgood_two_lt248 hS
        omega
  | succ f ih =>
    intro depth S hS h248 sb hsb
    cases S with
    | nil => simp at hsb
    | cons a tail =>
      cases tail with
      | nil =>
        have hx : sb = a := by simpa using hsb
        subst hx
        show (if sb.stem = sb.stem ∧ sb.stem_hash = sb.stem_hash then 1 else 0) = 1
        rw [if_pos ⟨rfl, rfl⟩]
      | cons b rest =>
        rw [build_stem_tree_two f depth a b rest]
        show countStemLeaf (build_stem_tree f ((a :: b :: rest).filter
            (fun x => stem_bit x.stem depth == 0)) (depth+1)) sb.stem sb.stem_hash +
          countStemLeaf (build_stem_tree f ((a :: b :: rest).filter
            (fun x => !(stem_bit x.stem depth == 0))) (depth+1)) sb.stem sb.stem_hash = 1
        by_cases hbit : stem_bit sb.stem depth = 0
        · have hmem : sb ∈ (a :: b :: rest).filter (fun x => stem_bit x.stem depth == 0) :=
            List.mem_filter.mpr ⟨hsb, by simp [hbit]⟩
          have h0 : countStemLeaf (build_stem_tree f ((a :: b :: rest).filter
              (fun x => !(stem_bit x.stem depth == 0))) (depth+1)) sb.stem sb.stem_hash = 0 := by
            refine count_zero f (depth+1) _ sb.stem sb.stem_hash ?_
            intro y hy he
            have hyb := List.of_mem_filter hy
            rw [he, hbit] at hyb
            exact Bool.noConfusion hyb
          rw [h0, ih (depth + 1) _ (SGood_filter hS _ 0 (fun x h => by simpa using h))
            (by omega) sb hmem]
        · have hmem : sb ∈ (a :: b :: rest).filter (fun x => !(stem_bit x.stem depth == 0)) :=
            List.mem_filter.mpr ⟨hsb, by simp [hbit]⟩
          have h0 : countStemLeaf (build_stem_tree f ((a :: b :: rest).filter
              (fun x => stem_bit x.stem depth == 0)) (depth+1)) sb.stem sb.stem_hash = 0 := by
            refine count_zero f (depth+1) _ sb.stem sb.stem_hash ?_
            intro y hy he
            have hyb := List.of_mem_filter hy
            rw [he] at hyb
            exact hbit (beq_iff_eq.mp hyb)
          rw [h0, ih (depth + 1) _ (SGood_filter hS _ 1 (fun x h => by
            have := stem_bit_lt_two x.stem depth
            simp only [Bool.not_eq_true', beq_eq_false_iff_ne, ne_eq] at h
            omega)) (by omega) sb hmem]


/-- C10: every tree reachable through the public build/update surface
keeps the stems map and the node tree consistent: each bucket's stem
occurs as exactly one `StemLeaf` of the root tree, holding exactly that
bucket's cached `stem_hash`; consequently `prove_for_key` succeeds on
every bound key, so the `Empty`-subtree panic and the stem assertion of
`prove_paths_sparse` (both modelled as `none`) are unreachable. -/
theorem C10_stems_tree_consistent : ∀ (t : BinaryStateTree), Built t →
    (∀ sb ∈ t.stems, countStemLeaf t.root sb.stem sb.stem_hash = 1) ∧
    (∀ key value, t.boundValue key = some value →
      (t.prove_for_key key).isSome = true) := by
  intro t hB
  obtain ⟨hb, hsort, hroot⟩ := Built_WF t hB
  have hg : SGood 0 t.stems := SGood_zero (fun sb hsb => (hb sb hsb).1) hsort
  constructor
  · intro sb hsb
    rw [hroot]
    exact build_count 248 0 t.stems hg (by omega) sb hsb
  · intro key value hbound
    have hbound' : (t.stems.find? (fun sb => sb.stem == key.take 31)).bind
        (fun sb => mapLookup sb.leaves (key.getD 31 0)) = some value := hbound
    cases hfind : t.stems.find? (fun sb => sb.stem == key.take 31) with
    | none =>
      rw [hfind] at hbound'
      exact Option.noConfusion hbound'
    | some sb =>
      rw [hfind] at hbound'
      have hlook : mapLookup sb.leaves (key.getD 31 0) = some value := hbound'
      have hsbmem : sb ∈ t.stems := List.mem_of_find?_eq_some hfind
      have hp := List.find?_some hfind
      have hsbstem : sb.stem = key.take 31 := beq_iff_eq.mp hp
      obtain ⟨sibs, hw, _, _⟩ := build_walk 248 0 t.stems hg (by omega) sb hsbmem
      have hred : BinaryStateTree.prove_for_key t key =
          (prove_paths_sparse t.root (key.take 31) (key.getD 31 0) sb.leaves).map
            (fun pr => (value, pr.1, pr.2)) := by
        simp only [BinaryStateTree.prove_for_key, hfind, hlook]
      have hpp : prove_paths_sparse t.root (key.take 31) (key.getD 31 0) sb.leaves =
          some ((List.range 8).map (sibling_at_level_sparse sb.leaves (key.getD 31 0)),
            sibs) := by
        show (walk_path_sibs t.root (key.take 31) 0).map
          (fun path_sibs => ((List.range 8).map
            (sibling_at_level_sparse sb.leaves (key.getD 31 0)), path_sibs)) = _
        rw [hroot, ← hsbstem, hw]
        rfl
      rw [hred, hpp]
      rfl

/-- Witness: C10 at a one-entry bulk build. -/
theorem C10_witness :
    (∀ sb ∈ (from_entries
        [(List.replicate 32 0, List.replicate 32 1)]).stems,
      countStemLeaf (from_entries
        [(List.replicate 32 0, List.replicate 32 1)]).root sb.stem sb.stem_hash = 1) ∧
    (∀ key value, (from_entries
        [(List.replicate 32 0, List.replicate 32 1)]).boundValue key = some value →
      ((from_entries
        [(List.replicate 32 0, List.replicate 32 1)]).prove_for_key key).isSome = true) :=
  C10_stems_tree_consistent _
    (Built.base [(List.replicate 32 0, List.replicate 32 1)] (by decide))


/-- C1: proof soundness — for every reachable tree and every bound
32-byte key, `prove_for_key` returns the bound value with the 8
in-bucket siblings and the stem-path siblings, and `verify_proof`
accepts that proof against the state root. -/
theorem C1_proof_soundness : ∀ (t : BinaryStateTree) (key value : List Nat),
    Built t → isBytes 32 key → t.boundValue key = some value →
    ∃ sub_sibs path_sibs,
      t.prove_for_key key = some (value, sub_sibs, path_sibs) ∧
      verify_proof t.state_root key value sub_sibs path_sibs = true := by
  intro t key value hB hkey hbound
  obtain ⟨hb, hsort, hroot⟩ := Built_WF t hB
  have hg : SGood 0 t.stems := SGood_zero (fun sb hsb => (hb sb hsb).1) hsort
  have hbound' : (t.stems.find? (fun sb => sb.stem == key.take 31)).bind
      (fun sb => mapLookup sb.leaves (key.getD 31 0)) = some value := hbound
  cases hfind : t.stems.find? (fun sb => sb.stem == key.take 31) with
  | none =>
    rw [hfind] at hbound'
    exact Option.noConfusion hbound'
  | some sb =>
    rw [hfind] at hbound'
    have hlook : mapLookup sb.leaves (key.getD 31 0) = some value := hbound'
    have hsbmem : sb ∈ t.stems := List.mem_of_find?_eq_some hfind
    have hp := List.find?_some hfind
    have hsbstem : sb.stem = key.take 31 := beq_iff_eq.mp hp
    obtain ⟨hwf1, hnd_leaves, hlt_leaves, hsub_root, hstem_hash⟩ := hb sb hsbmem
    obtain ⟨sibs, hw, hlen, hpf⟩ := build_walk 248 0 t.stems hg (by omega) sb hsbmem
    have hpp : prove_paths_sparse t.root (key.take 31) (key.getD 31 0) sb.leaves =
        some ((List.range 8).map (sibling_at_level_sparse sb.leaves (key.getD 31 0)),
          sibs) := by
      show (walk_path_sibs t.root (key.take 31) 0).map
        (fun path_sibs => ((List.range 8).map
          (sibling_at_level_sparse sb.leaves (key.getD 31 0)), path_sibs)) = _
      rw [hroot, ← hsbstem, hw]
      rfl
    have hred : t.prove_for_key key = some (value,
        (List.range 8).map (sibling_at_level_sparse sb.leaves (key.getD 31 0)), sibs) := by
      simp only [BinaryStateTree.prove_for_key, hfind, hlook, hpp]
      rfl
    refine ⟨(List.range 8).map (sibling_at_level_sparse sb.leaves (key.getD 31 0)), sibs,
      hred, ?_⟩
    have hplen : ¬ sibs.length > 248 := by omega
    rw [verify_eq t.state_root key value _ sibs hplen]
    have hgetD : (List.range 8).map (fun lvl =>
        ((List.range 8).map (sibling_at_level_sparse sb.leaves (key.getD 31 0))).getD
          lvl ZERO32) =
        (List.range 8).map (sibling_at_level_sparse sb.leaves (key.getD 31 0)) := rfl
    rw [hgetD]
    have hsibchar : (List.range 8).map (sibling_at_level_sparse sb.leaves (key.getD 31 0)) =
        (List.range 8).map (fun i => srootF (mapLookup sb.leaves) (0 + i)
          ((key.getD 31 0 >>> i) ^^^ 1)) := by
      refine List.map_congr_left ?_
      intro lvl _
      rw [sibling_at_level_char sb.leaves hnd_leaves (key.getD 31 0) lvl, Nat.zero_add]
    rw [hsibchar]
    have hacc : sha256_32 value = srootF (mapLookup sb.leaves) 0 (key.getD 31 0) := by
      show sha256_32 value = (match mapLookup sb.leaves (key.getD 31 0) with
        | some v => sha256_32 v
        | none => ZERO32)
      rw [hlook]
    have hsf := subFold_sroot (mapLookup sb.leaves) 8 0 (key.getD 31 0)
      (sha256_32 value) hacc
    rw [hsf]
    have hk : key.getD 31 0 < 256 := by
      have h31 : 31 < key.length := by rw [hkey.1]; omega
      refine hkey.2 _ ?_
      rw [List.getD_eq_getElem _ _ h31]
      exact List.getElem_mem _
    have hsub : key.getD 31 0 >>> 8 = 0 := by
      rw [Nat.shiftRight_eq_div_pow]
      have h28 : (2 : Nat) ^ 8 = 256 := by norm_num
      rw [h28]
      exact Nat.div_eq_of_lt hk
    rw [hsub, Nat.zero_add,
      (subtree_root_sparse_char sb.leaves hnd_leaves hlt_leaves).symm, ← hsub_root,
      ← hsbstem, ← hstem_hash, hpf]
    show ((build_stem_tree 248 t.stems 0).hash == t.root.hash) = true
    rw [← hroot]
    exact beq_self_eq_true _

/-- Witness: C1 at a one-entry bulk build and its only key. -/
theorem C1_witness : ∃ sub_sibs path_sibs,
    (from_entries [(List.replicate 32 0, List.replicate 32 1)]).prove_for_key
      (List.replicate 32 0) = some (List.replicate 32 1, sub_sibs, path_sibs) ∧
    verify_proof (from_entries [(List.replicate 32 0, List.replicate 32 1)]).state_root
      (List.replicate 32 0) (List.replicate 32 1) sub_sibs path_sibs = true :=
  C1_proof_soundness (from_entries [(List.replicate 32 0, List.replicate 32 1)])
    (List.replicate 32 0) (List.replicate 32 1)
    (Built.base _ (by decide)) (by decide) (by decide)


/-- Replacing the `u`-entry does not change lookups at other keys. -/
theorem mi_map_ne (u : Nat) (v : List Nat) (k : Nat) (hk : k ≠ u) :
    ∀ (m : List (Nat × List Nat)),
      mapLookup (m.map (fun p => if p.1 == u then (u, v) else p)) k = mapLookup m k
  | [] => rfl
  | e :: rest => by
    rw [List.map_cons]
    by_cases heu : (e.1 == u) = true
    · rw [if_pos heu]
      show mapLookup ((u, v) :: _) k = mapLookup (e :: rest) k
      unfold mapLookup
      rw [List.find?_cons_of_neg _ (by
          show ¬(((u, v) : Nat × List Nat).1 == k) = true
          rw [beq_eq_false_iff_ne.mpr (fun h => hk h.symm)]
          exact fun h => Bool.noConfusion h),
        List.find?_cons_of_neg _ (by
          show ¬(e.1 == k) = true
          rw [beq_eq_false_iff_ne.mpr (fun h => hk ((beq_iff_eq.mp heu) ▸ h).symm)]
          exact fun h => Bool.noConfusion h)]
      exact mi_map_ne u v k hk rest
    · rw [if_neg heu]
      by_cases hek : (e.1 == k) = true
      · unfold mapLookup
        rw [List.find?_cons_of_pos _ (by exact hek), List.find?_cons_of_pos _ (by exact hek)]
      · unfold mapLookup
        rw [List.find?_cons_of_neg _ (by exact hek), List.find?_cons_of_neg _ (by exact hek)]
        exact mi_map_ne u v k hk rest

/-- Replacing the `u`-entry makes the `u`-lookup the new value, when a
`u`-entry exists. -/
theorem mi_map_eq (u : Nat) (v : List Nat) :
    ∀ (m : List (Nat × List Nat)), m.any (fun p => p.1 == u) = true →
      mapLookup (m.map (fun p => if p.1 == u then (u, v) else p)) u = some v
  | [], h => Bool.noConfusion h
  | e :: rest, h => by
    rw [List.map_cons]
    by_cases heu : (e.1 == u) = true
    · rw [if_pos heu]
      show mapLookup ((u, v) :: _) u = some v
      unfold mapLookup
      rw [List.find?_cons_of_pos _ (by exact beq_self_eq_true u)]
      rfl
    · rw [if_neg heu]
      have hrest : rest.any (fun p => p.1 == u) = true := by
        have h' : ((e.1 == u) || rest.any (fun p => p.1 == u)) = true := h
        rw [bool_eq_false heu, Bool.false_or] at h'
        exact h'
      unfold mapLookup
      rw [List.find?_cons_of_neg _ (by exact heu)]
      exact mi_map_eq u v rest hrest

/-- Lookup after insert-or-overwrite. -/
theorem mapLookup_mapInsert (m : List (Nat × List Nat)) (u : Nat) (v : List Nat) (k : Nat) :
    mapLookup (mapInsert m u v) k = if k = u then some v else mapLookup m k := by
  by_cases hany : (m.any (fun p => p.1 == u)) = true
  · have h1 : mapInsert m u v = m.map (fun p => if p.1 == u then (u, v) else p) := by
      unfold mapInsert
      rw [if_pos hany]
    rw [h1]
    by_cases hk : k = u
    · rw [if_pos hk, hk]
      exact mi_map_eq u v m hany
    · rw [if_neg hk]
      exact mi_map_ne u v k hk m
  · have h1 : mapInsert m u v = m ++ [(u, v)] := by
      unfold mapInsert
      rw [if_neg hany]
    rw [h1]
    unfold mapLookup
    rw [List.find?_append]
    by_cases hk : k = u
    · rw [if_pos hk]
      have hmn : m.find? (fun p => p.1 == k) = none := by
        refine List.find?_eq_none.mpr ?_
        intro p hp hpk
        refine hany (List.any_eq_true.mpr ⟨p, hp, ?_⟩)
        rw [← hk]
        exact hpk
      rw [hmn, List.find?_cons_of_pos _ (by rw [hk]; exact beq_self_eq_true u)]
      rfl
    · rw [if_neg hk]
      have hn : ([((u, v) : Nat × List Nat)].find? (fun p => p.1 == k)) = none := by
        refine List.find?_eq_none.mpr ?_
        intro p hp hpk
        rw [List.mem_singleton] at hp
        rw [hp] at hpk
        exact hk (beq_iff_eq.mp hpk).symm
      rw [hn, Option.or_none]

/-- `find?` by stem through a stem-preserving map. -/
theorem find?_stem_map (g : StemBucket → StemBucket) (hg : ∀ b, (g b).stem = b.stem)
    (x : List Nat) : ∀ (st : List StemBucket),
    (st.map g).find? (fun sb => sb.stem == x) =
      (st.find? (fun sb => sb.stem == x)).map g
  | [] => rfl
  | b :: rest => by
    rw [List.map_cons]
    by_cases hb : (b.stem == x) = true
    · rw [List.find?_cons_of_pos _ (by rw [hg b]; exact hb),
        List.find?_cons_of_pos _ (by exact hb)]
      rfl
    · rw [List.find?_cons_of_neg _ (by rw [hg b]; exact hb),
        List.find?_cons_of_neg _ (by exact hb)]
      exact find?_stem_map g hg x rest

/-- `find?` finds a sorted-inserted bucket when nothing else matches. -/
theorem find?_insert_pos (x : StemBucket) (p : StemBucket → Bool) :
    ∀ (st : List StemBucket), (∀ b ∈ st, p b = false) → p x = true →
      (insertBucketSorted x st).find? p = some x
  | [], _, hx => by
    show ([x].find? p) = some x
    rw [List.find?_cons_of_pos _ (by exact hx)]
  | b :: rest, hall, hx => by
    unfold insertBucketSorted
    by_cases hlt : bytesLt x.stem b.stem = true
    · rw [if_pos hlt, List.find?_cons_of_pos _ (by exact hx)]
    · rw [if_neg hlt, List.find?_cons_of_neg _ (by
        rw [hall b (List.mem_cons_self b rest)]
        exact fun h => Bool.noConfusion h)]
      exact find?_insert_pos x p rest (fun y hy => hall y (List.mem_cons_of_mem b hy)) hx

/-- `find?` ignores a sorted-inserted bucket it rejects. -/
theorem find?_insert_neg (x : StemBucket) (p : StemBucket → Bool) (hx : p x = false) :
    ∀ (st : List StemBucket), (insertBucketSorted x st).find? p = st.find? p
  | [] => by
    show ([x].find? p) = (([] : List StemBucket).find? p)
    rw [List.find?_cons_of_neg _ (by rw [hx]; exact fun h => Bool.noConfusion h)]
  | b :: rest => by
    unfold insertBucketSorted
    by_cases hlt : bytesLt x.stem b.stem = true
    · rw [if_pos hlt, List.find?_cons_of_neg _ (by rw [hx]; exact fun h => Bool.noConfusion h)]
    · rw [if_neg hlt]
      by_cases hpb : p b = true
      · rw [List.find?_cons_of_pos _ (by exact hpb), List.find?_cons_of_pos _ (by exact hpb)]
      · rw [List.find?_cons_of_neg _ (by exact hpb), List.find?_cons_of_neg _ (by exact hpb)]
        exact find?_insert_neg x p hx rest


/-- What one leaf upsert does to the bound-value map. -/
theorem stemsBound_upsert (st : List StemBucket) (s : List Nat) (u : Nat) (v : List Nat)
    (mk : StemBucket) (hmk : mk.stem = s) (hmkl : mk.leaves = []) (key : List Nat) :
    stemsBound (bucketUpsertLeaf st s u v mk) key =
      if key.take 31 = s ∧ key.getD 31 0 = u then some v
      else stemsBound st key := by
  unfold stemsBound bucketUpsertLeaf
  by_cases hany : (st.any (fun sb => sb.stem == s)) = true
  · rw [if_pos hany]
    have hg : ∀ b : StemBucket,
        ((if b.stem == s then { b with leaves := mapInsert b.leaves u v } else b) :
          StemBucket).stem = b.stem := by
      intro b
      by_cases hc : (b.stem == s) = true
      · rw [if_pos hc]
      · rw [if_neg hc]
    rw [find?_stem_map _ hg (key.take 31) st]
    cases hf : st.find? (fun sb => sb.stem == key.take 31) with
    | none =>
      by_cases hc : key.take 31 = s ∧ key.getD 31 0 = u
      · exfalso
        obtain ⟨b, hb, hbs⟩ := List.any_eq_true.mp hany
        refine List.find?_eq_none.mp hf b hb ?_
        rw [hc.1]
        exact hbs
      · rw [if_neg hc]
        rfl
    | some b =>
      have hbs := List.find?_some hf
      by_cases hbeq : (b.stem == s) = true
      · have hks : key.take 31 = s := (beq_iff_eq.mp hbs).symm.trans (beq_iff_eq.mp hbeq)
        show mapLookup (if b.stem == s then { b with leaves := mapInsert b.leaves u v }
          else b).leaves (key.getD 31 0) = _
        rw [if_pos hbeq]
        show mapLookup (mapInsert b.leaves u v) (key.getD 31 0) = _
        rw [mapLookup_mapInsert]
        by_cases hku : key.getD 31 0 = u
        · rw [if_pos hku, if_pos ⟨hks, hku⟩]
        · rw [if_neg hku, if_neg (fun hc => hku hc.2)]
          rfl
      · show mapLookup (if b.stem == s then { b with leaves := mapInsert b.leaves u v }
          else b).leaves (key.getD 31 0) = _
        rw [if_neg hbeq]
        have hkns : ¬(key.take 31 = s ∧ key.getD 31 0 = u) :=
          fun hc => hbeq (beq_iff_eq.mpr ((beq_iff_eq.mp hbs).trans hc.1))
        rw [if_neg hkns]
        rfl
  · rw [if_neg hany]
    by_cases hks : key.take 31 = s
    · have hfm : (insertBucketSorted ({ mk with leaves := mapInsert mk.leaves u v }) st).find?
          (fun sb => sb.stem == key.take 31) =
          some ({ mk with leaves := mapInsert mk.leaves u v }) := by
        refine find?_insert_pos _ _ st ?_ ?_
        · intro b hb
          rw [hks]
          exact bool_eq_false (fun hp => hany (List.any_eq_true.mpr ⟨b, hb, hp⟩))
        · show (mk.stem == key.take 31) = true
          rw [hmk, hks]
          exact beq_self_eq_true s
      rw [hfm]
      show mapLookup (mapInsert mk.leaves u v) (key.getD 31 0) = _
      rw [hmkl, mapLookup_mapInsert]
      by_cases hku : key.getD 31 0 = u
      · rw [if_pos hku, if_pos ⟨hks, hku⟩]
      · rw [if_neg hku, if_neg (fun hc => hku hc.2)]
        have hfn : st.find? (fun sb => sb.stem == key.take 31) = none := by
          refine List.find?_eq_none.mpr ?_
          intro b hb hp
          rw [hks] at hp
          exact hany (List.any_eq_true.mpr ⟨b, hb, hp⟩)
        show mapLookup ([] : List (Nat × List Nat)) (key.getD 31 0) =
          (st.find? (fun sb => sb.stem == key.take 31)).bind
            (fun sb => mapLookup sb.leaves (key.getD 31 0))
        rw [hfn]
        rfl
    · have hfm : (insertBucketSorted ({ mk with leaves := mapInsert mk.leaves u v }) st).find?
          (fun sb => sb.stem == key.take 31) =
          st.find? (fun sb => sb.stem == key.take 31) := by
        refine find?_insert_neg _ _ ?_ st
        show (mk.stem == key.take 31) = false
        rw [hmk]
        exact beq_eq_false_iff_ne.mpr (fun he => hks he.symm)
      rw [hfm, if_neg (fun hc => hks hc.1)]


/-- `lastValueOf` over a cons: the tail-occurrence wins. -/
theorem lastValueOf_cons (kv : List Nat × List Nat) (rest : List (List Nat × List Nat))
    (key : List Nat) :
    lastValueOf (kv :: rest) key =
      match lastValueOf rest key with
      | some v => some v
      | none => if (kv.1 == key) = true then some kv.2 else none := by
  unfold lastValueOf
  rw [List.reverse_cons, List.find?_append]
  cases hf : rest.reverse.find? (fun p => p.1 == key) with
  | some p => rfl
  | none =>
    by_cases hk : (kv.1 == key) = true
    · rw [List.find?_cons_of_pos _ (by exact hk), if_pos hk]
      rfl
    · rw [List.find?_cons_of_neg _ (by exact hk), if_neg hk]
      rfl

/-- `lastValueOf` over an append: the right part wins. -/
theorem lastValueOf_append (A B : List (List Nat × List Nat)) (key : List Nat) :
    lastValueOf (A ++ B) key =
      match lastValueOf B key with
      | some v => some v
      | none => lastValueOf A key := by
  unfold lastValueOf
  rw [List.reverse_append, List.find?_append]
  cases hf : B.reverse.find? (fun p => p.1 == key) with
  | some p => rfl
  | none => rfl

/-- The phase-one fold realizes last-write-wins over the initial
bound-value map. -/
theorem phase1_bound : ∀ (es : List (List Nat × List Nat)) (st : List StemBucket)
    (mkf : List Nat → StemBucket) (key : List Nat),
    entriesWF es → isBytes 32 key →
    (∀ s, (mkf s).stem = s ∧ (mkf s).leaves = []) →
    stemsBound (es.foldl (fun st kv =>
      bucketUpsertLeaf st (kv.1.take 31) (kv.1.getD 31 0) kv.2 (mkf (kv.1.take 31))) st) key =
      match lastValueOf es key with
      | some v => some v
      | none => stemsBound st key := by
  intro es
  induction es with
  | nil =>
    intro st mkf key _ _ _
    rfl
  | cons kv rest ih =>
    intro st mkf key hwf hkey hmk
    rw [List.foldl_cons]
    rw [ih _ mkf key (fun e he => hwf e (List.mem_cons_of_mem kv he)) hkey hmk]
    rw [stemsBound_upsert st (kv.1.take 31) (kv.1.getD 31 0) kv.2 (mkf (kv.1.take 31))
      (hmk _).1 (hmk _).2 key]
    rw [lastValueOf_cons]
    cases hl : lastValueOf rest key with
    | some v => rfl
    | none =>
      show (if key.take 31 = kv.1.take 31 ∧ key.getD 31 0 = kv.1.getD 31 0 then some kv.2
          else stemsBound st key) =
        (match (if (kv.1 == key) = true then some kv.2 else none) with
          | some v => some v
          | none => stemsBound st key)
      have hkv1 : isBytes 32 kv.1 := (hwf kv (List.mem_cons_self kv rest)).1
      by_cases hc : (kv.1 == key) = true
      · have he : kv.1 = key := beq_iff_eq.mp hc
        rw [if_pos hc, if_pos (by rw [he]; exact ⟨rfl, rfl⟩)]
      · rw [if_neg hc]
        rw [if_neg (fun hcc => hc (beq_iff_eq.mpr (by
          rw [key_split hkv1.1, ← hcc.1, ← hcc.2, ← key_split hkey.1])))]


/-- The bound-value map only reads the stems/leaves projection. -/
theorem stemsBound_proj : ∀ (A B : List StemBucket),
    A.map (fun sb => (sb.stem, sb.leaves)) = B.map (fun sb => (sb.stem, sb.leaves)) →
    ∀ key, stemsBound A key = stemsBound B key
  | [], [], _, key => rfl
  | [], b :: B', h, key => by simp at h
  | a :: A', [], h, key => by simp at h
  | a :: A', b :: B', h, key => by
    rw [List.map_cons, List.map_cons] at h
    injection h with hh ht
    have hs : a.stem = b.stem := congrArg Prod.fst hh
    have hl : a.leaves = b.leaves := congrArg Prod.snd hh
    unfold stemsBound
    by_cases hc : (a.stem == key.take 31) = true
    · rw [List.find?_cons_of_pos _ (by exact hc),
        List.find?_cons_of_pos _ (by rw [← hs]; exact hc)]
      show mapLookup a.leaves (key.getD 31 0) = mapLookup b.leaves (key.getD 31 0)
      rw [hl]
    · rw [List.find?_cons_of_neg _ (by exact hc),
        List.find?_cons_of_neg _ (by rw [← hs]; exact hc)]
      exact stemsBound_proj A' B' ht key

/-- The touched-stem upsert phase leaves every bucket's contents
unchanged: the stems/leaves projection after `insert_many_incremental`
is that of the phase-one fold. -/
theorem insert_many_incremental_proj (t : BinaryStateTree)
    (es : List (List Nat × List Nat)) (hWF : WF t) (hes : entriesWF es) :
    ((t.insert_many_incremental es).stems).map (fun sb => (sb.stem, sb.leaves)) =
      (es.foldl (fun st kv =>
        bucketUpsertLeaf st (kv.1.take 31) (kv.1.getD 31 0) kv.2
          ⟨kv.1.take 31, [], ZERO32, ZERO32⟩) t.stems).map
        (fun sb => (sb.stem, sb.leaves)) := by
  obtain ⟨hb, hsort, hroot⟩ := hWF
  have hcore0 : ∀ sb ∈ t.stems, isBytes 31 sb.stem ∧ (sb.leaves.map (·.1)).Nodup ∧
      ∀ j ∈ sb.leaves.map (·.1), j < 256 :=
    fun sb hsb => ⟨(hb sb hsb).1, (hb sb hsb).2.1, (hb sb hsb).2.2.1⟩
  obtain ⟨p1, p2, p3, p4, p5, p6⟩ := phase1_props es t.stems
    (fun s => (⟨s, [], ZERO32, ZERO32⟩ : StemBucket)) hes (fun s => ⟨rfl, rfl⟩)
    hcore0 (sorted_stems_nodup hsort) hsort
  have hts_nodup : (dedupFirstBy id [] (es.map (fun kv => kv.1.take 31))).Nodup := by
    have h := (dedupFirstBy_nodup id [] (es.map (fun kv => kv.1.take 31))).1
    rw [List.map_id] at h
    exact h
  have htouch_of_mem : ∀ kv ∈ es,
      stemTouched (dedupFirstBy id [] (es.map (fun kv => kv.1.take 31)))
        (kv.1.take 31) = true := by
    intro kv hkv
    obtain ⟨y, hy, hye⟩ := dedupFirstBy_mem id [] (es.map (fun kv => kv.1.take 31))
      (kv.1.take 31) (List.mem_map_of_mem _ hkv) rfl
    exact List.any_eq_true.mpr ⟨y, hy, beq_iff_eq.mpr hye⟩
  have hts_mem_stem : ∀ s' ∈ dedupFirstBy id [] (es.map (fun kv => kv.1.take 31)),
      ∃ kv ∈ es, kv.1.take 31 = s' := by
    intro s' hs'
    obtain ⟨kv, hkv, hkve⟩ :=
      List.mem_map.mp (dedupFirstBy_sub id [] (es.map (fun kv => kv.1.take 31)) s' hs')
    exact ⟨kv, hkv, hkve⟩
  have hpres : ∀ s' ∈ dedupFirstBy id [] (es.map (fun kv => kv.1.take 31)),
      ∃ sb ∈ es.foldl (fun st kv =>
        bucketUpsertLeaf st (kv.1.take 31) (kv.1.getD 31 0) kv.2
          ⟨kv.1.take 31, [], ZERO32, ZERO32⟩) t.stems, sb.stem = s' := by
    intro s' hs'
    obtain ⟨kv, hkv, hkve⟩ := hts_mem_stem s' hs'
    obtain ⟨sb, hsb, hsbe⟩ := p6 kv hkv
    exact ⟨sb, hsb, hsbe.trans hkve⟩
  have hwfc : ∀ sb ∈ es.foldl (fun st kv =>
      bucketUpsertLeaf st (kv.1.take 31) (kv.1.getD 31 0) kv.2
        ⟨kv.1.take 31, [], ZERO32, ZERO32⟩) t.stems,
      stemTouched (dedupFirstBy id [] (es.map (fun kv => kv.1.take 31))) sb.stem = false →
        WFbucket sb := by
    intro sb hsb htf
    rcases p4 sb hsb with hmem | hstem
    · exact hb sb hmem
    · exfalso
      obtain ⟨kv, hkv, hkve⟩ := List.mem_map.mp hstem
      have hkve' : kv.1.take 31 = sb.stem := hkve
      have ht := htouch_of_mem kv hkv
      rw [hkve', htf] at ht
      exact Bool.noConfusion ht
  have hU' : (es.foldl (fun st kv =>
      bucketUpsertLeaf st (kv.1.take 31) (kv.1.getD 31 0) kv.2
        ⟨kv.1.take 31, [], ZERO32, ZERO32⟩) t.stems).filter
      (fun sb => !(stemTouched (dedupFirstBy id [] (es.map (fun kv => kv.1.take 31)))
        sb.stem)) =
      t.stems.filter
        (fun sb => !(stemTouched (dedupFirstBy id [] (es.map (fun kv => kv.1.take 31)))
          sb.stem)) := by
    have h := phase1_filter es t.stems (fun s => (⟨s, [], ZERO32, ZERO32⟩ : StemBucket))
      (fun x => !(stemTouched (dedupFirstBy id [] (es.map (fun kv => kv.1.take 31))) x))
      (fun s => rfl)
      (fun kv hkv => by
        show (!(stemTouched (dedupFirstBy id [] (es.map (fun kv => kv.1.take 31)))
          (kv.1.take 31))) = false
        rw [htouch_of_mem kv hkv]
        rfl)
    exact h
  have hroot' : t.root = build_stem_tree 248
      ((t.stems.filter (fun sb =>
        stemTouched (dedupFirstBy id [] (es.map (fun kv => kv.1.take 31))) sb.stem)) ++
       ((es.foldl (fun st kv =>
          bucketUpsertLeaf st (kv.1.take 31) (kv.1.getD 31 0) kv.2
            ⟨kv.1.take 31, [], ZERO32, ZERO32⟩) t.stems).filter
        (fun sb => !(stemTouched (dedupFirstBy id [] (es.map (fun kv => kv.1.take 31)))
          sb.stem)))) 0 := by
    rw [hU', hroot]
    refine build_proj_perm 248 0 _ _ ?_
    exact ((List.filter_append_perm
      (fun sb => stemTouched (dedupFirstBy id [] (es.map (fun kv => kv.1.take 31))) sb.stem)
      t.stems).symm).map (fun b => (b.stem, b.stem_hash))
  exact (inc_fold (dedupFirstBy id [] (es.map (fun kv => kv.1.take 31)))
    (es.foldl (fun st kv =>
      bucketUpsertLeaf st (kv.1.take 31) (kv.1.getD 31 0) kv.2
        ⟨kv.1.take 31, [], ZERO32, ZERO32⟩) t.stems)
    t.root t.stems hts_nodup hpres p1 p3 hwfc
    (fun sb hsb => (hb sb hsb).1) (sorted_stems_nodup hsort) hroot').2


/-- The stems of a bulk build are exactly the entry-key stems. -/
theorem from_entries_stem_mem (e : List (List Nat × List Nat)) (s : List Nat) :
    (∃ sb ∈ (from_entries e).stems, sb.stem = s) ↔ (∃ kv ∈ e, kv.1.take 31 = s) := by
  by_cases hne : e = []
  · subst hne
    constructor
    · rintro ⟨sb, hsb, _⟩
      simp [from_entries, BinaryStateTree.new] at hsb
    · rintro ⟨kv, hkv, _⟩
      exact absurd hkv (List.not_mem_nil kv)
  · rw [from_entries_eq e hne]
    obtain ⟨hs1, hs2, hs3⟩ := groupStems_spec (projsOf e).length (projsOf e)
      (Nat.le_refl _) (projsOf_stem_sorted e)
    constructor
    · rintro ⟨sb, hsb, hstem⟩
      obtain ⟨g, hg, hgsb⟩ := List.mem_map.mp hsb
      obtain ⟨hgne, hmem, _⟩ := hs1 g hg
      have hsb_stem : sb.stem = (g.headD ([], 0, [])).1 := by
        rw [← hgsb]
        rfl
      have hmem2 : g.headD ([], 0, []) ∈
          e.map (fun kv => (kv.1.take 31, kv.1.getD 31 0, kv.2)) :=
        (projsOf_perm e).mem_iff.mp hmem
      obtain ⟨kv, hkv, hkveq⟩ := List.mem_map.mp hmem2
      refine ⟨kv, hkv, ?_⟩
      have h1 : kv.1.take 31 = (g.headD ([], 0, [])).1 := congrArg Prod.fst hkveq
      rw [h1, ← hsb_stem]
      exact hstem
    · rintro ⟨kv, hkv, hkvs⟩
      have hq : ∃ q ∈ projsOf e, q.1 = s := by
        refine ⟨(kv.1.take 31, kv.1.getD 31 0, kv.2), ?_, hkvs⟩
        exact (projsOf_perm e).mem_iff.mpr (List.mem_map_of_mem _ hkv)
      have hs' := hs3 s hq
      obtain ⟨g, hg, hgs⟩ := List.mem_map.mp hs'
      refine ⟨mkBucket g, List.mem_map_of_mem _ hg, ?_⟩
      show (g.headD ([], 0, [])).1 = s
      exact hgs

/-- Sorted distinct-stem bucket lists with the same stem set list their
stems identically. -/
theorem sorted_stems_ext (A B : List StemBucket)
    (hA : A.Pairwise (fun a b => bytesLt a.stem b.stem = true))
    (hB : B.Pairwise (fun a b => bytesLt a.stem b.stem = true))
    (hext : ∀ s, (∃ a ∈ A, a.stem = s) ↔ (∃ b ∈ B, b.stem = s)) :
    A.map (fun sb => sb.stem) = B.map (fun sb => sb.stem) := by
  have hndA : (A.map (fun sb => sb.stem)).Nodup := sorted_stems_nodup hA
  have hndB : (B.map (fun sb => sb.stem)).Nodup := sorted_stems_nodup hB
  have hperm : List.Perm (A.map (fun sb => sb.stem)) (B.map (fun sb => sb.stem)) := by
    rw [List.perm_ext_iff_of_nodup hndA hndB]
    intro s
    constructor
    · intro hs
      obtain ⟨a, ha, hae⟩ := List.mem_map.mp hs
      obtain ⟨b, hb, hbe⟩ := (hext s).mp ⟨a, ha, hae⟩
      rw [← hbe]
      exact List.mem_map_of_mem _ hb
    · intro hs
      obtain ⟨b, hb, hbe⟩ := List.mem_map.mp hs
      obtain ⟨a, ha, hae⟩ := (hext s).mpr ⟨b, hb, hbe⟩
      rw [← hae]
      exact List.mem_map_of_mem _ ha
  have hsA : List.Sorted (fun x y : List Nat => bytesLt x y = true)
      (A.map (fun sb => sb.stem)) :=
    List.pairwise_map.mpr (List.Pairwise.imp (fun h => h) hA)
  have hsB : List.Sorted (fun x y : List Nat => bytesLt x y = true)
      (B.map (fun sb => sb.stem)) :=
    List.pairwise_map.mpr (List.Pairwise.imp (fun h => h) hB)
  haveI : IsAntisymm (List Nat) (fun x y => bytesLt x y = true) :=
    ⟨fun a b hab hba => absurd hba (by
      rw [bytesLt_asymm hab]
      exact fun h => Bool.noConfusion h)⟩
  exact List.eq_of_perm_of_sorted hperm hsA hsB


/-- Well-formed sorted bucket lists with identical stems and identical
bound values carry identical stem hashes. -/
theorem buckets_pi_eq : ∀ (A B : List StemBucket),
    (∀ sb ∈ A, WFbucket sb) → (∀ sb ∈ B, WFbucket sb) →
    (A.map (fun sb => sb.stem)).Nodup →
    A.map (fun sb => sb.stem) = B.map (fun sb => sb.stem) →
    (∀ key, isBytes 32 key → key.take 31 ∈ A.map (fun sb => sb.stem) →
      stemsBound A key = stemsBound B key) →
    A.map (fun sb => (sb.stem, sb.stem_hash)) = B.map (fun sb => (sb.stem, sb.stem_hash))
  | [], [], _, _, _, _, _ => rfl
  | [], b :: B', _, _, _, hstems, _ => by simp at hstems
  | a :: A', [], _, _, _, hstems, _ => by simp at hstems
  | a :: A', b :: B', hA, hB, hnd, hstems, hbound => by
    rw [List.map_cons, List.map_cons] at hstems
    injection hstems with hs ht
    rw [List.map_cons, List.nodup_cons] at hnd
    obtain ⟨ha1, ha2, ha3, ha4, ha5⟩ := hA a (List.mem_cons_self a A')
    obtain ⟨hb1, hb2, hb3, hb4, hb5⟩ := hB b (List.mem_cons_self b B')
    have hlk : ∀ j, j < 256 → mapLookup a.leaves j = mapLookup b.leaves j := by
      intro j hj
      have hkey : isBytes 32 (a.stem ++ [j]) := by
        constructor
        · rw [List.length_append, ha1.1]
          rfl
        · intro x hx
          rcases List.mem_append.mp hx with h | h
          · exact ha1.2 x h
          · rw [List.mem_singleton] at h
            rw [h]
            exact hj
      have htake : (a.stem ++ [j]).take 31 = a.stem := by
        rw [← ha1.1]
        exact (take_of_append rfl).1
      have hgd : (a.stem ++ [j]).getD 31 0 = j := by
        rw [List.getD_append_right _ _ _ _ (by rw [ha1.1]), ha1.1]
        rfl
      have hmemA : (a.stem ++ [j]).take 31 ∈ (a :: A').map (fun sb => sb.stem) := by
        rw [htake, List.map_cons]
        exact List.mem_cons_self _ _
      have hbv := hbound (a.stem ++ [j]) hkey hmemA
      unfold stemsBound at hbv
      rw [htake] at hbv
      rw [List.find?_cons_of_pos _ (by exact beq_self_eq_true a.stem)] at hbv
      rw [List.find?_cons_of_pos _ (by rw [← hs]; exact beq_self_eq_true a.stem)] at hbv
      rw [hgd] at hbv
      exact hbv
    have hsr : srootF (mapLookup a.leaves) 8 0 = srootF (mapLookup b.leaves) 8 0 := by
      refine srootF_congr_on 8 _ _ 0 ?_
      intro j h0 h1
      refine hlk j ?_
      have h2 : (0 + 1) * 2 ^ 8 = 256 := by norm_num
      omega
    have hhash : a.stem_hash = b.stem_hash := by
      rw [ha5, hb5, ha4, hb4,
        subtree_root_sparse_char a.leaves ha2 ha3,
        subtree_root_sparse_char b.leaves hb2 hb3, hs, hsr]
    have hih : A'.map (fun sb => (sb.stem, sb.stem_hash)) =
        B'.map (fun sb => (sb.stem, sb.stem_hash)) := by
      refine buckets_pi_eq A' B' (fun sb hsb => hA sb (List.mem_cons_of_mem a hsb))
        (fun sb hsb => hB sb (List.mem_cons_of_mem b hsb)) hnd.2 ht ?_
      intro key hk hmem'
      have hne_a : (a.stem == key.take 31) = false := by
        rw [beq_eq_false_iff_ne]
        intro he
        apply hnd.1
        rw [he]
        exact hmem'
      have h1 : stemsBound (a :: A') key = stemsBound A' key := by
        unfold stemsBound
        rw [List.find?_cons_of_neg _ (by rw [hne_a]; exact fun h => Bool.noConfusion h)]
      have h2 : stemsBound (b :: B') key = stemsBound B' key := by
        unfold stemsBound
        rw [List.find?_cons_of_neg _ (by rw [← hs, hne_a]; exact fun h => Bool.noConfusion h)]
      rw [← h1, ← h2]
      refine hbound key hk ?_
      rw [List.map_cons]
      exact List.mem_cons_of_mem _ hmem'
    rw [List.map_cons, List.map_cons, hs, hhash, hih]


/-- C2: incrementality equivalence — building from the whole entry
sequence yields the same state root as building from the base and then
applying the delta with `insert_many_incremental`.  (No duplicate-free
hypothesis is needed: both sides realize last-write-wins in the order
`base` then `delta`.) -/
theorem C2_incremental_equivalence (base delta : List (List Nat × List Nat))
    (hwfb : entriesWF base) (hwfd : entriesWF delta) :
    (from_entries (base ++ delta)).state_root =
      ((from_entries base).insert_many_incremental delta).state_root := by
  have hwfapp : entriesWF (base ++ delta) := by
    intro kv hkv
    rcases List.mem_append.mp hkv with h | h
    · exact hwfb kv h
    · exact hwfd kv h
  obtain ⟨hbL, hsortL, hrootL⟩ := WF_from_entries (base ++ delta) hwfapp
  have hWFb := WF_from_entries base hwfb
  obtain ⟨hbR, hsortR, hrootR⟩ :=
    insert_many_incremental_WF (from_entries base) delta hWFb hwfd
  have hproj := insert_many_incremental_proj (from_entries base) delta hWFb hwfd
  have hbound : ∀ key, isBytes 32 key →
      stemsBound (from_entries (base ++ delta)).stems key =
      stemsBound ((from_entries base).insert_many_incremental delta).stems key := by
    intro key hk
    have hL : stemsBound (from_entries (base ++ delta)).stems key =
        lastValueOf (base ++ delta) key := boundValue_from_entries (base ++ delta) key hwfapp hk
    have hR1 : stemsBound ((from_entries base).insert_many_incremental delta).stems key =
        stemsBound (delta.foldl (fun st kv =>
          bucketUpsertLeaf st (kv.1.take 31) (kv.1.getD 31 0) kv.2
            ⟨kv.1.take 31, [], ZERO32, ZERO32⟩) (from_entries base).stems) key :=
      stemsBound_proj _ _ hproj key
    have hR2 := phase1_bound delta (from_entries base).stems
      (fun s => (⟨s, [], ZERO32, ZERO32⟩ : StemBucket)) key hwfd hk (fun s => ⟨rfl, rfl⟩)
    have hbase : stemsBound (from_entries base).stems key = lastValueOf base key :=
      boundValue_from_entries base key hwfb hk
    calc stemsBound (from_entries (base ++ delta)).stems key
        = lastValueOf (base ++ delta) key := hL
      _ = (match lastValueOf delta key with
            | some v => some v
            | none => lastValueOf base key) := lastValueOf_append base delta key
      _ = (match lastValueOf delta key with
            | some v => some v
            | none => stemsBound (from_entries base).stems key) := by rw [← hbase]
      _ = stemsBound (delta.foldl (fun st kv =>
            bucketUpsertLeaf st (kv.1.take 31) (kv.1.getD 31 0) kv.2
              ⟨kv.1.take 31, [], ZERO32, ZERO32⟩) (from_entries base).stems) key := hR2.symm
      _ = stemsBound ((from_entries base).insert_many_incremental delta).stems key :=
            hR1.symm
  obtain ⟨p1, p2, p3, p4, p5, p6⟩ := phase1_props delta (from_entries base).stems
    (fun s => (⟨s, [], ZERO32, ZERO32⟩ : StemBucket)) hwfd (fun s => ⟨rfl, rfl⟩)
    (fun sb hsb => ⟨(hWFb.1 sb hsb).1, (hWFb.1 sb hsb).2.1, (hWFb.1 sb hsb).2.2.1⟩)
    (sorted_stems_nodup hWFb.2.1) hWFb.2.1
  have hstemsR : ((from_entries base).insert_many_incremental delta).stems.map
      (fun sb => sb.stem) =
      (delta.foldl (fun st kv =>
        bucketUpsertLeaf st (kv.1.take 31) (kv.1.getD 31 0) kv.2
          ⟨kv.1.take 31, [], ZERO32, ZERO32⟩) (from_entries base).stems).map
        (fun sb => sb.stem) := by
    have h := congrArg (List.map Prod.fst) hproj
    rw [List.map_map, List.map_map] at h
    exact h
  have hstemseq : (from_entries (base ++ delta)).stems.map (fun sb => sb.stem) =
      ((from_entries base).insert_many_incremental delta).stems.map (fun sb => sb.stem) := by
    refine sorted_stems_ext _ _ hsortL hsortR ?_
    intro s
    constructor
    · rintro ⟨a, ha, hae⟩
      obtain ⟨kv, hkv, hkve⟩ := (from_entries_stem_mem (base ++ delta) s).mp ⟨a, ha, hae⟩
      have hmem : s ∈ ((from_entries base).insert_many_incremental delta).stems.map
          (fun sb => sb.stem) := by
        rw [hstemsR]
        rcases List.mem_append.mp hkv with h | h
        · obtain ⟨sb0, hsb0, hsb0e⟩ := (from_entries_stem_mem base s).mpr ⟨kv, h, hkve⟩
          obtain ⟨sb1, hsb1, hsb1e⟩ := p5 s ⟨sb0, hsb0, hsb0e⟩
          rw [← hsb1e]
          exact List.mem_map_of_mem _ hsb1
        · obtain ⟨sb1, hsb1, hsb1e⟩ := p6 kv h
          rw [← hkve]
          have hsb1e' : sb1.stem = kv.1.take 31 := hsb1e
          rw [← hsb1e']
          exact List.mem_map_of_mem _ hsb1
      obtain ⟨bb, hbb, hbbe⟩ := List.mem_map.mp hmem
      exact ⟨bb, hbb, hbbe⟩
    · rintro ⟨bb, hbb, hbbe⟩
      have hsf : s ∈ (delta.foldl (fun st kv =>
          bucketUpsertLeaf st (kv.1.take 31) (kv.1.getD 31 0) kv.2
            ⟨kv.1.take 31, [], ZERO32, ZERO32⟩) (from_entries base).stems).map
          (fun sb => sb.stem) := by
        rw [← hstemsR, ← hbbe]
        exact List.mem_map_of_mem _ hbb
      obtain ⟨sb1, hsb1, hsb1e⟩ := List.mem_map.mp hsf
      rcases p4 sb1 hsb1 with hmem | hstem
      · obtain ⟨kv, hkv, hkve⟩ := (from_entries_stem_mem base s).mp ⟨sb1, hmem, hsb1e⟩
        exact (from_entries_stem_mem (base ++ delta) s).mpr
          ⟨kv, List.mem_append_left _ hkv, hkve⟩
      · obtain ⟨kv, hkv, hkve⟩ := List.mem_map.mp hstem
        refine (from_entries_stem_mem (base ++ delta) s).mpr
          ⟨kv, List.mem_append_right _ hkv, ?_⟩
        have hkve' : kv.1.take 31 = sb1.stem := hkve
        rw [hkve', hsb1e]
  have hpi : (from_entries (base ++ delta)).stems.map (fun sb => (sb.stem, sb.stem_hash)) =
      ((from_entries base).insert_many_incremental delta).stems.map
        (fun sb => (sb.stem, sb.stem_hash)) := by
    refine buckets_pi_eq _ _ hbL hbR (sorted_stems_nodup hsortL) hstemseq ?_
    intro key hk _
    exact hbound key hk
  show (from_entries (base ++ delta)).root.hash =
    ((from_entries base).insert_many_incremental delta).root.hash
  rw [hrootL, hrootR]
  exact congrArg Node.hash (build_proj_perm 248 0 _ _ (by rw [hpi]))

/-- Witness: C2 on a concrete one-entry base and one-entry delta. -/
theorem C2_witness :
    (from_entries ([(List.replicate 32 0, List.replicate 32 1)] ++
        [(List.replicate 32 2, List.replicate 32 3)])).state_root =
      ((from_entries [(List.replicate 32 0, List.replicate 32 1)]).insert_many_incremental
        [(List.replicate 32 2, List.replicate 32 3)]).state_root :=
  C2_incremental_equivalence _ _ (by decide) (by decide)
end Chain
